import Mathlib

/-!
# Verification of the lyxal_encoding data-encoding engine

Shallow embedding of `src/data-encoding` (the compiled-encoding runtime: the
fixed-capacity big-integer core `bigint.rs`, the arithmetic codec
`arithmetic.rs`, the block codec and the buffer/allocation API of `lib.rs`,
and the specification compiler `Specification::encoding`).

Modeling conventions:
* Machine integers (`u8`, `u32`, `u64`, `usize`) are `Nat` with explicit
  `% 2 ^ w` exactly where the Rust code performs a truncating cast, and with
  explicit `usizeMax` bounds where the Rust code uses `checked_add`/
  `checked_mul`.
* Buffers (`&mut [u8]`) are `List Nat`; every index, slice and
  `copy_from_slice` is bounds-checked, and a failed check produces the
  distinguished `R.panic` result, mirroring a Rust panic.  Functions that
  mutate a caller buffer return the final buffer next to the result, so that
  buffer contents at the moment of an error are observable.
* The SSSE3 SIMD helpers (`encode_base64_simd`, `encode_hex_simd`, ...) are
  compiled to no-ops on targets without the `ssse3` target feature
  (`#[cfg(not(...))] { let _ = (input, output, sym); }`); this development
  models that portable semantics.  The surrounding (unconditional) pointer
  arithmetic of `encode_mut` is modeled faithfully.
* Loops whose termination is not structural use either well-founded recursion
  or an explicit fuel parameter; fuel exhaustion is the distinguished `R.hang`
  result and the fuel passed by callers is shown (or argued) sufficient in the
  reachable cases.
* The predefined constants of the missing `data.rs` module are modelled from
  the spec via the embedded `Specification.encoding` compiler.
-/

namespace DE

/-- Result of running a piece of embedded Rust code: a returned value, a
returned error value, a panic (index/slice out of bounds, `unwrap`, `expect`,
division by zero, `unreachable!`), or non-termination / fuel exhaustion. -/
inductive R (ε α : Type) where
  | ok (a : α) : R ε α
  | err (e : ε) : R ε α
  | panic : R ε α
  | hang : R ε α
deriving DecidableEq

/-- Sequencing of embedded code: errors, panics and hangs propagate. -/
def R.bind {ε α β : Type} : R ε α → (α → R ε β) → R ε β
  | R.ok a, f => f a
  | R.err e, _ => R.err e
  | R.panic, _ => R.panic
  | R.hang, _ => R.hang

instance {ε : Type} : Monad (R ε) where
  pure := R.ok
  bind := R.bind

/-- `usize::MAX` on a 64-bit target. -/
def usizeMax : Nat := 2 ^ 64 - 1

/-- Bounds-checked single write `l[i] = v` (Rust slice indexing panics when
out of bounds). -/
def wr (l : List Nat) (i v : Nat) : Option (List Nat) :=
  if i < l.length then some (l.set i v) else none

/-- Bounds-checked slice `&l[a..b]`. -/
def sliceL (l : List Nat) (a b : Nat) : Option (List Nat) :=
  if a ≤ b ∧ b ≤ l.length then some ((l.take b).drop a) else none

/-- `l[a..b].copy_from_slice(&src)`: panics unless `a ≤ b ≤ l.len` and
`src.len = b - a`. -/
def copyFromSlice (l : List Nat) (a b : Nat) (src : List Nat) : Option (List Nat) :=
  if a ≤ b ∧ b ≤ l.length ∧ src.length = b - a then
    some (l.take a ++ src ++ l.drop b)
  else none

/-- `fn div_ceil(a, b) -> Option<usize>` from lib.rs. -/
def div_ceil (a b : Nat) : Option Nat :=
  if b = 0 then none
  else
    let d := a / b
    if a % b = 0 then some d
    else if d + 1 ≤ usizeMax then some (d + 1) else none

/-- `fn floor(a, b) = a - a % b` from lib.rs (all call sites have `b > 0`). -/
def floor (a b : Nat) : Nat := a - a % b

/-- `usize::checked_mul`. -/
def checkedMul (a b : Nat) : Option Nat :=
  if a * b ≤ usizeMax then some (a * b) else none

/-- `usize::checked_add`. -/
def checkedAdd (a b : Nat) : Option Nat :=
  if a + b ≤ usizeMax then some (a + b) else none

/-- Bit length of `x` (number of halvings to reach 0), with enough fuel for
any `x < 2 ^ fuel`. -/
def bitLenGo : Nat → Nat → Nat
  | 0, _ => 0
  | f + 1, x => if x = 0 then 0 else bitLenGo f (x / 2) + 1

/-- `u32::leading_zeros` for `x < 2 ^ 32`. -/
def clz32 (x : Nat) : Nat := 32 - bitLenGo 32 x

/-- Reverse-table sentinel `INVALID = 128`. -/
def INVALID : Nat := 128

/-- Reverse-table sentinel `IGNORE = 129`. -/
def IGNORE : Nat := 129

/-- Reverse-table sentinel `PADDING = 130`. -/
def PADDING : Nat := 130

/-- `enum DecodeKind`. -/
inductive DecodeKind where
  | Length | Symbol | Trailing | Padding | BufferTooSmall | Overflow
deriving DecidableEq

/-- `struct DecodeError { position, kind }`. -/
structure DecodeError where
  position : Nat
  kind : DecodeKind
deriving DecidableEq

/-- `enum EncodeKind`. -/
inductive EncodeKind where
  | BufferTooSmall | Overflow
deriving DecidableEq

/-- `struct EncodeError { kind }`. -/
structure EncodeError where
  kind : EncodeKind
deriving DecidableEq

/-- `struct DecodePartial { read, written, error }`. -/
structure DecodePartial where
  read : Nat
  written : Nat
  error : DecodeError
deriving DecidableEq

/-- `enum PaddingMode`. -/
inductive PaddingMode where
  | None | Standard | PadConcat | PadFinal
deriving DecidableEq

/-! ## bigint.rs : `BigUintView` -/

/-- `struct BigUintView { chunks, start }`: big-endian `u32` limbs; limbs
before `start` are implicitly zero. -/
structure BV where
  chunks : List Nat
  start : Nat
deriving DecidableEq

/-- `BigUintView::new`: zero-fill the buffer and set `start = len`. -/
def BV.new (buf : List Nat) : BV :=
  ⟨List.replicate buf.length 0, buf.length⟩

/-- Limb loop of `div_mod`, from the most significant used limb down, carrying
a 64-bit accumulator: returns the new limbs and the final remainder. -/
def divmodGo (d : Nat) : Nat → List Nat → List Nat × Nat
  | carry, [] => ([], carry)
  | carry, c :: rest =>
      let carry1 := (carry <<< 32) ||| c
      let q := (carry1 / d) % 2 ^ 32
      let out := divmodGo d (carry1 % d) rest
      (q :: out.1, out.2)

/-- `BigUintView::div_mod`: long division by a `u32`, advancing `start` past
newly exposed zero limbs.  `none` models the division-by-zero panic. -/
def BV.div_mod (s : BV) (d : Nat) : Option (BV × Nat) :=
  if d = 0 then none
  else
    let out := divmodGo d 0 (s.chunks.drop s.start)
    let newStart := s.start + (out.1.takeWhile (fun c => c == 0)).length
    some (⟨s.chunks.take s.start ++ out.1, newStart⟩, out.2)

/-- Limb loop of `mul_add`, from the least significant limb backward: returns
the new limbs and the outgoing carry. -/
def muladdGo (m a : Nat) : List Nat → List Nat × Nat
  | [] => ([], a)
  | c :: rest =>
      let out := muladdGo m a rest
      let t := c * m + out.2
      (t % 2 ^ 32 :: out.1, t >>> 32)

/-- `BigUintView::mul_add`: multiply by `m` and add `a`; on surviving carry
borrow one more limb by decrementing `start`, or fail if none remains. -/
def BV.mul_add (s : BV) (m a : Nat) : Except Unit BV :=
  let out := muladdGo m a (s.chunks.drop s.start)
  if out.2 > 0 then
    if s.start > 0 then
      Except.ok ⟨s.chunks.take (s.start - 1) ++ out.2 % 2 ^ 32 :: out.1, s.start - 1⟩
    else Except.error ()
  else Except.ok ⟨s.chunks.take s.start ++ out.1, s.start⟩

/-- `BigUintView::is_zero`. -/
def BV.is_zero (s : BV) : Bool := s.chunks.length ≤ s.start

/-- One limb assembled from a least-significant-first group of at most 4
bytes (`chunk |= byte << shift` for `shift = 0, 8, 16, 24`). -/
def beChunkOf : List Nat → Nat
  | [] => 0
  | b :: rest => b ||| beChunkOf rest <<< 8

/-- Group a least-significant-first byte list into limbs of 4 bytes,
least-significant limb first (fuel = list length, always sufficient since
each step drops at least one byte). -/
def groups4Go : Nat → List Nat → List Nat
  | 0, _ => []
  | fuel + 1, l => if l = [] then [] else beChunkOf (l.take 4) :: groups4Go fuel (l.drop 4)

/-- Group a least-significant-first byte list into limbs of 4 bytes,
least-significant limb first. -/
def groups4 (l : List Nat) : List Nat := groups4Go l.length l

/-- `BigUintView::load_be_bytes`: populate the limbs from big-endian bytes,
failing when more limbs are needed than the capacity allows. -/
def BV.load_be_bytes (s : BV) (bytes : List Nat) : Bool × BV :=
  let len := s.chunks.length
  if bytes.length = 0 then (true, ⟨s.chunks, len⟩)
  else
    let needed := (bytes.length + 4 - 1) / 4
    if needed > len then (false, s)
    else
      let st := len - needed
      let filled := (groups4 bytes.reverse).reverse
      let chunks2 := List.replicate st 0 ++ filled
      let newStart := st + ((chunks2.drop st).takeWhile (fun c => c == 0)).length
      (true, ⟨chunks2, newStart⟩)

/-- `u32::to_be_bytes`. -/
def chunkBEBytes (c : Nat) : List Nat :=
  [c >>> 24 % 256, c >>> 16 % 256, c >>> 8 % 256, c % 256]

/-- `BigUintView::copy_into_bytes_be`: emit the minimal big-endian byte
representation; `R.err ()` when `out` is too small (or on the internal safety
check), `R.panic` on the impossible out-of-bounds limb read. -/
def BV.copy_into_bytes_be (s : BV) (out : List Nat) : R Unit (Nat × List Nat) :=
  if s.is_zero then R.ok (0, out)
  else
    match s.chunks[s.start]? with
    | none => R.panic
    | some first =>
      let skip := clz32 first / 8
      if 4 ≤ skip ∧ first ≠ 0 then R.err ()
      else
        let total := (s.chunks.length - s.start) * 4 - skip
        if out.length < total then R.err ()
        else
          let bytesOut :=
            (chunkBEBytes first).drop skip ++
              ((s.chunks.drop (s.start + 1)).map chunkBEBytes).flatten
          R.ok (bytesOut.length, bytesOut ++ out.drop bytesOut.length)

/-! ## arithmetic.rs : base conversion for non-power-of-two alphabets -/

/-- `const MAX_BIGINT_BUFFER: usize = 128` (128 limbs = 512 bytes). -/
def MAX_BIGINT_BUFFER : Nat := 128

/-- The inner digit loop of `encode_to_buffer` for the final 32-bit chunk:
emit base-`base` digits of `bigRem` until it reaches zero (at least one). -/
def emitFinal (alphabet : List Nat) (base : Nat) :
    Nat → Nat → Nat → List Nat → R EncodeError Nat × List Nat
  | 0, _, _, output => (R.hang, output)
  | fuel + 1, bigRem, outIdx, output =>
      let result := bigRem / base
      let remainder := bigRem % base
      if outIdx ≥ output.length then (R.err ⟨EncodeKind.BufferTooSmall⟩, output)
      else
        match alphabet[remainder]? with
        | none => (R.panic, output)
        | some a =>
          match wr output outIdx a with
          | none => (R.panic, output)
          | some output2 =>
            if result = 0 then (R.ok (outIdx + 1), output2)
            else emitFinal alphabet base fuel result (outIdx + 1) output2

/-- The inner digit loop of `encode_to_buffer` for a non-final chunk: emit
exactly `big_pow` base-`base` digits of `bigRem`. -/
def emitN (alphabet : List Nat) (base : Nat) :
    Nat → Nat → Nat → List Nat → R EncodeError Nat × List Nat
  | 0, _, outIdx, output => (R.ok outIdx, output)
  | k + 1, bigRem, outIdx, output =>
      let result := bigRem / base
      let remainder := bigRem % base
      if outIdx ≥ output.length then (R.err ⟨EncodeKind.BufferTooSmall⟩, output)
      else
        match alphabet[remainder]? with
        | none => (R.panic, output)
        | some a =>
          match wr output outIdx a with
          | none => (R.panic, output)
          | some output2 => emitN alphabet base k result (outIdx + 1) output2

/-- The `'fast` loop of `encode_to_buffer`: peel off a 32-bit chunk with
`div_mod(big_base)` and emit its digits; the final chunk stops at zero.  The
fuel models the loop's non-structural termination (for `base = 1` with a
nonzero value the Rust loop never terminates). -/
def encodeLoop (alphabet : List Nat) (base bigPow bigBase : Nat) :
    Nat → BV → Nat → List Nat → R EncodeError Nat × List Nat
  | 0, _, _, output => (R.hang, output)
  | fuel + 1, big, outIdx, output =>
      match big.div_mod bigBase with
      | none => (R.panic, output)
      | some (big2, bigRem) =>
        if big2.is_zero then emitFinal alphabet base 40 bigRem outIdx output
        else
          match emitN alphabet base bigPow bigRem outIdx output with
          | (R.ok outIdx2, output2) =>
              encodeLoop alphabet base bigPow bigBase fuel big2 outIdx2 output2
          | other => other

/-- The leader loop of `encode_to_buffer`: one `alphabet[0]` symbol per
leading zero byte among the first `input.len() - 1` input bytes. -/
def emitLeaders (leader : Nat) :
    List Nat → Nat → List Nat → R EncodeError Nat × List Nat
  | [], outIdx, output => (R.ok outIdx, output)
  | b :: rest, outIdx, output =>
      if b = 0 then
        if outIdx ≥ output.length then (R.err ⟨EncodeKind.BufferTooSmall⟩, output)
        else
          match wr output outIdx leader with
          | none => (R.panic, output)
          | some o2 => emitLeaders leader rest (outIdx + 1) o2
      else (R.ok outIdx, output)

/-- `arithmetic::encode_to_buffer`. -/
def encode_to_buffer (alphabet input output : List Nat) :
    R EncodeError Nat × List Nat :=
  if input = [] then (R.ok 0, output)
  else
    let base := alphabet.length
    let big0 := BV.new (List.replicate MAX_BIGINT_BUFFER 0)
    let load := big0.load_be_bytes input
    if !load.1 then (R.err ⟨EncodeKind.Overflow⟩, output)
    else
      if 32 - clz32 base = 0 then (R.panic, output)
      else
        let bigPow := 32 / (32 - clz32 base)
        let bigBase := base ^ bigPow
        match encodeLoop alphabet base bigPow bigBase (8 * input.length + 2)
            load.2 0 output with
        | (R.ok outIdx, out1) =>
          match alphabet[0]? with
          | none => (R.panic, out1)
          | some leader =>
            match emitLeaders leader (input.take (input.length - 1)) outIdx out1 with
            | (R.ok outIdx2, out2) =>
                (R.ok outIdx2, (out2.take outIdx2).reverse ++ out2.drop outIdx2)
            | other => other
        | other => other

/-- `const INVALID_INDEX: u8 = 0xFF`. -/
def INVALID_INDEX : Nat := 255

/-- The decode lookup table: `lookup[byte] = i` for each alphabet entry. -/
def buildLookup (alphabet : List Nat) : List Nat :=
  alphabet.enum.foldl (fun t p => t.set p.2 p.1) (List.replicate 256 INVALID_INDEX)

/-- The digit-folding loop of `decode_to_buffer`: look each input byte up and
fold it in with `mul_add(base, index)`.  An unmapped byte reports the position
of the first input byte with the same value (`find` in the source), and a
`mul_add` failure reports `Overflow` at position 0. -/
def decodeFold (fullInput lookup : List Nat) (base : Nat) :
    List Nat → BV → R DecodeError BV
  | [], big => R.ok big
  | b :: rest, big =>
      match lookup[b]? with
      | none => R.panic
      | some idx =>
        if idx = INVALID_INDEX then
          let position :=
            match fullInput.findIdx? (fun x => x == b) with
            | some p => p
            | none => 0
          R.err ⟨position, DecodeKind.Symbol⟩
        else
          match big.mul_add base idx with
          | Except.error _ => R.err ⟨0, DecodeKind.Overflow⟩
          | Except.ok big2 => decodeFold fullInput lookup base rest big2

/-- `arithmetic::decode_to_buffer`. -/
def decode_to_buffer (alphabet input output : List Nat) :
    R DecodeError Nat × List Nat :=
  if input = [] then (R.ok 0, output)
  else
    let base := alphabet.length
    let lookup := buildLookup alphabet
    let big0 := BV.new (List.replicate MAX_BIGINT_BUFFER 0)
    match decodeFold input lookup base input big0 with
    | R.err e => (R.err e, output)
    | R.panic => (R.panic, output)
    | R.hang => (R.hang, output)
    | R.ok big =>
      match big.copy_into_bytes_be output with
      | R.err _ => (R.err ⟨0, DecodeKind.BufferTooSmall⟩, output)
      | R.panic => (R.panic, output)
      | R.hang => (R.hang, output)
      | R.ok (written, out1) =>
        match alphabet[0]? with
        | none => (R.panic, out1)
        | some leader =>
          let leaders := (input.takeWhile (fun b => b == leader)).length
          if leaders > 0 then
            if out1.length < written + leaders then
              (R.err ⟨0, DecodeKind.BufferTooSmall⟩, out1)
            else
              (R.ok (written + leaders),
                List.replicate leaders 0 ++ out1.take written ++
                  out1.drop (written + leaders))
          else (R.ok written, out1)

/-! ## lib.rs : block codec (bit-packing) -/

/-- `const fn order(bit, msb, i)`. -/
def order (bit : Nat) (msb : Bool) (i : Nat) : Nat :=
  if msb then bit - 1 - i else i

/-- `B::ENC` of the `define_bit!` table (`B1..B6`). -/
def ENCb (bit : Nat) : Nat :=
  match bit with
  | 1 => 8 | 2 => 4 | 3 => 8 | 4 => 2 | 5 => 8 | 6 => 4
  | _ => 0

/-- `B::DEC` of the `define_bit!` table (`B1..B6`). -/
def DECb (bit : Nat) : Nat :=
  match bit with
  | 1 => 1 | 2 => 1 | 3 => 3 | 4 => 1 | 5 => 5 | 6 => 3
  | _ => 0

/-- `const fn enc(bit)` of lib.rs (note `enc(6) = 8` there, unlike
`B6::ENC = 4`). -/
def encC (bit : Nat) : Nat :=
  match bit with
  | 1 => 8 | 2 => 4 | 4 => 2
  | 3 => 8 | 5 => 8 | 6 => 8
  | _ => 0

/-- `const fn dec(bit)` of lib.rs. -/
def decC (bit : Nat) : Nat :=
  match bit with
  | 1 => 1 | 2 => 1 | 4 => 1
  | 3 => 3 | 5 => 5 | 6 => 3
  | _ => 0

/-- The value of output symbol `i` in `encode_block`: gather the `bit` input
bits at positions `i * bit + k`, honoring the bit order. -/
def encSymVal (bit : Nat) (msb : Bool) (input : List Nat) (i : Nat) : Nat :=
  (List.range bit).foldl
    (fun x k =>
      let j := i * bit + k
      let byteIdx := j / 8
      let bitIdx := order 8 msb (j % 8)
      match input[byteIdx]? with
      | some byte => if (byte >>> bitIdx) &&& 1 ≠ 0 then x ||| 1 <<< order bit msb k else x
      | none => x)
    0

/-- `fn encode_block`: scatter `DEC` input bytes into `ENC` output symbols. -/
def encode_block (bit : Nat) (msb : Bool) (sym input output : List Nat) :
    Option (List Nat) :=
  (List.range (ENCb bit)).foldlM
    (fun out i =>
      let x := encSymVal bit msb input i
      match sym[x]? with
      | none => none
      | some s => wr out i s)
    output

/-- The per-bit loop of `decode_block` for one symbol value `x` starting at
bit offset `jStart`, OR-ing bits into the output bytes. -/
def decodeBlockBits (bit : Nat) (msb : Bool) (decN : Nat) (x jStart : Nat)
    (output : List Nat) : R DecodeKind (List Nat) :=
  (List.range bit).foldlM
    (fun out k =>
      if (x >>> order bit msb k) &&& 1 ≠ 0 then
        let j := jStart + k
        let byteIdx := j / 8
        let bitIdx := order 8 msb (j % 8)
        if byteIdx < decN then
          match out[byteIdx]? with
          | none => R.panic
          | some old =>
            match wr out byteIdx (old ||| 1 <<< bitIdx) with
            | none => R.panic
            | some out2 => R.ok out2
        else R.err DecodeKind.Trailing
      else R.ok out)
    output

/-- `fn decode_block`: zero the output, then decode `ENC` input symbols,
rejecting symbols absent from the reverse table and bits beyond `DEC` bytes. -/
def decode_block (bit : Nat) (msb : Bool) (val input output : List Nat) :
    R DecodeKind (List Nat) :=
  (List.range (ENCb bit)).foldlM
    (fun out i =>
      match input[i]? with
      | none => R.panic
      | some b =>
        match val[b]? with
        | none => R.panic
        | some x =>
          if 128 ≤ x then R.err DecodeKind.Symbol
          else decodeBlockBits bit msb (DECb bit) x (i * bit) out)
    (List.replicate output.length 0)

/-- The scalar block loop of `fn encode_mut` (after the SIMD skips).  Fuel
`input.length + 1` always suffices: each iteration drops `DEC ≥ 1` input
bytes (the `DEC = 0` guard models the `unreachable!` of `dispatch!`). -/
def encodeBlocksGo (bit : Nat) (msb : Bool) (sym : List Nat) :
    Nat → List Nat → List Nat → Nat → Option (Nat × List Nat)
  | 0, _, _, _ => none
  | fuel + 1, input, output, written =>
    if DECb bit = 0 then none
    else if DECb bit ≤ input.length then
      match sliceL output 0 (ENCb bit) with
      | none => none
      | some oslice =>
        match encode_block bit msb sym (input.take (DECb bit)) oslice with
        | none => none
        | some ob =>
          match encodeBlocksGo bit msb sym fuel (input.drop (DECb bit))
              (output.drop (ENCb bit)) (written + ENCb bit) with
          | none => none
          | some (w, orest) => some (w, ob ++ orest)
    else if input ≠ [] then
      match sliceL output 0 (ENCb bit) with
      | none => none
      | some oslice =>
        match encode_block bit msb sym input oslice with
        | none => none
        | some ob => some (written + ENCb bit, ob ++ output.drop (ENCb bit))
    else some (written, output)

/-- The scalar block loop of `fn encode_mut`. -/
def encodeBlocksLoop (bit : Nat) (msb : Bool) (sym input output : List Nat)
    (written : Nat) : Option (Nat × List Nat) :=
  encodeBlocksGo bit msb sym (input.length + 1) input output written

/-- `fn encode_mut` (free function): SIMD fast paths for MSB-first base64 and
hex, then the scalar block loop.  On targets without SSSE3 the SIMD helpers
are no-ops, yet the scalar loop still skips the vector-sized prefix; this is
the portable semantics modeled here. -/
def encode_mut_free (bit : Nat) (msb : Bool) (sym input output : List Nat) :
    Option (Nat × List Nat) :=
  if bit = 6 ∧ msb then
    let n := floor input.length 12
    let k := n / 3 * 4
    if k ≤ output.length then
      match encodeBlocksLoop bit msb sym (input.drop n) (output.drop k) 0 with
      | none => none
      | some (w, out2) => some (w, output.take k ++ out2)
    else none
  else if bit = 4 ∧ msb then
    let n := floor input.length 16
    let k := n * 2
    if k ≤ output.length then
      match encodeBlocksLoop bit msb sym (input.drop n) (output.drop k) 0 with
      | none => none
      | some (w, out2) => some (w, output.take k ++ out2)
    else none
  else encodeBlocksLoop bit msb sym input output 0

/-- `fn encode_pad_len`. -/
def encode_pad_len (bit : Nat) (pm : PaddingMode) (ilen : Nat) : Option Nat :=
  match pm with
  | PaddingMode.None =>
      if ilen > usizeMax / 8 then none
      else div_ceil (ilen * 8) bit
  | _ =>
      match div_ceil ilen (DECb bit) with
      | none => none
      | some n => checkedMul n (ENCb bit)

/-- The pad-writing loop of `fn encode_pad`, structured on the remaining
count `olen - i`. -/
def padFillGo (p : Nat) : Nat → List Nat → Nat → Option (List Nat)
  | 0, out, _ => some out
  | n + 1, out, i =>
    match wr out i p with
    | none => none
    | some o2 => padFillGo p n o2 (i + 1)

/-- The pad-writing loop of `fn encode_pad`: `output[i] = pad` for
`i` in `data_len..olen`. -/
def padFill (out : List Nat) (i olen p : Nat) : Option (List Nat) :=
  padFillGo p (olen - i) out i

/-- `fn encode_pad`: encode the full blocks, then the final partial block into
a temporary, then overwrite the tail with the padding symbol. -/
def encode_pad (bit : Nat) (msb : Bool) (pm : PaddingMode) (sym : List Nat)
    (pad : Option Nat) (input output : List Nat) : Option (Nat × List Nat) :=
  match encode_pad_len bit pm input.length with
  | none => none
  | some olen =>
    if DECb bit = 0 then none
    else
      let dec := DECb bit
      let enc := ENCb bit
      let inputFullLen := input.length / dec * dec
      let outputFullLen := input.length / dec * enc
      match sliceL output 0 outputFullLen with
      | none => none
      | some oslice =>
        match encode_mut_free bit msb sym (input.take inputFullLen) oslice with
        | none => none
        | some (w1, oslice2) =>
          let output1 := oslice2 ++ output.drop outputFullLen
          let remaining := input.drop inputFullLen
          let step2 : Option (Nat × List Nat) :=
            if remaining ≠ [] then
              let block := List.replicate 32 0
              match sliceL block 0 enc with
              | none => none
              | some bslice =>
                match encode_block bit msb sym remaining bslice with
                | none => none
                | some bfull =>
                  let block2 := bfull ++ block.drop enc
                  let len := olen - w1
                  match sliceL block2 0 len with
                  | none => none
                  | some src =>
                    match copyFromSlice output1 w1 olen src with
                    | none => none
                    | some output2 => some (w1 + len, output2)
            else some (w1, output1)
          match step2 with
          | none => none
          | some (w2, output2) =>
            match pad with
            | none => some (w2, output2)
            | some p =>
              match div_ceil (input.length * 8) bit with
              | none => none
              | some dataLen =>
                match padFill output2 dataLen olen p with
                | none => none
                | some output3 => some (w2, output3)

/-- `fn encode_wrap_len`. -/
def encode_wrap_len (bit : Nat) (pm : PaddingMode) (wrap : Option (Nat × Nat))
    (ilen : Nat) : Option Nat :=
  match encode_pad_len bit pm ilen with
  | none => none
  | some olen =>
    match wrap with
    | none => some olen
    | some (col, endLen) =>
      match div_ceil olen col with
      | none => none
      | some n =>
        match checkedMul endLen n with
        | none => none
        | some extra => checkedAdd olen extra

/-- The inner symbol-emitting loop of the wrap branch of `encode_wrap_mut`:
write each symbol of `temp`, inserting the separator after every `col`
output symbols.  Returns `(written, j, output)`. -/
def wrapEmitSyms (col : Nat) (endSep : List Nat) :
    List Nat → Nat → Nat → List Nat → Option (Nat × Nat × List Nat)
  | [], written, j, output => some (written, j, output)
  | t :: rest, written, j, output =>
      match wr output written t with
      | none => none
      | some o1 =>
        let written1 := written + 1
        let j1 := j + 1
        if j1 = col then
          match copyFromSlice o1 written1 (written1 + endSep.length) endSep with
          | none => none
          | some o2 => wrapEmitSyms col endSep rest (written1 + endSep.length) 0 o2
        else wrapEmitSyms col endSep rest written1 j1 o1

/-- The main input loop of the wrap branch of `encode_wrap_mut`: encode
`min(DEC, remaining)` input bytes into `ENC` symbols of a temporary and emit
them.  Fuel `input.length + 1` always suffices (each iteration consumes
`n ≥ 1` bytes; `n = 0` models the unreachable `DEC = 0`). -/
def wrapMainGo (bit : Nat) (msb : Bool) (sym : List Nat) (col : Nat)
    (endSep : List Nat) :
    Nat → List Nat → Nat → Nat → List Nat → Option (Nat × Nat × List Nat)
  | 0, _, _, _, _ => none
  | fuel + 1, input, written, j, output =>
    if input = [] then some (written, j, output)
    else
      let n := min (DECb bit) input.length
      if n = 0 then none
      else
        let temp := List.replicate 8 0
        match sliceL temp 0 (ENCb bit) with
        | none => none
        | some tslice =>
          match encode_block bit msb sym (input.take n) tslice with
          | none => none
          | some tb =>
            match wrapEmitSyms col endSep tb written j output with
            | none => none
            | some (w2, j2, o2) =>
              wrapMainGo bit msb sym col endSep fuel (input.drop n) w2 j2 o2

/-- The main input loop of the wrap branch of `encode_wrap_mut`. -/
def wrapMainLoop (bit : Nat) (msb : Bool) (sym : List Nat) (col : Nat)
    (endSep : List Nat) (input : List Nat) (written j : Nat) (output : List Nat) :
    Option (Nat × Nat × List Nat) :=
  wrapMainGo bit msb sym col endSep (input.length + 1) input written j output

/-- The pad loop of the wrap branch of `encode_wrap_mut`: `while written <
olen` write the padding symbol, inserting separators.  Fuel `olen + 1` always
suffices (`written` strictly increases below `olen`). -/
def wrapPadGo (col : Nat) (endSep : List Nat) (p olen : Nat) :
    Nat → Nat → Nat → List Nat → Option (Nat × Nat × List Nat)
  | 0, _, _, _ => none
  | fuel + 1, written, j, output =>
    if written < olen then
      match wr output written p with
      | none => none
      | some o1 =>
        let written1 := written + 1
        let j1 := j + 1
        if j1 = col then
          match copyFromSlice o1 written1 (written1 + endSep.length) endSep with
          | none => none
          | some o2 => wrapPadGo col endSep p olen fuel (written1 + endSep.length) 0 o2
        else wrapPadGo col endSep p olen fuel written1 j1 o1
    else some (written, j, output)

/-- The pad loop of the wrap branch of `encode_wrap_mut`. -/
def wrapPadLoop (col : Nat) (endSep : List Nat) (p olen : Nat)
    (written j : Nat) (output : List Nat) : Option (Nat × Nat × List Nat) :=
  wrapPadGo col endSep p olen (olen + 1) written j output

/-- `fn encode_wrap_mut`. -/
def encode_wrap_mut (bit : Nat) (msb : Bool) (pm : PaddingMode) (sym : List Nat)
    (pad : Option Nat) (wrap : Option (Nat × List Nat)) (input output : List Nat) :
    Option (Nat × List Nat) :=
  match encode_pad_len bit pm input.length with
  | none => none
  | some olen =>
    match wrap with
    | none => encode_pad bit msb pm sym pad input output
    | some (col, endSep) =>
      match wrapMainLoop bit msb sym col endSep input 0 0 output with
      | none => none
      | some (w1, j1, o1) =>
        let afterPad : Option (Nat × Nat × List Nat) :=
          match pad with
          | some p => wrapPadLoop col endSep p olen w1 j1 o1
          | none => some (w1, j1, o1)
        match afterPad with
        | none => none
        | some (w2, j2, o2) =>
          if j2 ≠ 0 then
            match copyFromSlice o2 w2 (w2 + endSep.length) endSep with
            | none => none
            | some o3 => some (w2 + endSep.length, o3)
          else some (w2, o2)

/-- `fn decode_wrap_len`. -/
def decode_wrap_len (bit : Nat) (pm : PaddingMode) (len : Nat) :
    Option (Nat × Nat) :=
  match (match bit with
         | 1 => some (8, 1) | 2 => some (4, 1) | 4 => some (2, 1)
         | 3 => some (8, 3) | 5 => some (8, 5) | 6 => some (4, 3)
         | _ => none : Option (Nat × Nat)) with
  | none => none
  | some (enc, dec) =>
    match pm with
    | PaddingMode.None => some (len, len * bit / 8)
    | _ =>
      let ilen := floor len enc
      some (ilen, ilen / enc * dec)

/-- `fn skip_ignore`: count the prefix of bytes that are `≥ 128` or mapped to
`IGNORE` in the reverse table. -/
def skip_ignore (val input : List Nat) : Nat :=
  (input.takeWhile (fun b => decide (128 ≤ b) || (val.getD b 0 == IGNORE))).length

/-- The trailing-bit loop of `fn check_trail`: `while j > 8 * DEC`, test bit
`order(bit, msb, k - 1)` of the final symbol value. -/
def checkTrailLoop (bit : Nat) (msb : Bool) (last decN : Nat) :
    Nat → Nat → R DecodeKind Unit
  | 0, _ => R.ok ()
  | j + 1, k =>
    if j + 1 > 8 * decN then
      if (last >>> order bit msb (k - 1)) &&& 1 ≠ 0 then R.err DecodeKind.Trailing
      else checkTrailLoop bit msb last decN j (k - 1)
    else R.ok ()

/-- `fn check_trail`. -/
def check_trail (bit : Nat) (msb : Bool) (val input : List Nat) :
    R DecodeKind Unit :=
  match input[input.length - 1]? with
  | none => R.panic
  | some lastByte =>
    match val[lastByte]? with
    | none => R.panic
    | some last =>
      if 128 ≤ last then R.err DecodeKind.Symbol
      else checkTrailLoop bit msb last (DECb bit) (input.length * bit) bit

/-- `buffer[a..b].fill(v)` equivalent (the `for i in a..b` write loops). -/
def fillRange (l : List Nat) (a b v : Nat) : Option (List Nat) :=
  if a ≤ b ∧ b ≤ l.length then
    some (l.take a ++ List.replicate (b - a) v ++ l.drop b)
  else none

/-- Result of the symbol-gathering inner loop of `decode_wrap_mut`. -/
inductive ReadBlockRes where
  | panicR : ReadBlockRes
  | errAt (kind : DecodeKind) (restLen : Nat) : ReadBlockRes
  | done (buffer : List Nat) (bIdx : Nat) (pIdx : Option Nat) (rest : List Nat) :
      ReadBlockRes
deriving DecidableEq

/-- The inner loop of `decode_wrap_mut`: `while b_idx < B::ENC &&
!input.is_empty()`, skipping ignored bytes, recording the first padding
position, rejecting data after padding and unmapped symbols.  Fuel
`input.length + 1` always suffices (each iteration consumes one byte). -/
def readBlockGo (ign : Bool) (val : List Nat) (padChar : Option Nat) (enc : Nat) :
    Nat → List Nat → List Nat → Nat → Option Nat → ReadBlockRes
  | 0, _, _, _, _ => ReadBlockRes.panicR
  | fuel + 1, input, buffer, bIdx, pIdx =>
    if bIdx < enc ∧ input ≠ [] then
      let n := if ign then skip_ignore val input else 0
      match input.drop n with
      | [] => ReadBlockRes.done buffer bIdx pIdx []
      | byte :: restIn =>
        let pIdx1 := if some byte = padChar ∧ pIdx = none then some bIdx else pIdx
        if some byte ≠ padChar ∧ pIdx.isSome then
          ReadBlockRes.errAt DecodeKind.Padding (byte :: restIn).length
        else if some byte ≠ padChar ∧ (128 ≤ byte ∨ val.getD byte 0 = INVALID) then
          ReadBlockRes.errAt DecodeKind.Symbol (byte :: restIn).length
        else
          match wr buffer bIdx byte with
          | none => ReadBlockRes.panicR
          | some buffer2 =>
            readBlockGo ign val padChar enc fuel restIn buffer2 (bIdx + 1) pIdx1
    else ReadBlockRes.done buffer bIdx pIdx input

/-- The inner loop of `decode_wrap_mut`. -/
def readBlockLoop (ign : Bool) (val : List Nat) (padChar : Option Nat) (enc : Nat)
    (input buffer : List Nat) (bIdx : Nat) (pIdx : Option Nat) : ReadBlockRes :=
  readBlockGo ign val padChar enc (input.length + 1) input buffer bIdx pIdx

/-- The outer loop of `decode_wrap_mut` (fuel-based; each iteration that
recurses consumes at least one input byte, so `input.length + 1` fuel always
suffices).  The output buffer is kept whole; `written` doubles as the
absolute write offset, mirroring the source's in-step slice advancing. -/
def decodeWrapGo (bit : Nat) (msb : Bool) (pm : PaddingMode) (ign ctb : Bool)
    (val sym : List Nat) (padChar : Option Nat) :
    Nat → List Nat → Nat → Nat → List Nat → R DecodePartial Nat × List Nat
  | 0, _, _, _, output => (R.hang, output)
  | fuel + 1, input, read, written, output =>
    let n0 := if ign then skip_ignore val input else 0
    let input0 := input.drop n0
    let read0 := read + n0
    if input0 = [] then (R.ok written, output)
    else
      let startLen := input0.length
      match readBlockLoop ign val padChar (ENCb bit) input0 (List.replicate 8 0) 0 none with
      | ReadBlockRes.panicR => (R.panic, output)
      | ReadBlockRes.errAt kind restLen =>
        let consumed := startLen - restLen
        (R.err ⟨read0 + consumed, written, ⟨read0 + consumed, kind⟩⟩, output)
      | ReadBlockRes.done buffer bIdx pIdx rest =>
        let consumed := startLen - rest.length
        if bIdx = 0 then (R.ok written, output)
        else if bIdx < ENCb bit then
          if pm = PaddingMode.None then
            match sym[0]? with
            | none => (R.panic, output)
            | some s0 =>
              match fillRange buffer bIdx (ENCb bit) s0 with
              | none => (R.panic, output)
              | some buffer2 =>
                let n := bIdx * bit / 8
                match decode_block bit msb val (buffer2.take (ENCb bit))
                    (List.replicate (DECb bit) 0) with
                | R.err kind =>
                  (R.err ⟨read0 + consumed, written, ⟨read0 + consumed - 1, kind⟩⟩, output)
                | R.panic => (R.panic, output)
                | R.hang => (R.hang, output)
                | R.ok outTemp =>
                  let trail : R DecodeKind Unit :=
                    if ctb then check_trail bit msb val (buffer2.take bIdx) else R.ok ()
                  match trail with
                  | R.err kind =>
                    (R.err ⟨read0 + consumed, written, ⟨read0 + consumed - 1, kind⟩⟩, output)
                  | R.panic => (R.panic, output)
                  | R.hang => (R.hang, output)
                  | R.ok _ =>
                    match copyFromSlice output written (written + n) (outTemp.take n) with
                    | none => (R.panic, output)
                    | some output2 => (R.ok (written + n), output2)
          else
            (R.err ⟨read0 + consumed, written, ⟨read0 + consumed, DecodeKind.Length⟩⟩, output)
        else
          let bufferFill : Option (List Nat) :=
            match pIdx with
            | some p =>
              if p > 0 then fillRange buffer p (ENCb bit) (buffer.getD 0 0)
              else
                match sym[0]? with
                | none => none
                | some s0 => fillRange buffer p (ENCb bit) s0
            | none => some buffer
          match bufferFill with
          | none => (R.panic, output)
          | some buffer3 =>
            match decode_block bit msb val (buffer3.take (ENCb bit))
                (List.replicate (DECb bit) 0) with
            | R.err kind =>
              (R.err ⟨read0 + consumed, written, ⟨read0 + consumed - 1, kind⟩⟩, output)
            | R.panic => (R.panic, output)
            | R.hang => (R.hang, output)
            | R.ok outTemp =>
              let nStep : R DecodePartial Nat :=
                match pIdx with
                | some p =>
                  if p * bit % 8 ≥ bit then
                    R.err ⟨read0 + consumed, written,
                      ⟨read0 + consumed - (ENCb bit - p), DecodeKind.Length⟩⟩
                  else
                    let trail : R DecodeKind Unit :=
                      if ctb ∧ p > 0 then check_trail bit msb val (buffer3.take p)
                      else R.ok ()
                    match trail with
                    | R.err kind =>
                      R.err ⟨read0 + consumed, written,
                        ⟨read0 + consumed - (ENCb bit - p + 1), kind⟩⟩
                    | R.panic => R.panic
                    | R.hang => R.hang
                    | R.ok _ => R.ok (p * bit / 8)
                | none => R.ok (DECb bit)
              match nStep with
              | R.err e => (R.err e, output)
              | R.panic => (R.panic, output)
              | R.hang => (R.hang, output)
              | R.ok n =>
                match copyFromSlice output written (written + n) (outTemp.take n) with
                | none => (R.panic, output)
                | some output2 =>
                  let written1 := written + n
                  let read1 := read0 + consumed
                  if pIdx.isSome ∧ pm = PaddingMode.PadFinal then
                    let n2 := if ign then skip_ignore val rest else 0
                    let rest2 := rest.drop n2
                    let read2 := read1 + n2
                    if rest2 ≠ [] then
                      (R.err ⟨read2, written1, ⟨read2, DecodeKind.Padding⟩⟩, output2)
                    else
                      decodeWrapGo bit msb pm ign ctb val sym padChar fuel
                        rest2 read2 written1 output2
                  else
                    decodeWrapGo bit msb pm ign ctb val sym padChar fuel
                      rest read1 written1 output2

/-- `fn decode_wrap_mut`. -/
def decode_wrap_mut (bit : Nat) (msb : Bool) (pm : PaddingMode) (ign ctb : Bool)
    (val sym : List Nat) (padChar : Option Nat) (input output : List Nat) :
    R DecodePartial Nat × List Nat :=
  decodeWrapGo bit msb pm ign ctb val sym padChar (input.length + 1) input 0 0 output

/-- UTF-8 validity check for `core::str::from_utf8`: `none` when valid,
`some i` the `valid_up_to` index of the first invalid sequence. -/
def utf8Go : List Nat → Nat → Option Nat
  | [], _ => none
  | b :: rest, i =>
    if b < 0x80 then utf8Go rest (i + 1)
    else if 0xC2 ≤ b ∧ b ≤ 0xDF then
      match rest with
      | b1 :: rest1 =>
        if 0x80 ≤ b1 ∧ b1 ≤ 0xBF then utf8Go rest1 (i + 2) else some i
      | [] => some i
    else if 0xE0 ≤ b ∧ b ≤ 0xEF then
      match rest with
      | b1 :: b2 :: rest2 =>
        let lo : Nat := if b = 0xE0 then 0xA0 else 0x80
        let hi : Nat := if b = 0xED then 0x9F else 0xBF
        if lo ≤ b1 ∧ b1 ≤ hi ∧ 0x80 ≤ b2 ∧ b2 ≤ 0xBF then utf8Go rest2 (i + 3)
        else some i
      | _ => some i
    else if 0xF0 ≤ b ∧ b ≤ 0xF4 then
      match rest with
      | b1 :: b2 :: b3 :: rest3 =>
        let lo : Nat := if b = 0xF0 then 0x90 else 0x80
        let hi : Nat := if b = 0xF4 then 0x8F else 0xBF
        if lo ≤ b1 ∧ b1 ≤ hi ∧ 0x80 ≤ b2 ∧ b2 ≤ 0xBF ∧ 0x80 ≤ b3 ∧ b3 ≤ 0xBF then
          utf8Go rest3 (i + 4)
        else some i
      | _ => some i
    else some i

/-- `core::str::from_utf8` on a byte list: `none` = valid. -/
def utf8ValidUpTo (l : List Nat) : Option Nat := utf8Go l 0

/-! ## lib.rs : the compiled `Encoding` and its methods -/

/-- `struct Encoding`: the packed 531-byte representation produced by
`Specification::encoding` (the `Owned` layout; the `Static` blobs live in the
absent `data.rs`). -/
structure Encoding where
  data : List Nat
deriving DecidableEq

/-- `Encoding::sym`: the 256-byte forward table. -/
def Encoding.sym (e : Encoding) : List Nat := e.data.take 256

/-- `Encoding::val`: the 128-byte reverse table at offset 256. -/
def Encoding.val (e : Encoding) : List Nat := (e.data.take 384).drop 256

/-- `Encoding::is_arithmetic`: flag bit `0x80` of byte 513. -/
def Encoding.is_arithmetic (e : Encoding) : Bool :=
  514 ≤ e.data.length ∧ e.data.getD 513 0 &&& 0x80 ≠ 0

/-- `Encoding::bit`. -/
def Encoding.bit (e : Encoding) : Nat :=
  if e.is_arithmetic then 0
  else if e.data.length = 513 then e.data.getD 512 0 &&& 0x7
  else if 514 ≤ e.data.length then e.data.getD 513 0 &&& 0x7
  else 0

/-- `Encoding::get_symbols`. -/
def Encoding.get_symbols (e : Encoding) : List Nat :=
  if e.is_arithmetic then
    let len := e.data.getD 512 0
    let maxLen := min e.data.length 256
    if len > maxLen then e.data.take maxLen else e.data.take len
  else
    let bit := e.bit
    let numSymbols := if bit = 0 then 0 else 1 <<< bit
    if e.data.length < numSymbols then e.data else e.data.take numSymbols

/-- `Encoding::pad`. -/
def Encoding.pad (e : Encoding) : Option Nat :=
  if e.is_arithmetic ∨ e.data.length < 514 then none
  else if e.data.getD 512 0 < 128 then some (e.data.getD 512 0)
  else none

/-- `Encoding::pad_mode`. -/
def Encoding.pad_mode (e : Encoding) : PaddingMode :=
  if e.data.length = 513 ∨ 514 ≤ e.data.length then
    let info := if e.data.length = 513 then e.data.getD 512 0 else e.data.getD 513 0
    let hasPad :=
      if e.data.length = 513 then False
      else ¬e.is_arithmetic ∧ e.data.getD 512 0 < 128
    match info >>> 5 &&& 0x3 with
    | 0 => if hasPad then PaddingMode.Standard else PaddingMode.None
    | 1 => PaddingMode.Standard
    | 2 => PaddingMode.PadConcat
    | _ => PaddingMode.PadFinal
  else PaddingMode.None

/-- `Encoding::ctb`. -/
def Encoding.ctb (e : Encoding) : Bool :=
  if e.data.length = 513 then e.data.getD 512 0 &&& 0x10 ≠ 0
  else if 514 ≤ e.data.length then e.data.getD 513 0 &&& 0x10 ≠ 0
  else true

/-- `Encoding::msb`. -/
def Encoding.msb (e : Encoding) : Bool :=
  if e.data.length = 513 then e.data.getD 512 0 &&& 0x8 ≠ 0
  else if 514 ≤ e.data.length then e.data.getD 513 0 &&& 0x8 ≠ 0
  else true

/-- `Encoding::wrap` (the `Owned` layout: width at 514, separator length at
515, separator bytes from 516). -/
def Encoding.wrap (e : Encoding) : Option (Nat × List Nat) :=
  let col := e.data.getD 514 0
  if col = 0 then none
  else
    let len := e.data.getD 515 0
    some (col, (e.data.take (516 + len)).drop 516)

/-- `Encoding::has_ignore`. -/
def Encoding.has_ignore (e : Encoding) : Bool :=
  (List.range 128).any (fun i => e.val.getD i 0 == IGNORE) ||
    (match e.wrap with
     | some (_, endSep) => !endSep.isEmpty
     | none => false)

/-- `Encoding::encode_len`. -/
def Encoding.encode_len (e : Encoding) (len : Nat) : R EncodeError Nat :=
  if e.is_arithmetic then R.ok (len + len / 2 + 2)
  else
    let bit := e.bit
    if bit = 0 ∨ 7 ≤ bit then (R.panic : R EncodeError Nat)
    else
      match encode_wrap_len bit e.pad_mode (e.wrap.map fun w => (w.1, w.2.length)) len with
      | some olen => R.ok olen
      | none => R.err ⟨EncodeKind.Overflow⟩

/-- `Encoding::encode_mut`. -/
def Encoding.encode_mut (e : Encoding) (input output : List Nat) :
    R EncodeError Nat × List Nat :=
  if e.is_arithmetic then encode_to_buffer e.get_symbols input output
  else
    match e.encode_len input.length with
    | R.err er => (R.err er, output)
    | R.panic => (R.panic, output)
    | R.hang => (R.hang, output)
    | R.ok len =>
      if output.length ≠ len then (R.err ⟨EncodeKind.BufferTooSmall⟩, output)
      else
        let bit := e.bit
        if bit = 0 ∨ 7 ≤ bit then (R.panic, output)
        else
          match encode_wrap_mut bit e.msb e.pad_mode e.sym e.pad e.wrap input output with
          | none => (R.panic, output)
          | some (w, out2) => (R.ok w, out2)

/-- `Encoding::encode` (allocating): `encode_len` and `encode_mut` composed
with `expect` (panics on failure), then truncation to the written length. -/
def Encoding.encode (e : Encoding) (input : List Nat) : R Unit (List Nat) :=
  match e.encode_len input.length with
  | R.ok len =>
    match e.encode_mut input (List.replicate len 0) with
    | (R.ok w, out) => R.ok (out.take w)
    | (R.hang, _) => R.hang
    | _ => R.panic
  | R.hang => R.hang
  | _ => R.panic

/-- `Encoding::decode_len`. -/
def Encoding.decode_len (e : Encoding) (len : Nat) : R DecodeError Nat :=
  if e.is_arithmetic then R.ok len
  else
    let bit := e.bit
    if bit = 0 ∨ 7 ≤ bit then (R.panic : R DecodeError Nat)
    else
      match decode_wrap_len bit e.pad_mode len with
      | none => R.err ⟨0, DecodeKind.Overflow⟩
      | some (ilen, olen) =>
        if e.has_ignore || len == ilen then R.ok olen
        else R.err ⟨ilen, DecodeKind.Length⟩

/-- `Encoding::decode_mut`. -/
def Encoding.decode_mut (e : Encoding) (input output : List Nat) :
    R DecodePartial Nat × List Nat :=
  if e.is_arithmetic then
    match utf8ValidUpTo input with
    | some vu => (R.err ⟨vu, 0, ⟨vu, DecodeKind.Symbol⟩⟩, output)
    | none =>
      match decode_to_buffer e.get_symbols input output with
      | (R.ok len, out2) => (R.ok len, out2)
      | (R.err er, out2) => (R.err ⟨er.position, 0, er⟩, out2)
      | (R.panic, out2) => (R.panic, out2)
      | (R.hang, out2) => (R.hang, out2)
  else
    match e.decode_len input.length with
    | R.err er => (R.err ⟨0, 0, er⟩, output)
    | R.panic => (R.panic, output)
    | R.hang => (R.hang, output)
    | R.ok len =>
      if output.length ≠ len then
        (R.err ⟨0, 0, ⟨input.length, DecodeKind.BufferTooSmall⟩⟩, output)
      else
        let bit := e.bit
        if bit = 0 ∨ 7 ≤ bit then (R.panic, output)
        else decode_wrap_mut bit e.msb e.pad_mode e.has_ignore e.ctb e.val e.sym e.pad
          input output

/-- `Encoding::decode` (allocating). -/
def Encoding.decode (e : Encoding) (input : List Nat) : R DecodeError (List Nat) :=
  match e.decode_len input.length with
  | R.err er => R.err er
  | R.panic => R.panic
  | R.hang => R.hang
  | R.ok dlen =>
    match e.decode_mut input (List.replicate dlen 0) with
    | (R.ok len, out) => R.ok (out.take len)
    | (R.err p, _) => R.err p.error
    | (R.panic, _) => R.panic
    | (R.hang, _) => R.hang

/-! ## lib.rs : the specification compiler -/

/-- `enum BitOrder`. -/
inductive BitOrder where
  | MostSignificantFirst | LeastSignificantFirst
deriving DecidableEq

/-- `struct Wrap` (separator as a byte list). -/
structure Wrap where
  width : Nat
  separator : List Nat
deriving DecidableEq

/-- `struct Translate` (`from`/`to` as byte lists; `from` is a Lean keyword,
hence the `S` suffix). -/
structure Translate where
  fromS : List Nat
  toS : List Nat
deriving DecidableEq

/-- `struct Specification` (strings as byte lists; `padding` as the char's
scalar value). -/
structure Specification where
  symbols : List Nat
  bit_order : BitOrder
  check_trailing_bits : Bool
  padding : Option Nat
  padding_mode : PaddingMode
  ignore : List Nat
  wrap : Wrap
  translate : Translate
  use_arithmetic : Bool
deriving DecidableEq

/-- `SpecificationError` (the `SpecificationErrorImpl` payloads, flattened). -/
inductive SpecificationError where
  | BadSize | NotAscii | Duplicate (c : Nat) | ExtraPadding | WrapLength
  | WrapSeparator | WrapWidth (n : Nat) | FromTo | Undefined (c : Nat)
deriving DecidableEq

/-- The `set` closure of `Specification::encoding`: define `values[i] = x`,
idempotently, rejecting non-ASCII indices and conflicting definitions. -/
def specSet (v : List Nat) (i x : Nat) : Except SpecificationError (List Nat) :=
  if ¬i < 128 then Except.error SpecificationError.NotAscii
  else if v.getD i 0 = x then Except.ok v
  else if v.getD i 0 ≠ INVALID then Except.error (SpecificationError.Duplicate i)
  else Except.ok (v.set i x)

/-- The symbol loop of `Specification::encoding`: `set(values, symbol, v as
u8)` over the enumerated symbols. -/
def buildValues : List (Nat × Nat) → List Nat → Except SpecificationError (List Nat)
  | [], v => Except.ok v
  | (idx, b) :: rest, v =>
    match specSet v b (idx % 256) with
    | Except.error e => Except.error e
    | Except.ok v2 => buildValues rest v2

/-- A fold of `set` with a fixed value over a byte list (the `ignore` and
wrap-separator loops). -/
def setAll (x : Nat) : List Nat → List Nat → Except SpecificationError (List Nat)
  | [], v => Except.ok v
  | b :: rest, v =>
    match specSet v b x with
    | Except.error e => Except.error e
    | Except.ok v2 => setAll x rest v2

/-- The translate loop of `Specification::encoding`. -/
def translateFold : List (Nat × Nat) → List Nat → Except SpecificationError (List Nat)
  | [], v => Except.ok v
  | (f, t) :: rest, v =>
    if ¬t < 128 then Except.error SpecificationError.NotAscii
    else
      let x := v.getD t 0
      if x = INVALID then Except.error (SpecificationError.Undefined t)
      else
        match specSet v f x with
        | Except.error e => Except.error e
        | Except.ok v2 => translateFold rest v2

/-- The mode-byte of the blob: bit 7 arithmetic flag or bit width, bit 3 MSB,
bit 4 trailing-bit check, bits 5-6 the padding mode. -/
def blobByte513 (useArith : Bool) (bit : Nat) (msb ctb : Bool) (pm : PaddingMode) : Nat :=
  let b0 := if useArith then 0x80 else bit
  let b1 := if msb then b0 ||| 0x08 else b0
  let b2 := if ctb then b1 ||| 0x10 else b1
  let modeBits : Nat :=
    match pm with
    | PaddingMode.None => 0
    | PaddingMode.Standard => 1
    | PaddingMode.PadConcat => 2
    | PaddingMode.PadFinal => 3
  b2 ||| modeBits <<< 5

/-- The 531-byte blob written by `Specification::encoding`, expressed as the
concatenation of its disjoint write regions: the 256-byte forward table
(symbol repetition, or the raw symbols padded with `INVALID` in arithmetic
mode), the 128-byte reverse table, the untouched `INVALID` range 384..512,
bytes 512-515, and the 15-byte separator region. -/
def buildBlob (useArith : Bool) (symbols values : List Nat) (bit : Nat)
    (msb ctb : Bool) (pm : PaddingMode) (pad : Option Nat)
    (wrapOpt : Option (Nat × List Nat)) : List Nat :=
  let symSeg : List Nat :=
    if useArith then symbols.take 256 ++ List.replicate (256 - symbols.length) INVALID
    else (List.range 256).map fun i => symbols.getD (i % symbols.length) 0
  let b512 : Nat :=
    if useArith then symbols.length % 256
    else
      match pad with
      | none => INVALID
      | some p => p
  let b513 := blobByte513 useArith bit msb ctb pm
  let wrapBytes : List Nat :=
    match wrapOpt with
    | some (col, endSep) =>
      col :: endSep.length :: (endSep.take 15 ++ List.replicate (15 - endSep.length) INVALID)
    | none => 0 :: 0 :: List.replicate 15 INVALID
  symSeg ++ values ++ List.replicate 128 INVALID ++ [b512, b513] ++ wrapBytes

/-- `let use_arithmetic = self.use_arithmetic || ![2, 4, 8, 16, 32,
64].contains(&symbols.len())` of `Specification::encoding`. -/
def useArithOf (s : Specification) : Bool :=
  s.use_arithmetic || !([2, 4, 8, 16, 32, 64].contains s.symbols.length)

/-- The `let bit = match symbols.len() { ... }` table of
`Specification::encoding` (the `_` arm returns `BadSize` unless arithmetic). -/
def bitOfLen (len : Nat) (useArith : Bool) : Option Nat :=
  match len with
  | 2 => some 1 | 4 => some 2 | 8 => some 3
  | 16 => some 4 | 32 => some 5 | 64 => some 6
  | _ => if useArith then some 0 else none

/-- The symbol-validation stage of `Specification::encoding`: the empty
check, the arithmetic-mode decision, the ASCII check for arithmetic symbols,
the bit-width match and the `values` table construction. -/
def specStage1 (s : Specification) : R SpecificationError (Bool × Nat × List Nat) :=
  if s.symbols = [] then R.err SpecificationError.BadSize
  else
    if useArithOf s ∧ s.symbols.any (fun b => decide (128 ≤ b)) then
      R.err SpecificationError.NotAscii
    else
      match bitOfLen s.symbols.length (useArithOf s) with
      | none => R.err SpecificationError.BadSize
      | some bit =>
        match buildValues s.symbols.enum (List.replicate 128 INVALID) with
        | Except.error e => R.err e
        | Except.ok values1 => R.ok (useArithOf s, bit, values1)

/-- `let msb = self.bit_order == MostSignificantFirst`. -/
def msbOf (s : Specification) : Bool := s.bit_order = BitOrder.MostSignificantFirst

/-- `let ctb = self.check_trailing_bits || (!use_arithmetic && 8 % bit == 0)`. -/
def ctbOf (s : Specification) (useArith : Bool) (bit : Nat) : Bool :=
  s.check_trailing_bits || (!useArith && 8 % bit == 0)

/-- The padding stage of `Specification::encoding`: reject an unnecessary
padding symbol (`8 % bit == 0` in block mode), require it ASCII, and record
it in the `values` table. -/
def specStagePad (useArith : Bool) (bit : Nat) (padding : Option Nat)
    (values1 : List Nat) : Except SpecificationError (Option Nat × List Nat) :=
  match padding with
  | none => Except.ok (none, values1)
  | some padc =>
    if ¬useArith ∧ 8 % bit = 0 then Except.error SpecificationError.ExtraPadding
    else if ¬padc < 128 then Except.error SpecificationError.NotAscii
    else
      match specSet values1 (padc % 256) PADDING with
      | Except.error e => Except.error e
      | Except.ok v2 => Except.ok (some (padc % 256), v2)

/-- The wrap stage of `Specification::encoding` (the `R.panic` models the
`col % dec` division-by-zero, reachable in arithmetic mode where
`dec(0) = 0`). -/
def specStageWrap (bit : Nat) (w : Wrap) (values3 : List Nat) :
    R SpecificationError (Option (Nat × List Nat) × List Nat) :=
  if w.separator = [] ∨ w.width = 0 then R.ok (none, values3)
  else
    if ¬w.separator.length ≤ 15 then R.err SpecificationError.WrapSeparator
    else if ¬(w.width < 256 ∧ w.separator.length < 256) then
      R.err SpecificationError.WrapLength
    else if decC bit % 256 = 0 then R.panic
    else if ¬w.width % (decC bit % 256) = 0 then
      R.err (SpecificationError.WrapWidth (decC bit % 256))
    else
      match setAll IGNORE w.separator values3 with
      | Except.error e => R.err e
      | Except.ok v4 => R.ok (some (w.width, w.separator), v4)

/-- The translate stage of `Specification::encoding`. -/
def specStageTranslate (t : Translate) (values4 : List Nat) :
    Except SpecificationError (List Nat) :=
  if ¬t.fromS.length = t.toS.length then Except.error SpecificationError.FromTo
  else translateFold (t.fromS.zip t.toS) values4

/-- `Specification::encoding`: validate the specification stage by stage and
produce the compiled `Encoding` blob. -/
def Specification.encoding (s : Specification) : R SpecificationError Encoding :=
  match specStage1 s with
  | R.err e => R.err e
  | R.panic => R.panic
  | R.hang => R.hang
  | R.ok (useArith, bit, values1) =>
    match specStagePad useArith bit s.padding values1 with
    | Except.error e => R.err e
    | Except.ok (padOpt, values2) =>
      match setAll IGNORE s.ignore values2 with
      | Except.error e => R.err e
      | Except.ok values3 =>
        match specStageWrap bit s.wrap values3 with
        | R.err e => R.err e
        | R.panic => R.panic
        | R.hang => R.hang
        | R.ok (wrapOpt, values4) =>
          match specStageTranslate s.translate values4 with
          | Except.error e => R.err e
          | Except.ok values5 =>
            R.ok ⟨buildBlob useArith s.symbols values5 bit (msbOf s)
              (ctbOf s useArith bit) s.padding_mode padOpt wrapOpt⟩


/-! ## Predefined encodings

The repository declares `mod data;` but `data.rs` (the `Static` blobs of the
predefined constants) is not present under `src/`.  The spec describes them as
"Predefined ready-made Compiled Encodings equivalent to RFC 4648 hex/base32/
base64 variants ... plus Base58 (Bitcoin alphabet) and Base62", so they are
modelled here by compiling the corresponding `Specification` with the embedded
`Specification.encoding` compiler. -/

/-- Extract the compiled encoding from a successful compilation (scratch
helper; the accompanying `rfl` theorems show the compilations succeed). -/
def getEncoding (r : R SpecificationError Encoding) : Encoding :=
  match r with
  | R.ok e => e
  | _ => ⟨[]⟩

/-- The standard base64 alphabet `A-Za-z0-9+/` as bytes. -/
def base64Symbols : List Nat :=
  (List.range 26).map (· + 65) ++ (List.range 26).map (· + 97) ++
    (List.range 10).map (· + 48) ++ [43, 47]

/-- Modelled from the spec: the predefined padded RFC 4648 base64 encoding
(`BASE64` of the absent `data.rs`): standard alphabet, `=` padding, defaults
of `Specification::new` otherwise. -/
def base64Spec : Specification :=
  { symbols := base64Symbols
    bit_order := BitOrder.MostSignificantFirst
    check_trailing_bits := true
    padding := some 61
    padding_mode := PaddingMode.Standard
    ignore := []
    wrap := ⟨0, []⟩
    translate := ⟨[], []⟩
    use_arithmetic := false }

/-- The compiled base64 encoding. -/
def BASE64E : Encoding := getEncoding base64Spec.encoding

/-- The Bitcoin base58 alphabet as bytes. -/
def base58Symbols : List Nat :=
  [49, 50, 51, 52, 53, 54, 55, 56, 57,
   65, 66, 67, 68, 69, 70, 71, 72,
   74, 75, 76, 77, 78,
   80, 81, 82, 83, 84, 85, 86, 87, 88, 89, 90,
   97, 98, 99, 100, 101, 102, 103, 104, 105, 106, 107,
   109, 110, 111, 112, 113, 114, 115, 116, 117, 118, 119, 120, 121, 122]

/-- Modelled from the spec: the predefined Base58 (Bitcoin alphabet) encoding
(`BASE58` of the absent `data.rs`); 58 symbols auto-select arithmetic mode. -/
def base58Spec : Specification :=
  { symbols := base58Symbols
    bit_order := BitOrder.MostSignificantFirst
    check_trailing_bits := true
    padding := none
    padding_mode := PaddingMode.Standard
    ignore := []
    wrap := ⟨0, []⟩
    translate := ⟨[], []⟩
    use_arithmetic := false }

/-- The compiled base58 encoding. -/
def BASE58E : Encoding := getEncoding base58Spec.encoding

/-- Modelled from the spec: the predefined lowercase hexadecimal encoding
(`HEXLOWER` of the absent `data.rs`), "equivalent to RFC 4648 hex": symbols
`0-9a-f`, no padding symbol, and the `Specification::new` defaults (most
significant bit first, trailing-bit check, `PaddingMode::Standard`) — under
which decoding rejects inputs that are not a multiple of the two-symbol
block, as RFC 4648 base16 requires. -/
def hexLowerSpec : Specification :=
  { symbols := [48, 49, 50, 51, 52, 53, 54, 55, 56, 57, 97, 98, 99, 100, 101, 102]
    bit_order := BitOrder.MostSignificantFirst
    check_trailing_bits := true
    padding := none
    padding_mode := PaddingMode.Standard
    ignore := []
    wrap := ⟨0, []⟩
    translate := ⟨[], []⟩
    use_arithmetic := false }

/-- The compiled lowercase hex encoding. -/
def HEXLOWERE : Encoding := getEncoding hexLowerSpec.encoding

/-! ## Semantic helper definitions (used by theorem statements and proofs) -/

/-- Value of a big-endian `u32` limb list. -/
def limbsVal (l : List Nat) : Nat := l.foldl (fun a c => a * 2 ^ 32 + c) 0

/-- Value denoted by a `BigUintView`. -/
def bvVal (s : BV) : Nat := limbsVal s.chunks

/-- Value of a big-endian byte list. -/
def beVal (l : List Nat) : Nat := l.foldl (fun a b => a * 256 + b) 0

/-- Value accumulated by folding digits most-significant-first. -/
def digitsVal (base : Nat) (ds : List Nat) : Nat := ds.foldl (fun a d => a * base + d) 0

/-- Number of leading zero bytes. -/
def lzCount (l : List Nat) : Nat := (l.takeWhile (fun b => b == 0)).length

/-- Number of leading `c` bytes. -/
def leadCount (c : Nat) (l : List Nat) : Nat := (l.takeWhile (fun b => b == c)).length

/-- Base-`b` digits of `n`, least significant first, empty for `n = 0`
(fuel-based; `fuel = n` suffices for `b ≥ 2`). -/
def leDigitsGo (b : Nat) : Nat → Nat → List Nat
  | 0, _ => []
  | fuel + 1, n => if n = 0 then [] else n % b :: leDigitsGo b fuel (n / b)

/-- Base-`b` digits of `n`, least significant first, empty for `n = 0`. -/
def leDigits (b n : Nat) : List Nat := leDigitsGo b n n

/-- The exact output length of a successful arithmetic encode: one leader per
leading zero byte plus the base-`b` digit count of the big-endian value. -/
def arithLen (alphabet input : List Nat) : Nat :=
  lzCount input + (leDigits alphabet.length (beVal input)).length

/-- The exact output symbols of a successful arithmetic encode: the leaders
followed by the big-endian base-`b` digits mapped through the alphabet. -/
def arithSyms (alphabet input : List Nat) : List Nat :=
  List.replicate (lzCount input) (alphabet.getD 0 0) ++
    ((leDigits alphabet.length (beVal input)).reverse).map fun d => alphabet.getD d 0

/-- The first `p` base-`b` digits of `x`, least significant first (the
zero-padded form emitted for non-final chunks). -/
def lePad (b p x : Nat) : List Nat := (List.range p).map fun i => x / b ^ i % b

/-- In-place overwrite of `xs.length` entries of `out` starting at index
`i` (the footprint of a run of `wr` writes). -/
def writeAt (out : List Nat) (i : Nat) (xs : List Nat) : List Nat :=
  out.take i ++ xs ++ out.drop (i + xs.length)

/-- Value of a least-significant-first byte list. -/
def leVal : List Nat → Nat
  | [] => 0
  | b :: rest => b + 256 * leVal rest

/-- Value of a least-significant-first `u32` limb list. -/
def limbsValLE : List Nat → Nat
  | [] => 0
  | c :: rest => c + 2 ^ 32 * limbsValLE rest

/-- The digit list emitted by the arithmetic encoder for value `v`: a single
zero digit for zero, the base-`b` digits (least significant first)
otherwise. -/
def digitsOf (b v : Nat) : List Nat := if v = 0 then [0] else leDigits b v

/-- `ceil(a / b)` as computed by the wrap bookkeeping: the number of
`b`-sized blocks covering `a` items. -/
def blocksOf (a b : Nat) : Nat := a / b + if a % b = 0 then 0 else 1

/-- The head-limb invariant of a `BigUintView`: the view is zero, or the limb
at `start` is nonzero (preserved by `mul_add` with `m ≥ 1`). -/
def topNZ (s : BV) : Prop :=
  s.chunks.length ≤ s.start ∨ s.chunks.getD s.start 0 ≠ 0

/-- The `BigUintView` data invariant: `start` within bounds and all limbs
below `start` zero. -/
def BVInv (s : BV) : Prop :=
  s.start ≤ s.chunks.length ∧ ∀ i < s.start, s.chunks.getD i 0 = 0

instance (s : BV) : Decidable (BVInv s) := by
  unfold BVInv; infer_instance

/-- All limbs fit in `u32`. -/
def limbsBounded (s : BV) : Prop := ∀ c ∈ s.chunks, c < 2 ^ 32

/-- The state of `Specification::encoding` just before the padding check:
`some (use_arithmetic, bit, values)` when the symbol-validation stage
succeeds, `none` when an earlier stage already fails. -/
def padStepInput (s : Specification) : Option (Bool × Nat × List Nat) :=
  match specStage1 s with
  | R.ok t => some t
  | _ => none

/-! ## Helper lemmas -/

set_option maxRecDepth 1000000

theorem limbsVal_zero_of_all_zero (l : List Nat) (h : ∀ x ∈ l, x = 0) :
    limbsVal l = 0 := by
  unfold limbsVal
  induction l with
  | nil => rfl
  | cons c rest ih =>
    have hc : c = 0 := h c (by simp)
    simp only [List.foldl_cons, hc, Nat.mul_zero, Nat.add_zero, Nat.zero_mul]
    exact ih fun x hx => h x (by simp [hx])

theorem divmodGo_length (d carry : Nat) (l : List Nat) :
    (divmodGo d carry l).1.length = l.length := by
  induction l generalizing carry with
  | nil => rfl
  | cons c rest ih => simp [divmodGo, ih]

theorem muladdGo_length (m a : Nat) (l : List Nat) :
    (muladdGo m a l).1.length = l.length := by
  induction l with
  | nil => rfl
  | cons c rest ih => simp [muladdGo, ih]

theorem getD_takeWhile_zero : ∀ (l : List Nat) (i : Nat),
    i < (l.takeWhile (fun c => c == 0)).length → l.getD i 0 = 0 := by
  intro l
  induction l with
  | nil => intro i h; simp [List.takeWhile] at h
  | cons c rest ih =>
    intro i h
    by_cases hc : c = 0
    · subst hc
      simp only [List.takeWhile_cons, beq_self_eq_true, if_true, List.length_cons] at h
      cases i with
      | zero => rfl
      | succ j =>
        simpa [List.getD] using ih j (by simpa using Nat.lt_of_succ_lt_succ h)
    · simp [List.takeWhile_cons, hc] at h

theorem bvinv_divmod (s : BV) (d : Nat) (s2 : BV) (r : Nat) (hInv : BVInv s)
    (h : s.div_mod d = some (s2, r)) :
    BVInv s2 ∧ s.start ≤ s2.start ∧ s2.chunks.length = s.chunks.length := by
  unfold BV.div_mod at h
  by_cases hd : d = 0
  · simp [hd] at h
  · simp only [hd, if_false, Option.some.injEq, Prod.mk.injEq] at h
    obtain ⟨hs2, -⟩ := h
    have hstart := hInv.1
    set q := (divmodGo d 0 (s.chunks.drop s.start)).1 with hqdef
    set tw := (q.takeWhile (fun c => c == 0)).length with htwdef
    have hq : q.length = s.chunks.length - s.start := by
      rw [hqdef, divmodGo_length, List.length_drop]
    have htw : tw ≤ q.length := (List.takeWhile_prefix _).length_le
    have hlen : (s.chunks.take s.start ++ q).length = s.chunks.length := by
      simp only [List.length_append, List.length_take, hq]
      omega
    rw [← hs2]
    refine ⟨⟨?_, ?_⟩, by simp, hlen⟩
    · simp only [hlen]
      omega
    · intro i hi
      simp only at hi
      by_cases hcase : i < s.start
      · rw [List.getD_append _ _ _ _ (by simp [List.length_take]; omega)]
        have := hInv.2 i hcase
        rw [List.getD_eq_getElem?_getD] at this ⊢
        rwa [List.getElem?_take_of_lt hcase]
      · rw [List.getD_append_right _ _ _ _ (by simp [List.length_take]; omega)]
        apply getD_takeWhile_zero
        rw [← htwdef]
        simp only [List.length_take]
        omega

theorem bvinv_muladd_ok (s : BV) (m a : Nat) (s2 : BV) (hInv : BVInv s)
    (h : s.mul_add m a = Except.ok s2) :
    BVInv s2 ∧ s2.chunks.length = s.chunks.length ∧
      ((s2.start = s.start ∧ (muladdGo m a (s.chunks.drop s.start)).2 = 0) ∨
       (s2.start + 1 = s.start ∧ 0 < (muladdGo m a (s.chunks.drop s.start)).2)) := by
  unfold BV.mul_add at h
  have hstart := hInv.1
  have hml := muladdGo_length m a (s.chunks.drop s.start)
  rw [List.length_drop] at hml
  by_cases hc : (muladdGo m a (s.chunks.drop s.start)).2 > 0
  · simp only [hc, if_true] at h
    by_cases hst : s.start > 0
    · simp only [hst, if_true, Except.ok.injEq] at h
      rw [← h]
      have hlen2 : (s.chunks.take (s.start - 1) ++
          (muladdGo m a (s.chunks.drop s.start)).2 % 2 ^ 32 ::
            (muladdGo m a (s.chunks.drop s.start)).1).length = s.chunks.length := by
        simp only [List.length_append, List.length_take, List.length_cons, hml]
        omega
      refine ⟨⟨?_, ?_⟩, hlen2, Or.inr ⟨by show s.start - 1 + 1 = s.start; omega, hc⟩⟩
      · simp only [hlen2]
        omega
      · intro i hi
        simp only at hi
        rw [List.getD_append _ _ _ _ (by simp [List.length_take]; omega)]
        have := hInv.2 i (by omega)
        rw [List.getD_eq_getElem?_getD] at this ⊢
        rwa [List.getElem?_take_of_lt (by omega)]
    · simp [hst] at h
  · simp only [hc, if_false, Except.ok.injEq] at h
    rw [← h]
    have hlen2 : (s.chunks.take s.start ++ (muladdGo m a (s.chunks.drop s.start)).1).length
        = s.chunks.length := by
      simp only [List.length_append, List.length_take, hml]
      omega
    refine ⟨⟨?_, ?_⟩, hlen2, Or.inl ⟨rfl, by omega⟩⟩
    · simp only [hlen2]
      omega
    · intro i hi
      simp only at hi
      rw [List.getD_append _ _ _ _ (by simp [List.length_take]; omega)]
      have := hInv.2 i (by omega)
      rw [List.getD_eq_getElem?_getD] at this ⊢
      rwa [List.getElem?_take_of_lt (by omega)]

theorem muladd_err_iff (s : BV) (m a : Nat) :
    s.mul_add m a = Except.error () ↔
      0 < (muladdGo m a (s.chunks.drop s.start)).2 ∧ s.start = 0 := by
  unfold BV.mul_add
  constructor
  · intro h
    by_cases hc : (muladdGo m a (s.chunks.drop s.start)).2 > 0
    · by_cases hst : s.start > 0
      · simp [hc, hst] at h
      · exact ⟨hc, by omega⟩
    · simp [hc] at h
  · rintro ⟨hc, hst⟩
    rw [hst, List.drop_zero] at hc
    simp only [hst, List.drop_zero]
    simp [hc, Nat.pos_iff_ne_zero.mp hc]

theorem groups4Go_length (fuel : Nat) (l : List Nat) (hf : l.length ≤ fuel) :
    (groups4Go fuel l).length = (l.length + 3) / 4 := by
  induction fuel generalizing l with
  | zero =>
    have : l = [] := List.length_eq_zero.mp (by omega)
    subst this; rfl
  | succ f ih =>
    by_cases h : l = []
    · subst h; rfl
    · have hlen : 0 < l.length := List.length_pos.mpr h
      rw [groups4Go, if_neg h]
      have hrec := ih (l.drop 4) (by simp [List.length_drop]; omega)
      simp only [List.length_cons, hrec, List.length_drop]
      omega

theorem groups4_length (l : List Nat) : (groups4 l).length = (l.length + 3) / 4 :=
  groups4Go_length l.length l le_rfl

theorem bvinv_load_nonempty (s : BV) (bytes : List Nat) (ok : Bool) (s2 : BV)
    (hInv : BVInv s) (hne : bytes ≠ [])
    (h : s.load_be_bytes bytes = (ok, s2)) :
    BVInv s2 ∧ s2.chunks.length = s.chunks.length := by
  unfold BV.load_be_bytes at h
  have hbl : ¬bytes.length = 0 := by
    simpa using fun hx => hne (List.length_eq_zero.mp hx)
  simp only [hbl, if_false] at h
  by_cases hcap : (bytes.length + 4 - 1) / 4 > s.chunks.length
  · simp only [hcap, if_true, Prod.mk.injEq] at h
    exact ⟨h.2 ▸ hInv, by rw [← h.2]⟩
  · simp only [hcap, if_false, Prod.mk.injEq] at h
    obtain ⟨-, hs2⟩ := h
    set nd := (bytes.length + 4 - 1) / 4 with hnd
    set st := s.chunks.length - nd with hstd
    have hg : (groups4 bytes.reverse).reverse.length = (bytes.length + 3) / 4 := by
      rw [List.length_reverse, groups4_length, List.length_reverse]
    have hndg : (bytes.length + 3) / 4 = nd := by omega
    rw [hndg] at hg
    have hlen : (List.replicate st 0 ++ (groups4 bytes.reverse).reverse).length
        = s.chunks.length := by
      simp only [List.length_append, List.length_replicate, hg]
      omega
    rw [← hs2]
    constructor
    · constructor
      · simp only [hlen]
        have htw := (List.takeWhile_prefix
          (p := fun c => c == 0)
          (l := (List.replicate st 0 ++ (groups4 bytes.reverse).reverse).drop st)).length_le
        simp only [List.length_drop, hlen] at htw
        omega
      · intro i hi
        simp only at hi
        by_cases hcase : i < st
        · rw [List.getD_append _ _ _ _ (by simp [List.length_replicate]; omega)]
          rw [List.getD_eq_getElem?_getD, List.getElem?_replicate]
          simp [hcase]
        · have hdg : ((List.replicate st 0 ++ (groups4 bytes.reverse).reverse).drop st).getD
              (i - st) 0 = 0 := by
            apply getD_takeWhile_zero
            omega
          rw [List.getD_eq_getElem?_getD] at hdg ⊢
          rw [List.getElem?_drop] at hdg
          rwa [Nat.add_sub_cancel' (by omega)] at hdg
    · exact hlen

/-! ## C9: the BigUintView invariant -/

/-- C9 counterexample: `load_be_bytes` with an empty byte sequence only resets
`start` to the length and does not zero the limbs, so it does not preserve the
invariant: from the invariant-satisfying state `{chunks: [0, 5], start: 1}` it
produces `{chunks: [0, 5], start: 2}`, whose limb below `start` is nonzero. -/
theorem c9_load_empty_breaks_invariant :
    BVInv ⟨[0, 5], 1⟩ ∧
    BV.load_be_bytes ⟨[0, 5], 1⟩ [] = (true, ⟨[0, 5], 2⟩) ∧
    ¬BVInv ⟨[0, 5], 2⟩ := by
  refine ⟨by decide, by decide, by decide⟩

/-- C9 (amended): the `BigUintView` invariant (limbs below `start` are zero,
`start` within bounds) holds for `new` and is preserved by `div_mod`,
`mul_add` and by `load_be_bytes` on a nonempty byte sequence (the
empty-sequence branch of `load_be_bytes` only resets `start` to the length);
`start = length` denotes the value zero; `start` never decreases in
`div_mod`; `mul_add` either keeps `start` or decreases it by exactly one, the
latter exactly when the carry survives past the most significant limb, and
fails exactly when a surviving carry finds no spare limb. -/
theorem c9_biguintview_invariant :
    (∀ buf : List Nat, BVInv (BV.new buf) ∧ (BV.new buf).start = (BV.new buf).chunks.length) ∧
    (∀ s : BV, BVInv s → s.start = s.chunks.length → bvVal s = 0) ∧
    (∀ (s : BV) (d : Nat) (s2 : BV) (r : Nat), BVInv s → s.div_mod d = some (s2, r) →
        BVInv s2 ∧ s.start ≤ s2.start ∧ s2.chunks.length = s.chunks.length) ∧
    (∀ (s : BV) (m a : Nat) (s2 : BV), BVInv s → s.mul_add m a = Except.ok s2 →
        BVInv s2 ∧ s2.chunks.length = s.chunks.length ∧
        ((s2.start = s.start ∧ (muladdGo m a (s.chunks.drop s.start)).2 = 0) ∨
         (s2.start + 1 = s.start ∧ 0 < (muladdGo m a (s.chunks.drop s.start)).2))) ∧
    (∀ (s : BV) (m a : Nat), s.mul_add m a = Except.error () ↔
        0 < (muladdGo m a (s.chunks.drop s.start)).2 ∧ s.start = 0) ∧
    (∀ (s : BV) (bytes : List Nat) (ok : Bool) (s2 : BV), BVInv s → bytes ≠ [] →
        s.load_be_bytes bytes = (ok, s2) →
        BVInv s2 ∧ s2.chunks.length = s.chunks.length) := by
  refine ⟨?_, ?_, ?_, ?_, ?_, ?_⟩
  · intro buf
    refine ⟨⟨by simp [BV.new], ?_⟩, by simp [BV.new]⟩
    intro i hi
    simp only [BV.new] at hi ⊢
    rw [List.getD_eq_getElem?_getD, List.getElem?_replicate]
    simp [hi]
  · intro s hInv hLen
    apply limbsVal_zero_of_all_zero
    intro x hx
    obtain ⟨i, hi, rfl⟩ := List.mem_iff_getElem.mp hx
    have := hInv.2 i (by omega)
    rwa [List.getD_eq_getElem?_getD, List.getElem?_eq_getElem hi] at this
  · intro s d s2 r hInv h
    exact bvinv_divmod s d s2 r hInv h
  · intro s m a s2 hInv h
    exact bvinv_muladd_ok s m a s2 hInv h
  · intro s m a
    exact muladd_err_iff s m a
  · intro s bytes ok s2 hInv hne h
    exact bvinv_load_nonempty s bytes ok s2 hInv hne h

/-- C9 witness: the invariant-preservation theorem applied to the concrete
division `{chunks: [0, 7], start: 1} / 2 = {chunks: [0, 3], start: 1} rem 1`. -/
theorem c9_biguintview_invariant_witness :
    BVInv (⟨[0, 3], 1⟩ : BV) ∧ (⟨[0, 7], 1⟩ : BV).start ≤ (⟨[0, 3], 1⟩ : BV).start ∧
      (⟨[0, 3], 1⟩ : BV).chunks.length = (⟨[0, 7], 1⟩ : BV).chunks.length :=
  c9_biguintview_invariant.2.2.1 ⟨[0, 7], 1⟩ 2 ⟨[0, 3], 1⟩ 1 (by decide) (by decide)

/-! ## C1: round trip -/

/-- C1 (code bug): the round-trip `decode(encode(b)) = b` fails on the
portable (no-SSSE3) build for the compiled padded MSB-first base64 encoding:
`encode_mut`'s scalar loop unconditionally skips the `floor(len, 12)`-byte
prefix that the compiled-out SIMD helper was supposed to encode, so the
allocating `encode` of twelve zero bytes returns the empty string, and
decoding it returns `[]`, not the input. -/
theorem c1_roundtrip_fails_simd_skip :
    base64Spec.encoding = R.ok BASE64E ∧
    BASE64E.encode (List.replicate 12 0) = R.ok [] ∧
    BASE64E.decode [] = R.ok [] ∧
    List.replicate 12 0 ≠ ([] : List Nat) :=
  ⟨by decide, by decide, by decide, by decide⟩

/-! ## C2: panic freedom -/

/-- C2 (code bug): with a buffer of exactly the precomputed `encode_len`
length, `encode_mut` panics on the portable (no-SSSE3) build: for the
compiled padded MSB-first base64 encoding and a 25-byte input,
`encode_len(25) = 36`, the scalar loop skips the 24-byte SIMD prefix leaving
`written = 0`, and `encode_pad` then evaluates `block[0..36]` on its 32-byte
temporary — an out-of-bounds slice, i.e. a panic rather than an error value. -/
theorem c2_encode_mut_panics_with_exact_buffer :
    base64Spec.encoding = R.ok BASE64E ∧
    BASE64E.encode_len 25 = R.ok 36 ∧
    (BASE64E.encode_mut (List.replicate 25 0) (List.replicate 36 0)).1 = R.panic :=
  ⟨by decide, by decide, by decide⟩

/-! ## C3: encode_mut length exactness -/

/-- C3 counterexample: (i) in arithmetic mode (compiled base58) `encode_mut`
accepts a 100-byte buffer although `encode_len(1) = 3`, returning `Ok 1` — a
buffer-length mismatch is not reported and the returned count is not
`encode_len`; (ii) in block mode (modelled lowercase hex, portable build) a
16-byte input with the exact 32-byte buffer returns `Ok 0`, not 32. -/
theorem c3_encode_len_exactness_counterexample :
    (base58Spec.encoding = R.ok BASE58E ∧ BASE58E.encode_len 1 = R.ok 3 ∧
      (BASE58E.encode_mut [0] (List.replicate 100 0)).1 = R.ok 1) ∧
    (hexLowerSpec.encoding = R.ok HEXLOWERE ∧ HEXLOWERE.encode_len 16 = R.ok 32 ∧
      (HEXLOWERE.encode_mut (List.replicate 16 171) (List.replicate 32 0)).1 = R.ok 0) :=
  ⟨⟨by decide, by decide, by decide⟩, ⟨by decide, by decide, by decide⟩⟩

/-! ## C10: arithmetic decode is not atomic on error -/

/-- C10: whenever arithmetic-mode `decode_mut` returns an error, the reported
`DecodePartial.written` is 0; yet the failing call may already have
overwritten a prefix of the output buffer: decoding `"12"` in base58 into a
1-byte buffer `[7]` writes the magnitude byte `1` into the buffer and then
fails with `BufferTooSmall` (reporting `written = 0`) when it finds no room
for the leader's zero byte. -/
theorem c10_arith_decode_not_atomic :
    (∀ (E : Encoding) (input output : List Nat) (p : DecodePartial) (out2 : List Nat),
        E.is_arithmetic = true → E.decode_mut input output = (R.err p, out2) →
        p.written = 0) ∧
    BASE58E.is_arithmetic = true ∧
    BASE58E.decode_mut [49, 50] [7] =
      (R.err ⟨0, 0, ⟨0, DecodeKind.BufferTooSmall⟩⟩, [1]) ∧
    ([1] : List Nat) ≠ [7] := by
  refine ⟨?_, by decide, by decide, by decide⟩
  intro E input output p out2 hA h
  unfold Encoding.decode_mut at h
  rw [hA] at h
  simp only [if_true] at h
  split at h
  · rename_i vu hvu
    injection h with h1 h2
    injection h1 with h1
    rw [← h1]
  · split at h
    · simp at h
    · rename_i er out3 heq
      injection h with h1 h2
      injection h1 with h1
      rw [← h1]
    · simp at h
    · simp at h

/-- C10 witness: the universal written-is-zero statement applied at the
concrete failing base58 call. -/
theorem c10_arith_decode_not_atomic_witness :
    (⟨0, 0, ⟨0, DecodeKind.BufferTooSmall⟩⟩ : DecodePartial).written = 0 :=
  c10_arith_decode_not_atomic.1 BASE58E [49, 50] [7]
    ⟨0, 0, ⟨0, DecodeKind.BufferTooSmall⟩⟩ [1] (by decide) (by decide)

/-! ## C5: lowercase hex -/

theorem hexlower_decode_len_odd (n : Nat) (h : n % 2 = 1) :
    HEXLOWERE.decode_len n = R.err ⟨n - 1, DecodeKind.Length⟩ := by
  have hA : HEXLOWERE.is_arithmetic = false := by decide
  have hbit : HEXLOWERE.bit = 4 := by decide
  have hpm : HEXLOWERE.pad_mode = PaddingMode.Standard := by decide
  have hig : HEXLOWERE.has_ignore = false := by decide
  unfold Encoding.decode_len
  simp only [hA, Bool.false_eq_true, if_false, hbit, hpm, hig]
  have h4 : ¬((4 : Nat) = 0 ∨ 7 ≤ (4 : Nat)) := by omega
  rw [if_neg h4]
  unfold decode_wrap_len
  have hfl : floor n 2 = n - 1 := by unfold floor; omega
  simp only [hfl]
  have hne : (n == n - 1) = false := by
    simp only [beq_eq_false_iff_ne, ne_eq]
    omega
  simp [hne]

/-- C5: for the modelled lowercase hexadecimal encoding, encoding
`[0xDE, 0xAD, 0xBE, 0xEF]` yields `"deadbeef"`, and decoding any odd-length
input fails with a `Length` error (whose position is the greatest valid
length, `len - 1`). -/
theorem c5_hexlower_deadbeef_and_odd_length :
    hexLowerSpec.encoding = R.ok HEXLOWERE ∧
    HEXLOWERE.encode [222, 173, 190, 239] = R.ok [100, 101, 97, 100, 98, 101, 101, 102] ∧
    ∀ input : List Nat, input.length % 2 = 1 →
      HEXLOWERE.decode input = R.err ⟨input.length - 1, DecodeKind.Length⟩ := by
  refine ⟨by decide, by decide, ?_⟩
  intro input h
  unfold Encoding.decode
  rw [hexlower_decode_len_odd input.length h]

/-- C5 witness: the odd-length part applied to the concrete input `"abc"`. -/
theorem c5_hexlower_deadbeef_and_odd_length_witness :
    HEXLOWERE.decode [97, 98, 99] = R.err ⟨2, DecodeKind.Length⟩ :=
  c5_hexlower_deadbeef_and_odd_length.2.2 [97, 98, 99] (by decide)



theorem specSet_length : ∀ (v : List Nat) (i x : Nat) (v2 : List Nat),
    specSet v i x = Except.ok v2 → v2.length = v.length := by
  intro v i x v2 h
  unfold specSet at h
  split at h
  · exact absurd h (by simp)
  · split at h
    · injection h with hv; rw [← hv]
    · split at h
      · exact absurd h (by simp)
      · injection h with hv; rw [← hv]; simp

theorem buildValues_length : ∀ (l : List (Nat × Nat)) (v v2 : List Nat),
    buildValues l v = Except.ok v2 → v2.length = v.length := by
  intro l
  induction l with
  | nil => intro v v2 h; unfold buildValues at h; injection h with h; rw [← h]
  | cons p rest ih =>
    intro v v2 h
    unfold buildValues at h
    split at h
    · exact absurd h (by simp)
    · rename_i v3 hset
      rw [ih v3 v2 h, specSet_length v p.2 (p.1 % 256) v3 hset]

theorem setAll_length : ∀ (l : List Nat) (x : Nat) (v v2 : List Nat),
    setAll x l v = Except.ok v2 → v2.length = v.length := by
  intro l
  induction l with
  | nil => intro x v v2 h; unfold setAll at h; injection h with h; rw [← h]
  | cons b rest ih =>
    intro x v v2 h
    unfold setAll at h
    split at h
    · exact absurd h (by simp)
    · rename_i v3 hset
      rw [ih x v3 v2 h, specSet_length v b x v3 hset]

theorem translateFold_length : ∀ (l : List (Nat × Nat)) (v v2 : List Nat),
    translateFold l v = Except.ok v2 → v2.length = v.length := by
  intro l
  induction l with
  | nil => intro v v2 h; unfold translateFold at h; injection h with h; rw [← h]
  | cons p rest ih =>
    intro v v2 h
    unfold translateFold at h
    split at h
    · exact absurd h (by simp)
    · simp only [] at h
      split at h
      · exact absurd h (by simp)
      · split at h
        · exact absurd h (by simp)
        · rename_i v3 hset
          rw [ih v3 v2 h, specSet_length v p.1 (v.getD p.2 0) v3 hset]

theorem bitOfLen_facts (len : Nat) (ua : Bool) (bit : Nat)
    (h : bitOfLen len ua = some bit) : bit < 7 ∧ (ua = false → 0 < bit) := by
  unfold bitOfLen at h
  split at h
  all_goals try (injection h with hb; exact ⟨by omega, fun _ => by omega⟩)
  split at h
  · rename_i hua2
    injection h with hb
    refine ⟨by omega, fun hf => ?_⟩
    rw [hf] at hua2
    exact absurd hua2 (by simp)
  · exact absurd h (by simp)

theorem specStage1_ok_facts (s : Specification) (ua : Bool) (bit : Nat) (v : List Nat)
    (h : specStage1 s = R.ok (ua, bit, v)) :
    ua = useArithOf s ∧ v.length = 128 ∧ bit < 7 ∧ (ua = false → 0 < bit) := by
  unfold specStage1 at h
  split at h
  · exact absurd h (by simp)
  · split at h
    · exact absurd h (by simp)
    · split at h
      · exact absurd h (by simp)
      · rename_i bit2 hbit
        split at h
        · exact absurd h (by simp)
        · rename_i values1 hv1
          injection h with h
          injection h with h1 h2
          injection h2 with h2 h3
          subst h1
          subst h2
          subst h3
          obtain ⟨hb7, hpos⟩ := bitOfLen_facts s.symbols.length (useArithOf s) bit2 hbit
          refine ⟨rfl, ?_, hb7, hpos⟩
          have := buildValues_length _ _ _ hv1
          simpa using this

theorem specStagePad_length (ua : Bool) (bit : Nat) (padding : Option Nat)
    (v1 : List Nat) (p : Option Nat) (v2 : List Nat)
    (h : specStagePad ua bit padding v1 = Except.ok (p, v2)) : v2.length = v1.length := by
  unfold specStagePad at h
  split at h
  · injection h with h; injection h with h1 h2; rw [← h2]
  · split at h
    · exact absurd h (by simp)
    · split at h
      · exact absurd h (by simp)
      · split at h
        · exact absurd h (by simp)
        · rename_i v3 hset
          injection h with h
          injection h with h1 h2
          rw [← h2]
          exact specSet_length _ _ _ _ hset

theorem specStageWrap_length (bit : Nat) (w : Wrap) (v3 : List Nat)
    (wo : Option (Nat × List Nat)) (v4 : List Nat)
    (h : specStageWrap bit w v3 = R.ok (wo, v4)) : v4.length = v3.length := by
  unfold specStageWrap at h
  split at h
  · injection h with h; injection h with h1 h2; rw [← h2]
  · split at h
    · exact absurd h (by simp)
    · split at h
      · exact absurd h (by simp)
      · split at h
        · exact absurd h (by simp)
        · split at h
          · exact absurd h (by simp)
          · split at h
            · exact absurd h (by simp)
            · rename_i v5 hset
              injection h with h
              injection h with h1 h2
              rw [← h2]
              exact setAll_length _ _ _ _ hset

theorem specStageTranslate_length (t : Translate) (v4 v5 : List Nat)
    (h : specStageTranslate t v4 = Except.ok v5) : v5.length = v4.length := by
  unfold specStageTranslate at h
  split at h
  · exact absurd h (by simp)
  · exact translateFold_length _ _ _ h

theorem buildBlob_length (ua : Bool) (symbols values : List Nat) (bit : Nat)
    (msb ctb : Bool) (pm : PaddingMode) (pad : Option Nat)
    (wrapOpt : Option (Nat × List Nat)) (hv : values.length = 128) :
    (buildBlob ua symbols values bit msb ctb pm pad wrapOpt).length = 531 := by
  unfold buildBlob
  have hsym : (if ua = true then symbols.take 256 ++ List.replicate (256 - symbols.length) INVALID
      else (List.range 256).map fun i => symbols.getD (i % symbols.length) 0).length = 256 := by
    cases ua
    · simp
    · simp only [if_true]
      simp [List.length_take]
      omega
  have hwrap : (match wrapOpt with
      | some (col, endSep) =>
        col :: endSep.length :: (endSep.take 15 ++ List.replicate (15 - endSep.length) INVALID)
      | none => 0 :: 0 :: List.replicate 15 INVALID : List Nat).length = 17 := by
    match wrapOpt with
    | some (col, endSep) =>
      simp [List.length_take]
      omega
    | none => simp
  simp only [List.length_append, hsym, hwrap, hv, List.length_replicate, List.length_cons,
    List.length_nil]

theorem buildBlob_getD_513 (ua : Bool) (symbols values : List Nat) (bit : Nat)
    (msb ctb : Bool) (pm : PaddingMode) (pad : Option Nat)
    (wrapOpt : Option (Nat × List Nat)) (hv : values.length = 128) :
    (buildBlob ua symbols values bit msb ctb pm pad wrapOpt).getD 513 0 =
      blobByte513 ua bit msb ctb pm := by
  unfold buildBlob
  have hsym : (if ua = true then symbols.take 256 ++ List.replicate (256 - symbols.length) INVALID
      else (List.range 256).map fun i => symbols.getD (i % symbols.length) 0).length = 256 := by
    cases ua
    · simp
    · simp only [if_true]
      simp [List.length_take]
      omega
  have h1 : ((if ua = true then symbols.take 256 ++ List.replicate (256 - symbols.length) INVALID
      else (List.range 256).map fun i => symbols.getD (i % symbols.length) 0) ++ values ++
        List.replicate 128 INVALID).length = 512 := by
    simp only [List.length_append, hsym, hv, List.length_replicate]
  rw [List.append_assoc _ [_, _]]
  rw [List.getD_append_right _ _ _ _ (by rw [h1]; omega)]
  rw [h1]
  rfl

theorem blobByte513_land128_true (bit : Nat) (msb ctb : Bool) (pm : PaddingMode) :
    blobByte513 true bit msb ctb pm &&& 128 ≠ 0 := by
  cases msb <;> cases ctb <;> cases pm <;> simp [blobByte513]

theorem blobByte513_land128_false (bit : Nat) (hb : bit < 7) (msb ctb : Bool)
    (pm : PaddingMode) : blobByte513 false bit msb ctb pm &&& 128 = 0 := by
  interval_cases bit <;> cases msb <;> cases ctb <;> cases pm <;> decide

theorem is_arithmetic_buildBlob (ua : Bool) (symbols values : List Nat) (bit : Nat)
    (msb ctb : Bool) (pm : PaddingMode) (pad : Option Nat)
    (wrapOpt : Option (Nat × List Nat)) (hv : values.length = 128) (hb : bit < 7) :
    (Encoding.mk (buildBlob ua symbols values bit msb ctb pm pad wrapOpt)).is_arithmetic
      = ua := by
  unfold Encoding.is_arithmetic
  simp only [buildBlob_length ua symbols values bit msb ctb pm pad wrapOpt hv,
    buildBlob_getD_513 ua symbols values bit msb ctb pm pad wrapOpt hv]
  cases ua
  · simp [blobByte513_land128_false bit hb msb ctb pm]
  · simp [blobByte513_land128_true bit msb ctb pm]

/-- C7: `Specification::encoding` selects the codec mode as a pure function
of the symbol count: every successfully compiled encoding is arithmetic
exactly when `use_arithmetic` is set or the symbol count is not in
{2, 4, 8, 16, 32, 64}; in particular the 58-symbol Base58 specification
compiles to arithmetic mode and the 64-symbol base64 specification compiles
to block mode. -/
theorem c7_mode_selection :
    (∀ (s : Specification) (E : Encoding), s.encoding = R.ok E →
      E.is_arithmetic =
        (s.use_arithmetic || !([2, 4, 8, 16, 32, 64].contains s.symbols.length))) ∧
    (base58Spec.symbols.length = 58 ∧ base58Spec.encoding = R.ok BASE58E ∧
      BASE58E.is_arithmetic = true) ∧
    (base64Spec.symbols.length = 64 ∧ base64Spec.encoding = R.ok BASE64E ∧
      BASE64E.is_arithmetic = false) := by
  refine ⟨?_, ⟨by decide, by rfl, by decide⟩, ⟨by decide, by rfl, by decide⟩⟩
  intro s E h
  rw [show (s.use_arithmetic || !([2, 4, 8, 16, 32, 64].contains s.symbols.length))
      = useArithOf s from rfl]
  unfold Specification.encoding at h
  cases h1 : specStage1 s with
  | err e => rw [h1] at h; exact absurd h (by simp)
  | panic => rw [h1] at h; exact absurd h (by simp)
  | hang => rw [h1] at h; exact absurd h (by simp)
  | ok t =>
    obtain ⟨ua, bit, v1⟩ := t
    obtain ⟨hua, hl1, hb7, -⟩ := specStage1_ok_facts s ua bit v1 h1
    rw [h1] at h
    dsimp only at h
    cases h2 : specStagePad ua bit s.padding v1 with
    | error e => rw [h2] at h; exact absurd h (by simp)
    | ok t2 =>
      obtain ⟨padOpt, v2⟩ := t2
      have hl2 : v2.length = 128 := by
        rw [specStagePad_length ua bit s.padding v1 padOpt v2 h2, hl1]
      rw [h2] at h
      dsimp only at h
      cases h3 : setAll IGNORE s.ignore v2 with
      | error e => rw [h3] at h; exact absurd h (by simp)
      | ok v3 =>
        have hl3 : v3.length = 128 := by rw [setAll_length s.ignore IGNORE v2 v3 h3, hl2]
        rw [h3] at h
        dsimp only at h
        cases h4 : specStageWrap bit s.wrap v3 with
        | err e => rw [h4] at h; exact absurd h (by simp)
        | panic => rw [h4] at h; exact absurd h (by simp)
        | hang => rw [h4] at h; exact absurd h (by simp)
        | ok t4 =>
          obtain ⟨wrapOpt, v4⟩ := t4
          have hl4 : v4.length = 128 := by
            rw [specStageWrap_length bit s.wrap v3 wrapOpt v4 h4, hl3]
          rw [h4] at h
          dsimp only at h
          cases h5 : specStageTranslate s.translate v4 with
          | error e => rw [h5] at h; exact absurd h (by simp)
          | ok v5 =>
            have hl5 : v5.length = 128 := by
              rw [specStageTranslate_length s.translate v4 v5 h5, hl4]
            rw [h5] at h
            dsimp only at h
            injection h with h
            rw [← h, ← hua]
            exact is_arithmetic_buildBlob ua s.symbols v5 bit _ _ s.padding_mode padOpt
              wrapOpt hl5 hb7

/-- Witness for C7: the universal mode-selection law instantiated at the
compiled Base58 specification. -/
theorem c7_mode_selection_witness :
    BASE58E.is_arithmetic =
      (base58Spec.use_arithmetic ||
        !([2, 4, 8, 16, 32, 64].contains base58Spec.symbols.length)) :=
  c7_mode_selection.1 base58Spec BASE58E (by rfl)

theorem specSet_ne_extra (v : List Nat) (i x : Nat) :
    specSet v i x ≠ Except.error SpecificationError.ExtraPadding := by
  unfold specSet
  split
  · simp
  · split
    · simp
    · split
      · simp
      · simp

theorem setAll_ne_extra : ∀ (l : List Nat) (x : Nat) (v : List Nat),
    setAll x l v ≠ Except.error SpecificationError.ExtraPadding := by
  intro l
  induction l with
  | nil => intro x v h; exact absurd h (by unfold setAll; simp)
  | cons b rest ih =>
    intro x v h
    unfold setAll at h
    split at h
    · rename_i e hs
      injection h with h2
      rw [h2] at hs
      exact specSet_ne_extra v b x hs
    · exact ih x _ h

theorem translateFold_ne_extra : ∀ (l : List (Nat × Nat)) (v : List Nat),
    translateFold l v ≠ Except.error SpecificationError.ExtraPadding := by
  intro l
  induction l with
  | nil => intro v h; exact absurd h (by unfold translateFold; simp)
  | cons p rest ih =>
    intro v h
    unfold translateFold at h
    split at h
    · exact absurd h (by simp)
    · simp only [] at h
      split at h
      · exact absurd h (by simp)
      · split at h
        · rename_i e hs
          injection h with h2
          rw [h2] at hs
          exact specSet_ne_extra v p.1 (v.getD p.2 0) hs
        · exact ih _ h

theorem specStageWrap_ne_extra (bit : Nat) (w : Wrap) (v : List Nat) :
    specStageWrap bit w v ≠ R.err SpecificationError.ExtraPadding := by
  unfold specStageWrap
  split
  · simp
  · split
    · simp
    · split
      · simp
      · split
        · simp
        · split
          · simp
          · split
            · rename_i e hs
              intro h
              injection h with h2
              rw [h2] at hs
              exact setAll_ne_extra w.separator IGNORE v hs
            · simp

theorem specStageTranslate_ne_extra (t : Translate) (v : List Nat) :
    specStageTranslate t v ≠ Except.error SpecificationError.ExtraPadding := by
  unfold specStageTranslate
  split
  · simp
  · exact translateFold_ne_extra (t.fromS.zip t.toS) v

theorem specStagePad_extra_iff (ua : Bool) (bit : Nat) (padding : Option Nat)
    (v1 : List Nat) :
    specStagePad ua bit padding v1 = Except.error SpecificationError.ExtraPadding ↔
      padding ≠ none ∧ ua = false ∧ 8 % bit = 0 := by
  cases padding with
  | none => simp [specStagePad]
  | some padc =>
    unfold specStagePad
    dsimp only
    constructor
    · intro h
      split at h
      · rename_i hcond
        refine ⟨by simp, ?_, hcond.2⟩
        cases ua
        · rfl
        · exact absurd rfl hcond.1
      · split at h
        · exact absurd h (by simp)
        · split at h
          · rename_i e hs
            injection h with h2
            rw [h2] at hs
            exact absurd hs (specSet_ne_extra v1 (padc % 256) PADDING)
          · exact absurd h (by simp)
    · intro hc
      obtain ⟨-, hua, hbit⟩ := hc
      rw [if_pos ⟨by rw [hua]; exact Bool.false_ne_true, hbit⟩]

/-- C8: with the symbol-validation stage succeeding (`use_arithmetic` flag
`ua` and bit width `bit`), `Specification::encoding` fails with `ExtraPadding`
exactly when a padding symbol is set, the encoding is not arithmetic, and the
bit width divides 8; and (in block mode) the bit widths dividing 8 are
exactly 1, 2 and 4. -/
theorem c8_extra_padding_iff (s : Specification) (ua : Bool) (bit : Nat)
    (h1 : ∃ v, padStepInput s = some (ua, bit, v)) :
    (s.encoding = R.err SpecificationError.ExtraPadding ↔
      s.padding ≠ none ∧ ua = false ∧ 8 % bit = 0) ∧
    (ua = false → (8 % bit = 0 ↔ bit = 1 ∨ bit = 2 ∨ bit = 4)) := by
  obtain ⟨v, hv⟩ := h1
  unfold padStepInput at hv
  cases hs1 : specStage1 s with
  | err e => rw [hs1] at hv; exact absurd hv (by simp)
  | panic => rw [hs1] at hv; exact absurd hv (by simp)
  | hang => rw [hs1] at hv; exact absurd hv (by simp)
  | ok t =>
    rw [hs1] at hv
    simp only [] at hv
    injection hv with hv
    rw [hv] at hs1
    obtain ⟨-, -, hb7, hpos⟩ := specStage1_ok_facts s ua bit v hs1
    constructor
    · constructor
      · intro h
        unfold Specification.encoding at h
        rw [hs1] at h
        dsimp only at h
        cases h2 : specStagePad ua bit s.padding v with
        | error e =>
          rw [h2] at h
          dsimp only at h
          injection h with h3
          rw [h3] at h2
          exact (specStagePad_extra_iff ua bit s.padding v).mp h2
        | ok t2 =>
          obtain ⟨padOpt, v2⟩ := t2
          rw [h2] at h
          dsimp only at h
          cases h3 : setAll IGNORE s.ignore v2 with
          | error e =>
            rw [h3] at h
            dsimp only at h
            injection h with h4
            rw [h4] at h3
            exact absurd h3 (setAll_ne_extra s.ignore IGNORE v2)
          | ok v3 =>
            rw [h3] at h
            dsimp only at h
            cases h4 : specStageWrap bit s.wrap v3 with
            | err e =>
              rw [h4] at h
              dsimp only at h
              injection h with h5
              rw [h5] at h4
              exact absurd h4 (specStageWrap_ne_extra bit s.wrap v3)
            | panic => rw [h4] at h; exact absurd h (by simp)
            | hang => rw [h4] at h; exact absurd h (by simp)
            | ok t4 =>
              obtain ⟨wrapOpt, v4⟩ := t4
              rw [h4] at h
              dsimp only at h
              cases h5 : specStageTranslate s.translate v4 with
              | error e =>
                rw [h5] at h
                dsimp only at h
                injection h with h6
                rw [h6] at h5
                exact absurd h5 (specStageTranslate_ne_extra s.translate v4)
              | ok v5 => rw [h5] at h; exact absurd h (by simp)
      · intro hc
        have hpad := (specStagePad_extra_iff ua bit s.padding v).mpr hc
        unfold Specification.encoding
        rw [hs1]
        dsimp only
        rw [hpad]
    · intro hua
      have h0 : 0 < bit := hpos hua
      interval_cases bit <;> decide

/-- Witness for C8 at the base64 specification: bit width 6 does not divide
8, so its padding symbol is accepted (no `ExtraPadding` error). -/
theorem c8_extra_padding_iff_witness :
    (base64Spec.encoding = R.err SpecificationError.ExtraPadding ↔
      base64Spec.padding ≠ none ∧ false = false ∧ 8 % 6 = 0) ∧
    (false = false → (8 % 6 = 0 ↔ 6 = 1 ∨ 6 = 2 ∨ 6 = 4)) :=
  c8_extra_padding_iff base64Spec false 6 ⟨_, rfl⟩



theorem lor_mul_pow_eq_add (a b n : Nat) (h : b < 2 ^ n) :
    (a * 2 ^ n) ||| b = a * 2 ^ n + b := by
  induction n generalizing a b with
  | zero =>
    interval_cases b
    simp
  | succ n ih =>
    have hb2 : b.div2 < 2 ^ n := by
      rw [Nat.div2_val]; omega
    have e1 : a * 2 ^ (n + 1) = Nat.bit false (a * 2 ^ n) := by
      simp [Nat.bit]; ring
    conv_lhs => rw [e1, ← Nat.bit_decomp b]
    rw [Nat.lor_bit, ih _ _ hb2]
    have hsplit := Nat.bodd_add_div2 b
    have h2 : a * 2 ^ (n + 1) = 2 * (a * 2 ^ n) := by rw [Nat.pow_succ]; ring
    rw [h2]
    cases hb : b.bodd <;>
      rw [hb] at hsplit <;>
      simp only [Nat.bit, Bool.false_or, cond_false, cond_true, Nat.div2_val,
        Bool.toNat_false, Bool.toNat_true] at hsplit ⊢ <;>
      generalize a * 2 ^ n = m at * <;>
      omega

theorem limbsVal_foldl (l : List Nat) : ∀ acc : Nat,
    l.foldl (fun a c => a * 2 ^ 32 + c) acc = acc * 2 ^ (32 * l.length) + limbsVal l := by
  induction l with
  | nil => intro acc; simp [limbsVal]
  | cons c r ih =>
    intro acc
    have h1 : limbsVal (c :: r) = c * 2 ^ (32 * r.length) + limbsVal r := by
      show List.foldl _ (0 * 2 ^ 32 + c) r = _
      rw [ih (0 * 2 ^ 32 + c)]
      ring_nf
    show List.foldl _ (acc * 2 ^ 32 + c) r = _
    rw [ih (acc * 2 ^ 32 + c), h1]
    have h3 : 32 * (c :: r).length = 32 * r.length + 32 := by
      simp [List.length_cons]; ring
    rw [h3, pow_add]
    ring

theorem limbsVal_cons (c : Nat) (r : List Nat) :
    limbsVal (c :: r) = c * 2 ^ (32 * r.length) + limbsVal r := by
  show List.foldl _ (0 * 2 ^ 32 + c) r = _
  rw [limbsVal_foldl r (0 * 2 ^ 32 + c)]
  ring_nf

theorem limbsVal_append (p q : List Nat) :
    limbsVal (p ++ q) = limbsVal p * 2 ^ (32 * q.length) + limbsVal q := by
  show List.foldl _ 0 (p ++ q) = _
  rw [List.foldl_append]
  exact limbsVal_foldl q _

theorem limbsVal_lt (l : List Nat) (h : ∀ x ∈ l, x < 2 ^ 32) :
    limbsVal l < 2 ^ (32 * l.length) := by
  induction l with
  | nil => simp [limbsVal]
  | cons c r ih =>
    rw [limbsVal_cons]
    have hc : c < 2 ^ 32 := h c (by simp)
    have hr : limbsVal r < 2 ^ (32 * r.length) := ih (fun x hx => h x (by simp [hx]))
    have h3 : 32 * (c :: r).length = 32 * r.length + 32 := by
      simp [List.length_cons]; ring
    rw [h3, pow_add]
    calc c * 2 ^ (32 * r.length) + limbsVal r
        < c * 2 ^ (32 * r.length) + 2 ^ (32 * r.length) := by omega
      _ = (c + 1) * 2 ^ (32 * r.length) := by ring
      _ ≤ 2 ^ 32 * 2 ^ (32 * r.length) := by
          exact Nat.mul_le_mul_right _ (by omega)
      _ = 2 ^ (32 * r.length) * 2 ^ 32 := by ring

theorem limbsVal_eq_zero_iff (l : List Nat) :
    limbsVal l = 0 ↔ ∀ x ∈ l, x = 0 := by
  induction l with
  | nil => simp [limbsVal]
  | cons c r ih =>
    rw [limbsVal_cons]
    constructor
    · intro h
      have hc : c = 0 ∧ limbsVal r = 0 := by
        have hpow : 0 < 2 ^ (32 * r.length) := Nat.pos_pow_of_pos _ (by omega)
        constructor
        · by_contra hc
          have : 1 ≤ c := Nat.one_le_iff_ne_zero.mpr hc
          have : 2 ^ (32 * r.length) ≤ c * 2 ^ (32 * r.length) := by
            calc 2 ^ (32 * r.length) = 1 * 2 ^ (32 * r.length) := by ring
              _ ≤ c * 2 ^ (32 * r.length) := Nat.mul_le_mul_right _ this
          omega
        · omega
      intro x hx
      rcases List.mem_cons.mp hx with h1 | h1
      · rw [h1]; exact hc.1
      · exact (ih.mp hc.2) x h1
    · intro h
      have hc : c = 0 := h c (by simp)
      have hr : limbsVal r = 0 := ih.mpr (fun x hx => h x (by simp [hx]))
      rw [hc, hr]
      ring

theorem shiftRight32_eq (t : Nat) : t >>> 32 = t / 2 ^ 32 :=
  Nat.shiftRight_eq_div_pow t 32

theorem muladdGo_val (m a : Nat) (l : List Nat) :
    limbsVal (muladdGo m a l).1 + (muladdGo m a l).2 * 2 ^ (32 * l.length) =
      limbsVal l * m + a := by
  induction l with
  | nil => simp [muladdGo, limbsVal]
  | cons c r ih =>
    unfold muladdGo
    dsimp only
    rw [limbsVal_cons, limbsVal_cons]
    rw [muladdGo_length m a r]
    have h3 : 32 * (c :: r).length = 32 * r.length + 32 := by
      simp [List.length_cons]; ring
    rw [h3, pow_add, shiftRight32_eq]
    have hdm := Nat.div_add_mod (c * m + (muladdGo m a r).2) (2 ^ 32)
    generalize hX : (muladdGo m a r).2 = cr at *
    generalize hV : limbsVal (muladdGo m a r).1 = vr at *
    have : vr + cr * 2 ^ (32 * r.length) = limbsVal r * m + a := ih
    generalize hT : c * m + cr = t at *
    have expand : t % 2 ^ 32 * 2 ^ (32 * r.length) + vr +
        t / 2 ^ 32 * (2 ^ (32 * r.length) * 2 ^ 32) =
        (t % 2 ^ 32 + t / 2 ^ 32 * 2 ^ 32) * 2 ^ (32 * r.length) + vr := by ring
    rw [expand]
    have ht : t % 2 ^ 32 + t / 2 ^ 32 * 2 ^ 32 = t := by omega
    rw [ht, ← hT]
    calc (c * m + cr) * 2 ^ (32 * r.length) + vr
        = c * 2 ^ (32 * r.length) * m + (vr + cr * 2 ^ (32 * r.length)) := by ring
      _ = c * 2 ^ (32 * r.length) * m + (limbsVal r * m + a) := by rw [this]
      _ = (c * 2 ^ (32 * r.length) + limbsVal r) * m + a := by ring

theorem muladdGo_bounded (m a : Nat) (l : List Nat) :
    ∀ x ∈ (muladdGo m a l).1, x < 2 ^ 32 := by
  induction l with
  | nil => simp [muladdGo]
  | cons c r ih =>
    unfold muladdGo
    dsimp only
    intro x hx
    rcases List.mem_cons.mp hx with h1 | h1
    · rw [h1]; exact Nat.mod_lt _ (by norm_num)
    · exact ih x h1

theorem muladdGo_carry_lt (m a : Nat) (l : List Nat) (hm : m < 2 ^ 32)
    (ha : a < 2 ^ 32) (hl : ∀ x ∈ l, x < 2 ^ 32) :
    (muladdGo m a l).2 < 2 ^ 32 := by
  induction l with
  | nil => simpa [muladdGo] using ha
  | cons c r ih =>
    unfold muladdGo
    dsimp only
    rw [shiftRight32_eq]
    have hc : c < 2 ^ 32 := hl c (by simp)
    have hcr : (muladdGo m a r).2 < 2 ^ 32 := ih (fun x hx => hl x (by simp [hx]))
    have : c * m + (muladdGo m a r).2 < 2 ^ 64 := by
      calc c * m + (muladdGo m a r).2
          ≤ (2 ^ 32 - 1) * (2 ^ 32 - 1) + (2 ^ 32 - 1) := by
            have := Nat.mul_le_mul (by omega : c ≤ 2 ^ 32 - 1) (by omega : m ≤ 2 ^ 32 - 1)
            omega
        _ < 2 ^ 64 := by norm_num
    have : (c * m + (muladdGo m a r).2) / 2 ^ 32 < 2 ^ 64 / 2 ^ 32 := by
      apply Nat.div_lt_div_of_lt_of_dvd
      · norm_num
      · exact this
    simpa using this

theorem val_drop_of_inv (s : BV) (h : BVInv s) :
    limbsVal (s.chunks.drop s.start) = limbsVal s.chunks := by
  conv_rhs => rw [← List.take_append_drop s.start s.chunks]
  rw [limbsVal_append]
  have hz : limbsVal (s.chunks.take s.start) = 0 := by
    apply limbsVal_zero_of_all_zero
    intro x hx
    obtain ⟨i, hi, hget⟩ := List.mem_iff_getElem.mp hx
    have hi2 : i < s.start := by
      rw [List.length_take] at hi
      omega
    have hstart := h.1
    have := h.2 i hi2
    rw [List.getElem_take] at hget
    rw [← hget]
    rw [List.getD_eq_getElem?_getD] at this
    rw [List.getElem?_eq_getElem (by omega)] at this
    simpa using this
  rw [hz]
  ring

theorem limbsVal_take_zero (s : BV) (hInv : BVInv s) (k : Nat) (hk : k ≤ s.start) :
    limbsVal (s.chunks.take k) = 0 := by
  apply limbsVal_zero_of_all_zero
  intro x hx
  obtain ⟨i, hi, hget⟩ := List.mem_iff_getElem.mp hx
  have hi2 : i < k := by rw [List.length_take] at hi; omega
  have hz := hInv.2 i (by omega)
  rw [List.getElem_take] at hget
  rw [← hget]
  have hilen : i < s.chunks.length := by
    rw [List.length_take] at hi; omega
  rw [List.getD_eq_getElem?_getD, List.getElem?_eq_getElem hilen] at hz
  simpa using hz

theorem val_zero_of_inv_zero (s : BV) (hInv : BVInv s)
    (hz : s.chunks.length ≤ s.start) : limbsVal s.chunks = 0 := by
  apply limbsVal_zero_of_all_zero
  intro x hx
  obtain ⟨i, hi, hget⟩ := List.mem_iff_getElem.mp hx
  have := hInv.2 i (by omega)
  rw [List.getD_eq_getElem?_getD, List.getElem?_eq_getElem hi] at this
  rw [← hget]
  simpa using this

theorem takeZeros_all (l : List Nat) (h : limbsVal l = 0) :
    (l.takeWhile (fun c => c == 0)).length = l.length := by
  have hall := (limbsVal_eq_zero_iff l).mp h
  have h2 : l.takeWhile (fun c => c == 0) = l := by
    apply List.takeWhile_eq_self_iff.mpr
    intro x hx
    simp [hall x hx]
  rw [h2]

theorem mul_add_ok_val (s : BV) (m a : Nat) (s2 : BV)
    (hInv : BVInv s) (hB : limbsBounded s) (hm : m < 2 ^ 32) (ha : a < 2 ^ 32)
    (h : s.mul_add m a = Except.ok s2) :
    limbsVal s2.chunks = limbsVal s.chunks * m + a ∧ limbsBounded s2 ∧
      (1 ≤ m → topNZ s → topNZ s2) := by
  have hstart := hInv.1
  have hml := muladdGo_length m a (s.chunks.drop s.start)
  rw [List.length_drop] at hml
  have hdropB : ∀ x ∈ s.chunks.drop s.start, x < 2 ^ 32 :=
    fun x hx => hB x (List.mem_of_mem_drop hx)
  have hcarrylt := muladdGo_carry_lt m a (s.chunks.drop s.start) hm ha hdropB
  have hval := muladdGo_val m a (s.chunks.drop s.start)
  rw [List.length_drop, val_drop_of_inv s hInv] at hval
  unfold BV.mul_add at h
  by_cases hc : (muladdGo m a (s.chunks.drop s.start)).2 > 0
  · by_cases hst : s.start > 0
    · simp only [hc, if_true, hst, Except.ok.injEq] at h
      subst h
      refine ⟨?_, ?_, ?_⟩
      · show limbsVal (s.chunks.take (s.start - 1) ++ _ :: _) = _
        rw [limbsVal_append, limbsVal_cons]
        rw [limbsVal_take_zero s hInv (s.start - 1) (by omega)]
        rw [Nat.mod_eq_of_lt hcarrylt, hml]
        rw [zero_mul, zero_add]
        rw [← hval]
        ring
      · intro x hx
        show x < 2 ^ 32
        rcases List.mem_append.mp hx with h1 | h1
        · exact hB x (List.mem_of_mem_take h1)
        · rcases List.mem_cons.mp h1 with h2 | h2
          · rw [h2]; exact Nat.mod_lt _ (by norm_num)
          · exact muladdGo_bounded m a _ x h2
      · intro hm1 htop
        right
        show List.getD _ (s.start - 1) 0 ≠ 0
        rw [List.getD_append_right _ _ _ _ (by rw [List.length_take]; omega)]
        have he : s.start - 1 - (List.take (s.start - 1) s.chunks).length = 0 := by
          rw [List.length_take]; omega
        rw [he]
        simp only [List.getD_cons_zero]
        rw [Nat.mod_eq_of_lt hcarrylt]
        omega
    · simp [hc, hst] at h
  · simp only [hc, if_false, Except.ok.injEq] at h
    subst h
    have hc0 : (muladdGo m a (s.chunks.drop s.start)).2 = 0 := by omega
    refine ⟨?_, ?_, ?_⟩
    · show limbsVal (s.chunks.take s.start ++ _) = _
      rw [limbsVal_append, limbsVal_take_zero s hInv s.start (le_refl _),
        zero_mul, zero_add]
      rw [hc0] at hval
      simpa using hval
    · intro x hx
      show x < 2 ^ 32
      rcases List.mem_append.mp hx with h1 | h1
      · exact hB x (List.mem_of_mem_take h1)
      · exact muladdGo_bounded m a _ x h1
    · intro hm1 htop
      rcases htop with hz | htop
      · left
        show (s.chunks.take s.start ++ (muladdGo m a (s.chunks.drop s.start)).1).length ≤
          s.start
        have hde : s.chunks.drop s.start = [] := List.drop_eq_nil_of_le (by omega)
        rw [hde]
        show (s.chunks.take s.start ++ (muladdGo m a []).1).length ≤ s.start
        have hnil : (muladdGo m a ([] : List Nat)).1 = [] := rfl
        rw [hnil]
        simp only [List.append_nil, List.length_take]
        omega
      · right
        show List.getD _ s.start 0 ≠ 0
        have hlt : s.start < s.chunks.length := by
          by_contra hge
          apply htop
          rw [List.getD_eq_getElem?_getD, List.getElem?_eq_none (by omega)]
          rfl
        have hdecomp : s.chunks.drop s.start =
            s.chunks.getD s.start 0 :: s.chunks.drop (s.start + 1) := by
          rw [List.getD_eq_getElem?_getD, List.getElem?_eq_getElem hlt]
          exact List.drop_eq_getElem_cons hlt
        rw [List.getD_append_right _ _ _ _ (by rw [List.length_take]; omega)]
        have he : s.start - (List.take s.start s.chunks).length = 0 := by
          rw [List.length_take]; omega
        rw [he]
        rw [hdecomp]
        unfold muladdGo
        simp only [List.getD_cons_zero]
        set c := s.chunks.getD s.start 0 with hcdef
        set cr := (muladdGo m a (s.chunks.drop (s.start + 1))).2 with hcrdef
        have hcar0 : (c * m + cr) >>> 32 = 0 := by
          have h2 := hc0
          rw [hdecomp] at h2
          unfold muladdGo at h2
          simpa using h2
        rw [shiftRight32_eq] at hcar0
        have hlt2 : c * m + cr < 2 ^ 32 := by
          by_contra hge
          have h3 : 1 ≤ (c * m + cr) / 2 ^ 32 :=
            (Nat.one_le_div_iff (by norm_num)).mpr (by omega)
          omega
        rw [Nat.mod_eq_of_lt hlt2]
        have hc1 : 1 ≤ c := by omega
        have hcm : 1 ≤ c * m := Nat.one_le_iff_ne_zero.mpr (by positivity)
        omega

theorem divmodGo_val (d : Nat) (hd : 0 < d) : ∀ (l : List Nat) (carry : Nat),
    carry < d → (∀ x ∈ l, x < 2 ^ 32) →
    limbsVal (divmodGo d carry l).1 = (carry * 2 ^ (32 * l.length) + limbsVal l) / d ∧
    (divmodGo d carry l).2 = (carry * 2 ^ (32 * l.length) + limbsVal l) % d ∧
    (∀ x ∈ (divmodGo d carry l).1, x < 2 ^ 32) := by
  intro l
  induction l with
  | nil =>
    intro carry hcarry hl
    refine ⟨?_, ?_, by simp [divmodGo]⟩
    · show limbsVal [] = (carry * 2 ^ (32 * List.length ([] : List Nat)) + limbsVal []) / d
      simp only [limbsVal, List.foldl_nil, List.length_nil, Nat.mul_zero, pow_zero,
        Nat.mul_one, Nat.add_zero]
      exact (Nat.div_eq_of_lt hcarry).symm
    · show carry = (carry * 2 ^ (32 * List.length ([] : List Nat)) + limbsVal []) % d
      simp only [limbsVal, List.foldl_nil, List.length_nil, Nat.mul_zero, pow_zero,
        Nat.mul_one, Nat.add_zero]
      exact (Nat.mod_eq_of_lt hcarry).symm
  | cons c r ih =>
    intro carry hcarry hl
    have hc : c < 2 ^ 32 := hl c (by simp)
    have hrB : ∀ x ∈ r, x < 2 ^ 32 := fun x hx => hl x (by simp [hx])
    have hcarry1 : (carry <<< 32) ||| c = carry * 2 ^ 32 + c := by
      rw [Nat.shiftLeft_eq]
      exact lor_mul_pow_eq_add carry c 32 hc
    set c1 := carry * 2 ^ 32 + c with hc1def
    have hq : c1 / d < 2 ^ 32 := by
      rw [Nat.div_lt_iff_lt_mul hd]
      have h1 : carry * 2 ^ 32 + 2 ^ 32 ≤ d * 2 ^ 32 := by
        have h2 : carry + 1 ≤ d := hcarry
        calc carry * 2 ^ 32 + 2 ^ 32 = (carry + 1) * 2 ^ 32 := by ring
          _ ≤ d * 2 ^ 32 := Nat.mul_le_mul_right _ h2
      omega
    have hmodd : c1 % d < d := Nat.mod_lt _ hd
    obtain ⟨ih1, ih2, ih3⟩ := ih (c1 % d) hmodd hrB
    have hR := divmodGo_length d (c1 % d) r
    have hnum : carry * 2 ^ (32 * (c :: r).length) + limbsVal (c :: r) =
        d * (c1 / d * 2 ^ (32 * r.length)) +
          (c1 % d * 2 ^ (32 * r.length) + limbsVal r) := by
      rw [limbsVal_cons]
      have h32 : 32 * (c :: r).length = 32 * r.length + 32 := by
        simp [List.length_cons]; ring
      rw [h32, pow_add]
      have hsplit : d * (c1 / d) + c1 % d = c1 := Nat.div_add_mod c1 d
      calc carry * (2 ^ (32 * r.length) * 2 ^ 32) + (c * 2 ^ (32 * r.length) + limbsVal r)
          = (carry * 2 ^ 32 + c) * 2 ^ (32 * r.length) + limbsVal r := by ring
        _ = (d * (c1 / d) + c1 % d) * 2 ^ (32 * r.length) + limbsVal r := by
            rw [hsplit]
        _ = d * (c1 / d * 2 ^ (32 * r.length)) +
              (c1 % d * 2 ^ (32 * r.length) + limbsVal r) := by ring
    unfold divmodGo
    dsimp only
    rw [hcarry1]
    refine ⟨?_, ?_, ?_⟩
    · rw [limbsVal_cons, hR, Nat.mod_eq_of_lt hq, ih1, hnum, Nat.mul_add_div hd]
    · rw [hnum, Nat.mul_add_mod]
      exact ih2
    · intro x hx
      rcases List.mem_cons.mp hx with h1 | h1
      · rw [h1]; exact Nat.mod_lt _ (by norm_num)
      · exact ih3 x h1

theorem div_mod_full (s : BV) (d : Nat) (s2 : BV) (r : Nat)
    (hInv : BVInv s) (hB : limbsBounded s) (hd : 0 < d)
    (h : s.div_mod d = some (s2, r)) :
    limbsVal s2.chunks = limbsVal s.chunks / d ∧ r = limbsVal s.chunks % d ∧
    limbsBounded s2 ∧ (s2.is_zero = true ↔ limbsVal s2.chunks = 0) := by
  obtain ⟨hInv2, hmono, hlen2⟩ := bvinv_divmod s d s2 r hInv h
  unfold BV.div_mod at h
  rw [if_neg (by omega)] at h
  simp only [Option.some.injEq, Prod.mk.injEq] at h
  obtain ⟨hs2, hr⟩ := h
  obtain ⟨hv1, hv2, hv3⟩ := divmodGo_val d hd (s.chunks.drop s.start) 0 hd
    (fun x hx => hB x (List.mem_of_mem_drop hx))
  rw [zero_mul, zero_add, val_drop_of_inv s hInv] at hv1 hv2
  have hol := divmodGo_length d 0 (s.chunks.drop s.start)
  rw [List.length_drop] at hol
  have hchunks : s2.chunks =
      s.chunks.take s.start ++ (divmodGo d 0 (s.chunks.drop s.start)).1 := by
    rw [← hs2]
  have hvchunks : limbsVal s2.chunks = limbsVal s.chunks / d := by
    rw [hchunks, limbsVal_append, limbsVal_take_zero s hInv s.start (le_refl _),
      zero_mul, zero_add, hv1]
  refine ⟨hvchunks, by rw [← hr, hv2], ?_, ?_⟩
  · intro x hx
    show x < 2 ^ 32
    rw [hchunks] at hx
    rcases List.mem_append.mp hx with h1 | h1
    · exact hB x (List.mem_of_mem_take h1)
    · exact hv3 x h1
  · unfold BV.is_zero
    rw [decide_eq_true_eq]
    constructor
    · intro hz
      exact val_zero_of_inv_zero s2 hInv2 hz
    · intro hz
      rw [hvchunks] at hz
      rw [← hv1] at hz
      have htw := takeZeros_all _ hz
      have hstart2 : s2.start =
          s.start + ((divmodGo d 0 (s.chunks.drop s.start)).1.takeWhile
            (fun c => c == 0)).length := by
        rw [← hs2]
      rw [hstart2, htw, hol, hlen2]
      have hsle := hInv.1
      omega

theorem beVal_foldl (l : List Nat) : ∀ acc : Nat,
    l.foldl (fun a b => a * 256 + b) acc = acc * 256 ^ l.length + beVal l := by
  induction l with
  | nil => intro acc; simp [beVal]
  | cons c r ih =>
    intro acc
    have h1 : beVal (c :: r) = c * 256 ^ r.length + beVal r := by
      show List.foldl _ (0 * 256 + c) r = _
      rw [ih (0 * 256 + c)]
      ring_nf
    show List.foldl _ (acc * 256 + c) r = _
    rw [ih (acc * 256 + c), h1, List.length_cons, pow_succ]
    ring

theorem beVal_cons (c : Nat) (r : List Nat) :
    beVal (c :: r) = c * 256 ^ r.length + beVal r := by
  show List.foldl _ (0 * 256 + c) r = _
  rw [beVal_foldl r (0 * 256 + c)]
  ring_nf

theorem leVal_append (p q : List Nat) :
    leVal (p ++ q) = leVal p + 256 ^ p.length * leVal q := by
  induction p with
  | nil => simp [leVal]
  | cons c r ih =>
    show leVal (c :: (r ++ q)) = leVal (c :: r) + 256 ^ (c :: r).length * leVal q
    rw [show leVal (c :: (r ++ q)) = c + 256 * leVal (r ++ q) from rfl,
        show leVal (c :: r) = c + 256 * leVal r from rfl,
        ih, List.length_cons, pow_succ]
    ring

theorem leVal_lt (l : List Nat) (h : ∀ b ∈ l, b < 256) :
    leVal l < 256 ^ l.length := by
  induction l with
  | nil => simp [leVal]
  | cons c r ih =>
    unfold leVal
    have hc : c < 256 := h c (by simp)
    have hr : leVal r < 256 ^ r.length := ih (fun b hb => h b (by simp [hb]))
    rw [List.length_cons, pow_succ]
    calc c + 256 * leVal r < 256 + 256 * leVal r := by omega
      _ = 256 * (leVal r + 1) := by ring
      _ ≤ 256 * 256 ^ r.length := by
          exact Nat.mul_le_mul_left _ (by omega)
      _ = 256 ^ r.length * 256 := by ring

theorem beVal_eq_leVal_reverse (l : List Nat) : beVal l = leVal l.reverse := by
  induction l with
  | nil => simp [beVal, leVal]
  | cons c r ih =>
    rw [beVal_cons, List.reverse_cons, leVal_append]
    show _ = leVal r.reverse + 256 ^ r.reverse.length * leVal [c]
    have hc : leVal [c] = c := by simp [leVal]
    rw [hc, List.length_reverse, ih]
    ring

theorem limbsVal_reverse (l : List Nat) : limbsVal l.reverse = limbsValLE l := by
  induction l with
  | nil => simp [limbsVal, limbsValLE]
  | cons c r ih =>
    rw [List.reverse_cons, limbsVal_append]
    have hc : limbsVal [c] = c := by simp [limbsVal]
    rw [hc, List.length_cons, ih]
    show limbsValLE r * 2 ^ (32 * 1) + c = limbsValLE (c :: r)
    rw [show limbsValLE (c :: r) = c + 2 ^ 32 * limbsValLE r from rfl]
    ring_nf

theorem beChunkOf_eq_leVal (l : List Nat) (h : ∀ b ∈ l, b < 256) :
    beChunkOf l = leVal l := by
  induction l with
  | nil => rfl
  | cons c r ih =>
    unfold beChunkOf leVal
    have hc : c < 256 := h c (by simp)
    have hr := ih (fun b hb => h b (by simp [hb]))
    rw [hr, Nat.shiftLeft_eq]
    rw [Nat.lor_comm]
    have h8 := lor_mul_pow_eq_add (leVal r) c 8 (by omega : c < 2 ^ 8)
    rw [h8]
    show leVal r * 2 ^ 8 + c = c + 256 * leVal r
    have h256 : (2 : Nat) ^ 8 = 256 := by norm_num
    rw [h256]
    ring

theorem beChunkOf_lt (l : List Nat) (h : ∀ b ∈ l, b < 256) (hl : l.length ≤ 4) :
    beChunkOf l < 2 ^ 32 := by
  rw [beChunkOf_eq_leVal l h]
  have := leVal_lt l h
  calc leVal l < 256 ^ l.length := this
    _ ≤ 256 ^ 4 := Nat.pow_le_pow_right (by norm_num) hl
    _ = 2 ^ 32 := by norm_num

theorem groups4Go_val (fuel : Nat) : ∀ l : List Nat, l.length ≤ fuel →
    (∀ b ∈ l, b < 256) →
    limbsValLE (groups4Go fuel l) = leVal l ∧
    ∀ x ∈ groups4Go fuel l, x < 2 ^ 32 := by
  induction fuel with
  | zero =>
    intro l hl hb
    have : l = [] := List.length_eq_zero.mp (by omega)
    subst this
    exact ⟨rfl, by simp [groups4Go]⟩
  | succ f ih =>
    intro l hl hb
    by_cases hnil : l = []
    · subst hnil
      exact ⟨rfl, by simp [groups4Go]⟩
    · rw [groups4Go, if_neg hnil]
      have hlen : 0 < l.length := List.length_pos.mpr hnil
      have hdropB : ∀ b ∈ l.drop 4, b < 256 := fun b hb2 => hb b (List.mem_of_mem_drop hb2)
      have htakeB : ∀ b ∈ l.take 4, b < 256 := fun b hb2 => hb b (List.mem_of_mem_take hb2)
      obtain ⟨ih1, ih2⟩ := ih (l.drop 4) (by rw [List.length_drop]; omega) hdropB
      constructor
      · show beChunkOf (l.take 4) + 2 ^ 32 * limbsValLE (groups4Go f (l.drop 4)) = leVal l
        rw [ih1, beChunkOf_eq_leVal _ htakeB]
        conv_rhs => rw [← List.take_append_drop 4 l, leVal_append]
        by_cases h4 : 4 ≤ l.length
        · have ht4 : (l.take 4).length = 4 := by rw [List.length_take]; omega
          rw [ht4]
          norm_num
        · have hd4 : l.drop 4 = [] := List.drop_eq_nil_of_le (by omega)
          rw [hd4]
          show leVal (l.take 4) + 2 ^ 32 * leVal [] = leVal (l.take 4) + 256 ^ _ * leVal []
          simp [leVal]
      · intro x hx
        rcases List.mem_cons.mp hx with h1 | h1
        · rw [h1]
          exact beChunkOf_lt _ htakeB (by rw [List.length_take]; omega)
        · exact ih2 x h1

theorem groups4_val (l : List Nat) (hb : ∀ b ∈ l, b < 256) :
    limbsValLE (groups4 l) = leVal l ∧ ∀ x ∈ groups4 l, x < 2 ^ 32 :=
  groups4Go_val l.length l (le_refl _) hb

theorem load_be_bytes_full (s : BV) (bytes : List Nat) (s2 : BV)
    (hInv : BVInv s) (hne : bytes ≠ []) (hb : ∀ b ∈ bytes, b < 256)
    (h : s.load_be_bytes bytes = (true, s2)) :
    limbsVal s2.chunks = beVal bytes ∧ limbsBounded s2 ∧
      s2.chunks.length = s.chunks.length ∧ BVInv s2 := by
  obtain ⟨hInv2, hlen2⟩ := bvinv_load_nonempty s bytes true s2 hInv hne h
  unfold BV.load_be_bytes at h
  have hbl : ¬bytes.length = 0 := by
    simpa using fun hx => hne (List.length_eq_zero.mp hx)
  simp only [hbl, if_false] at h
  split at h
  · simp at h
  · simp only [Prod.mk.injEq] at h
    obtain ⟨-, hs2⟩ := h
    have hrevB : ∀ b ∈ bytes.reverse, b < 256 := by
      intro b hb2
      exact hb b (List.mem_reverse.mp hb2)
    obtain ⟨hg1, hg2⟩ := groups4_val bytes.reverse hrevB
    have hvfilled : limbsVal (groups4 bytes.reverse).reverse = beVal bytes := by
      rw [limbsVal_reverse, hg1, ← beVal_eq_leVal_reverse]
    refine ⟨?_, ?_, hlen2, hInv2⟩
    · rw [← hs2]
      show limbsVal (List.replicate _ 0 ++ (groups4 bytes.reverse).reverse) = _
      rw [limbsVal_append]
      have hz : limbsVal (List.replicate (s.chunks.length - (bytes.length + 4 - 1) / 4) 0)
          = 0 := by
        apply limbsVal_zero_of_all_zero
        intro x hx
        exact (List.eq_of_mem_replicate hx)
      rw [hz, zero_mul, zero_add, hvfilled]
    · intro x hx
      show x < 2 ^ 32
      rw [← hs2] at hx
      rcases List.mem_append.mp hx with h1 | h1
      · rw [List.eq_of_mem_replicate h1]
        norm_num
      · exact hg2 x (List.mem_reverse.mp h1)

theorem encode_overflow_gt512 (alphabet input output : List Nat)
    (h : 512 < input.length) :
    encode_to_buffer alphabet input output = (R.err ⟨EncodeKind.Overflow⟩, output) := by
  unfold encode_to_buffer
  have hne : input ≠ [] := by
    intro he
    rw [he] at h
    simp at h
  rw [if_neg hne]
  have hload : (BV.new (List.replicate MAX_BIGINT_BUFFER 0)).load_be_bytes input
      = (false, BV.new (List.replicate MAX_BIGINT_BUFFER 0)) := by
    unfold BV.load_be_bytes BV.new
    simp only [List.length_replicate]
    rw [if_neg (by omega)]
    rw [if_pos (by show (input.length + 4 - 1) / 4 > MAX_BIGINT_BUFFER
                   show (input.length + 4 - 1) / 4 > 128
                   omega)]
  dsimp only
  rw [hload]
  rfl

theorem mul_add_overflow_iff (s : BV) (m a : Nat)
    (hInv : BVInv s) (hB : limbsBounded s) (hm : m < 2 ^ 32) (ha : a < 2 ^ 32) :
    s.mul_add m a = Except.error () ↔
      2 ^ (32 * s.chunks.length) ≤ limbsVal s.chunks * m + a := by
  have hdropB : ∀ x ∈ s.chunks.drop s.start, x < 2 ^ 32 :=
    fun x hx => hB x (List.mem_of_mem_drop hx)
  have hml := muladdGo_length m a (s.chunks.drop s.start)
  rw [List.length_drop] at hml
  have hval := muladdGo_val m a (s.chunks.drop s.start)
  rw [List.length_drop, val_drop_of_inv s hInv] at hval
  rw [muladd_err_iff]
  constructor
  · rintro ⟨hc, hst⟩
    have hexp : s.chunks.length - s.start = s.chunks.length := by rw [hst]; omega
    rw [hexp] at hval
    have h1 : 2 ^ (32 * s.chunks.length) ≤
        (muladdGo m a (s.chunks.drop s.start)).2 * 2 ^ (32 * s.chunks.length) := by
      calc 2 ^ (32 * s.chunks.length) = 1 * 2 ^ (32 * s.chunks.length) := by ring
        _ ≤ _ := Nat.mul_le_mul_right _ hc
    omega
  · intro hbig
    have hst : s.start = 0 := by
      by_contra hst
      have hst1 : 1 ≤ s.start := by omega
      have hlen1 : 1 ≤ s.chunks.length := by
        have := hInv.1
        omega
      have hvlt : limbsVal s.chunks < 2 ^ (32 * (s.chunks.length - 1)) := by
        rw [← val_drop_of_inv s hInv]
        have := limbsVal_lt (s.chunks.drop s.start) hdropB
        rw [List.length_drop] at this
        calc limbsVal (s.chunks.drop s.start) < 2 ^ (32 * (s.chunks.length - s.start)) := this
          _ ≤ 2 ^ (32 * (s.chunks.length - 1)) := by
              apply Nat.pow_le_pow_right (by norm_num)
              omega
      set P := 2 ^ (32 * (s.chunks.length - 1)) with hPdef
      set Q := (2 : Nat) ^ 32 with hQdef
      have hPQ : 2 ^ (32 * s.chunks.length) = P * Q := by
        rw [hPdef, hQdef, ← pow_add]
        congr 1
        omega
      have hP1 : 1 ≤ P := Nat.one_le_two_pow
      have hQ1 : 1 ≤ Q := Nat.one_le_two_pow
      have hmm : limbsVal s.chunks * m ≤ (P - 1) * (Q - 1) :=
        Nat.mul_le_mul (by omega) (by omega)
      have h3 : (P - 1) * (Q - 1) + (Q - 1) = (Q - 1) * P := by
        calc (P - 1) * (Q - 1) + (Q - 1) = (Q - 1) * (P - 1 + 1) := by ring
          _ = (Q - 1) * P := by rw [Nat.sub_add_cancel hP1]
      have h4 : (Q - 1) * P < Q * P :=
        Nat.mul_lt_mul_of_lt_of_le (by omega) (le_refl P) (by omega)
      rw [hPQ] at hbig
      have hQP : Q * P = P * Q := by ring
      omega
    refine ⟨?_, hst⟩
    have hexp : s.chunks.length - s.start = s.chunks.length := by rw [hst]; omega
    rw [hexp] at hval hml
    have hout : limbsVal (muladdGo m a (s.chunks.drop s.start)).1 <
        2 ^ (32 * s.chunks.length) := by
      have h5 := limbsVal_lt (muladdGo m a (s.chunks.drop s.start)).1
        (muladdGo_bounded m a _)
      rw [hml] at h5
      exact h5
    by_contra hc0
    have hc00 : (muladdGo m a (s.chunks.drop s.start)).2 = 0 := by omega
    rw [hc00, zero_mul, add_zero] at hval
    omega

theorem decodeFold_overflow_step (fullInput lookup : List Nat) (base b : Nat)
    (rest : List Nat) (big : BV) (idx : Nat)
    (hl : lookup[b]? = some idx) (hidx : idx ≠ INVALID_INDEX)
    (herr : big.mul_add base idx = Except.error ()) :
    decodeFold fullInput lookup base (b :: rest) big = R.err ⟨0, DecodeKind.Overflow⟩ := by
  unfold decodeFold
  rw [hl]
  dsimp only
  rw [if_neg hidx, herr]

/-- C6: the arithmetic scratch capacity is the constant 128 `u32` limbs (512
magnitude bytes); every input longer than 512 bytes makes
`encode_to_buffer` return an `Overflow` encode error with the output buffer
untouched; at full capacity `mul_add` fails exactly when the accumulated
magnitude would reach `2 ^ 4096`, and `decode_to_buffer`'s digit fold turns
that failure into an `Overflow` decode error at position 0. -/
theorem c6_capacity_overflow :
    MAX_BIGINT_BUFFER = 128 ∧
    (∀ (alphabet input output : List Nat), 512 < input.length →
      encode_to_buffer alphabet input output = (R.err ⟨EncodeKind.Overflow⟩, output)) ∧
    (∀ (s : BV) (m a : Nat), BVInv s → limbsBounded s → m < 2 ^ 32 → a < 2 ^ 32 →
      s.chunks.length = MAX_BIGINT_BUFFER →
      (s.mul_add m a = Except.error () ↔ 2 ^ 4096 ≤ limbsVal s.chunks * m + a)) ∧
    (∀ (fullInput lookup : List Nat) (base b : Nat) (rest : List Nat) (big : BV)
      (idx : Nat), lookup[b]? = some idx → idx ≠ INVALID_INDEX →
      big.mul_add base idx = Except.error () →
      decodeFold fullInput lookup base (b :: rest) big =
        R.err ⟨0, DecodeKind.Overflow⟩) := by
  refine ⟨rfl, encode_overflow_gt512, ?_, decodeFold_overflow_step⟩
  intro s m a hInv hB hm ha hlen
  have hiff := mul_add_overflow_iff s m a hInv hB hm ha
  rw [hlen] at hiff
  exact hiff

/-- Witness for C6: a 513-byte input overflows the encoder; a full 128-limb
view at value `2 ^ 4096 - 1` overflows `mul_add` by the magnitude criterion;
and the decode fold reports it as an `Overflow` error at position 0. -/
theorem c6_capacity_overflow_witness :
    encode_to_buffer [0, 1] (List.replicate 513 0) [] =
      (R.err ⟨EncodeKind.Overflow⟩, []) ∧
    ((BV.mk (List.replicate 128 (2 ^ 32 - 1)) 0).mul_add 2 0 = Except.error () ↔
      2 ^ 4096 ≤ limbsVal (List.replicate 128 (2 ^ 32 - 1)) * 2 + 0) ∧
    decodeFold [50, 50] (buildLookup [49, 50]) 2 [50]
      (BV.mk (List.replicate 128 (2 ^ 32 - 1)) 0) = R.err ⟨0, DecodeKind.Overflow⟩ := by
  refine ⟨c6_capacity_overflow.2.1 [0, 1] (List.replicate 513 0) [] (by simp),
    c6_capacity_overflow.2.2.1 (BV.mk (List.replicate 128 (2 ^ 32 - 1)) 0) 2 0
      (by decide)
      (by intro c hc
          rw [List.eq_of_mem_replicate hc]
          norm_num)
      (by norm_num) (by norm_num) (by simp [MAX_BIGINT_BUFFER]),
    c6_capacity_overflow.2.2.2 [50, 50] (buildLookup [49, 50]) 2 50 []
      (BV.mk (List.replicate 128 (2 ^ 32 - 1)) 0) 1 (by decide) (by decide)
      (by rfl)⟩

theorem leDigitsGo_eq (b : Nat) (hb : 2 ≤ b) :
    ∀ f n, n ≤ f → leDigitsGo b f n = leDigits b n := by
  intro f
  induction f using Nat.strong_induction_on with
  | _ f ih =>
    intro n hn
    match f, hn with
    | 0, hn =>
      have h0 : n = 0 := by omega
      subst h0
      rfl
    | f + 1, hn =>
      by_cases h0 : n = 0
      · subst h0; rfl
      · obtain ⟨m, rfl⟩ : ∃ m, n = m + 1 := ⟨n - 1, by omega⟩
        have hdiv : (m + 1) / b < m + 1 := Nat.div_lt_self (by omega) (by omega)
        rw [leDigitsGo, if_neg h0]
        have hrhs : leDigits b (m + 1) = (m + 1) % b :: leDigitsGo b m ((m + 1) / b) := by
          unfold leDigits
          rw [leDigitsGo, if_neg h0]
        rw [hrhs]
        rw [ih f (by omega) ((m + 1) / b) (by omega),
            ih m (by omega) ((m + 1) / b) (by omega)]

theorem leDigits_unfold (b n : Nat) (hb : 2 ≤ b) (hn : 0 < n) :
    leDigits b n = n % b :: leDigits b (n / b) := by
  have h0 : n ≠ 0 := by omega
  obtain ⟨m, rfl⟩ : ∃ m, n = m + 1 := ⟨n - 1, by omega⟩
  show leDigitsGo b (m + 1) (m + 1) = _
  rw [leDigitsGo, if_neg h0]
  have hdiv : (m + 1) / b < m + 1 := Nat.div_lt_self (by omega) (by omega)
  rw [leDigitsGo_eq b hb m ((m + 1) / b) (by omega)]

theorem leDigits_digit_lt (b : Nat) (hb : 2 ≤ b) :
    ∀ n, ∀ d ∈ leDigits b n, d < b := by
  intro n
  induction n using Nat.strong_induction_on with
  | _ n ih =>
    intro d hd
    by_cases h0 : n = 0
    · subst h0
      simp [leDigits, leDigitsGo] at hd
    · rw [leDigits_unfold b n hb (by omega)] at hd
      rcases List.mem_cons.mp hd with h1 | h1
      · rw [h1]; exact Nat.mod_lt _ (by omega)
      · exact ih (n / b) (Nat.div_lt_self (by omega) (by omega)) d h1

theorem leDigits_msd_ne_zero (b : Nat) (hb : 2 ≤ b) :
    ∀ n, 0 < n → ∃ ds d, leDigits b n = ds ++ [d] ∧ d ≠ 0 ∧ d < b := by
  intro n
  induction n using Nat.strong_induction_on with
  | _ n ih =>
    intro hn
    rw [leDigits_unfold b n hb hn]
    by_cases hq : n / b = 0
    · refine ⟨[], n % b, ?_, ?_, Nat.mod_lt _ (by omega)⟩
      · rw [hq]
        rfl
      · have hdm := Nat.div_add_mod n b
        rw [hq, Nat.mul_zero, Nat.zero_add] at hdm
        omega
    · obtain ⟨ds, d, hds, hd0, hdb⟩ :=
        ih (n / b) (Nat.div_lt_self (by omega) (by omega)) (Nat.pos_of_ne_zero hq)
      exact ⟨n % b :: ds, d, by rw [hds]; rfl, hd0, hdb⟩

theorem lePad_succ (b p x : Nat) :
    lePad b (p + 1) x = x % b :: lePad b p (x / b) := by
  unfold lePad
  rw [List.range_succ_eq_map]
  rw [List.map_cons, List.map_map]
  congr 1
  · simp
  · apply List.map_congr_left
    intro i hi
    show x / b ^ (i + 1) % b = x / b / b ^ i % b
    rw [pow_succ, mul_comm, ← Nat.div_div_eq_div_mul]

theorem lePad_length (b p x : Nat) : (lePad b p x).length = p := by
  unfold lePad
  simp

theorem lePad_zero_val (b p : Nat) : lePad b p 0 = List.replicate p 0 := by
  induction p with
  | zero => rfl
  | succ p ih =>
    rw [lePad_succ, Nat.zero_mod, Nat.zero_div, ih]
    rfl

theorem digit_split (b : Nat) (hb : 2 ≤ b) :
    ∀ p x, 0 < x / b ^ p →
    leDigits b x = lePad b p (x % b ^ p) ++ leDigits b (x / b ^ p) := by
  intro p
  induction p with
  | zero =>
    intro x hx
    show leDigits b x = lePad b 0 (x % b ^ 0) ++ leDigits b (x / b ^ 0)
    rw [pow_zero, Nat.div_one]
    rfl
  | succ p ih =>
    intro x hx
    have hbp1 : 0 < b ^ (p + 1) := Nat.pos_pow_of_pos _ (by omega)
    have hxpos : 0 < x := by
      rcases Nat.eq_zero_or_pos x with h0 | h0
      · rw [h0] at hx
        simp at hx
      · exact h0
    rw [leDigits_unfold b x hb hxpos, lePad_succ]
    have h1 : x % b ^ (p + 1) % b = x % b := by
      apply Nat.mod_mod_of_dvd
      exact ⟨b ^ p, by rw [pow_succ]; ring⟩
    have h2 : x % b ^ (p + 1) / b = x / b % b ^ p := by
      rw [pow_succ, mul_comm]
      exact Nat.mod_mul_right_div_self x b (b ^ p)
    have h3 : x / b ^ (p + 1) = x / b / b ^ p := by
      rw [pow_succ, mul_comm, ← Nat.div_div_eq_div_mul]
    rw [h1, h2]
    rw [List.cons_append]
    congr 1
    rw [ih (x / b) (by rw [← h3]; exact hx), h3]

theorem writeAt_nil_xs (out : List Nat) (i : Nat) : writeAt out i [] = out := by
  unfold writeAt
  simp

theorem writeAt_zero (out xs : List Nat) :
    writeAt out 0 xs = xs ++ out.drop xs.length := by
  unfold writeAt
  simp

theorem writeAt_length (out : List Nat) (i : Nat) (xs : List Nat)
    (h : i + xs.length ≤ out.length) : (writeAt out i xs).length = out.length := by
  unfold writeAt
  simp only [List.length_append, List.length_take, List.length_drop]
  omega

theorem set_eq_writeAt (l : List Nat) (i v : Nat) (h : i < l.length) :
    l.set i v = writeAt l i [v] := by
  rw [List.set_eq_take_append_cons_drop, if_pos h]
  unfold writeAt
  simp

theorem wr_ok (l : List Nat) (i v : Nat) (o2 : List Nat)
    (h : wr l i v = some o2) : i < l.length ∧ o2 = writeAt l i [v] := by
  unfold wr at h
  split at h
  · rename_i hlt
    injection h with h2
    exact ⟨hlt, by rw [← h2, set_eq_writeAt l i v hlt]⟩
  · exact absurd h (by simp)

theorem writeAt_compose (out : List Nat) (i : Nat) (xs ys : List Nat)
    (h : i + xs.length ≤ out.length) :
    writeAt (writeAt out i xs) (i + xs.length) ys = writeAt out i (xs ++ ys) := by
  have hA : (out.take i ++ xs).length = i + xs.length := by
    simp only [List.length_append, List.length_take]
    omega
  unfold writeAt
  have hW : out.take i ++ xs ++ out.drop (i + xs.length) =
      (out.take i ++ xs) ++ out.drop (i + xs.length) := by simp
  rw [hW]
  rw [List.take_left' hA]
  rw [← List.drop_drop, List.drop_left' hA]
  rw [List.drop_drop]
  simp only [List.length_append, List.append_assoc]
  have h2 : i + xs.length + ys.length = i + (xs.length + ys.length) := by omega
  rw [h2]

theorem takeWhile_take_length (p : Nat → Bool) :
    ∀ (l : List Nat) (k : Nat),
    ((l.take k).takeWhile p).length = min k (l.takeWhile p).length := by
  intro l
  induction l with
  | nil => intro k; simp
  | cons c r ih =>
    intro k
    cases k with
    | zero => simp
    | succ k =>
      rw [List.take_succ_cons]
      by_cases hp : p c
      · rw [List.takeWhile_cons_of_pos hp, List.takeWhile_cons_of_pos hp]
        simp only [List.length_cons, ih k]
        omega
      · rw [List.takeWhile_cons_of_neg hp, List.takeWhile_cons_of_neg hp]
        simp

theorem beVal_eq_zero_iff (l : List Nat) : beVal l = 0 ↔ ∀ b ∈ l, b = 0 := by
  induction l with
  | nil => simp [beVal]
  | cons c r ih =>
    rw [beVal_cons]
    constructor
    · intro h
      have hpow : 0 < 256 ^ r.length := Nat.pos_pow_of_pos _ (by omega)
      have hc : c = 0 := by
        by_contra hc0
        have h1 : 1 ≤ c := by omega
        have : 256 ^ r.length ≤ c * 256 ^ r.length := by
          calc 256 ^ r.length = 1 * 256 ^ r.length := by ring
            _ ≤ c * 256 ^ r.length := Nat.mul_le_mul_right _ h1
        omega
      have hr : beVal r = 0 := by omega
      intro b hb
      rcases List.mem_cons.mp hb with h1 | h1
      · rw [h1]; exact hc
      · exact (ih.mp hr) b h1
    · intro h
      have hc : c = 0 := h c (by simp)
      have hr : beVal r = 0 := ih.mpr (fun b hb => h b (by simp [hb]))
      rw [hc, hr]
      ring

theorem emitFinal_ok (alphabet : List Nat) (base : Nat) (hb : 2 ≤ base) :
    ∀ (fuel v i : Nat) (out : List Nat) (j : Nat) (out2 : List Nat),
    emitFinal alphabet base fuel v i out = (R.ok j, out2) →
    j = i + (digitsOf base v).length ∧
    i + (digitsOf base v).length ≤ out.length ∧
    out2 = writeAt out i ((digitsOf base v).map fun d => alphabet.getD d 0) := by
  intro fuel
  induction fuel with
  | zero =>
    intro v i out j out2 h
    exact absurd h (by simp [emitFinal])
  | succ f ih =>
    intro v i out j out2 h
    rw [emitFinal] at h
    by_cases hlen : i ≥ out.length
    · rw [if_pos hlen] at h
      exact absurd h (by simp)
    · rw [if_neg hlen] at h
      cases hga : alphabet[v % base]? with
      | none => rw [hga] at h; exact absurd h (by simp)
      | some a =>
        rw [hga] at h
        dsimp only at h
        have hga2 : alphabet.getD (v % base) 0 = a := by
          rw [List.getD_eq_getElem?_getD, hga]
          rfl
        cases hwr : wr out i a with
        | none => rw [hwr] at h; exact absurd h (by simp)
        | some o2 =>
          rw [hwr] at h
          dsimp only at h
          obtain ⟨hiw, ho2⟩ := wr_ok out i a o2 hwr
          by_cases hres : v / base = 0
          · rw [if_pos hres] at h
            simp only [Prod.mk.injEq, R.ok.injEq] at h
            obtain ⟨hj, hout⟩ := h
            by_cases hv : v = 0
            · subst hv
              rw [Nat.zero_mod] at hga2
              refine ⟨by rw [← hj]; rfl, by show i + 1 ≤ out.length; omega, ?_⟩
              rw [← hout, ho2]
              show writeAt out i [a] = writeAt out i [alphabet.getD 0 0]
              rw [hga2]
            · have hdig : digitsOf base v = [v % base] := by
                unfold digitsOf
                rw [if_neg hv, leDigits_unfold base v hb (by omega), hres]
                rfl
              refine ⟨?_, ?_, ?_⟩
              · rw [hdig, ← hj]; rfl
              · rw [hdig]; show i + 1 ≤ out.length; omega
              · rw [← hout, ho2, hdig]
                show writeAt out i [a] = writeAt out i [alphabet.getD (v % base) 0]
                rw [hga2]
          · rw [if_neg hres] at h
            obtain ⟨hj, hbound, hout⟩ := ih (v / base) (i + 1) o2 j out2 h
            have hv : v ≠ 0 := by
              intro h0
              rw [h0] at hres
              exact hres (Nat.zero_div base)
            have hdig : digitsOf base v = v % base :: digitsOf base (v / base) := by
              unfold digitsOf
              rw [if_neg hv, if_neg hres, leDigits_unfold base v hb (by omega)]
            have ho2len : o2.length = out.length := by
              rw [ho2, writeAt_length out i [a]
                (by simp only [List.length_cons, List.length_nil]; omega)]
            refine ⟨?_, ?_, ?_⟩
            · rw [hdig, hj]
              simp only [List.length_cons]
              omega
            · rw [hdig]
              simp only [List.length_cons]
              rw [ho2len] at hbound
              omega
            · rw [hout, ho2]
              rw [show i + 1 = i + [a].length from by simp]
              rw [writeAt_compose out i [a] _
                (by simp only [List.length_cons, List.length_nil]; omega)]
              rw [hdig]
              simp only [List.map_cons]
              rw [hga2]
              rfl

theorem emitN_ok (alphabet : List Nat) (base : Nat) :
    ∀ (k v i : Nat) (out : List Nat) (j : Nat) (out2 : List Nat),
    emitN alphabet base k v i out = (R.ok j, out2) →
    j = i + k ∧ (0 < k → i + k ≤ out.length) ∧
    out2 = writeAt out i ((lePad base k v).map fun d => alphabet.getD d 0) := by
  intro k
  induction k with
  | zero =>
    intro v i out j out2 h
    rw [emitN] at h
    simp only [Prod.mk.injEq, R.ok.injEq] at h
    obtain ⟨hj, hout⟩ := h
    refine ⟨by omega, by omega, ?_⟩
    rw [← hout]
    show out = writeAt out i ((lePad base 0 v).map _)
    rw [show lePad base 0 v = [] from rfl]
    rw [List.map_nil, writeAt_nil_xs]
  | succ k ih =>
    intro v i out j out2 h
    rw [emitN] at h
    by_cases hlen : i ≥ out.length
    · rw [if_pos hlen] at h
      exact absurd h (by simp)
    · rw [if_neg hlen] at h
      cases hga : alphabet[v % base]? with
      | none => rw [hga] at h; exact absurd h (by simp)
      | some a =>
        rw [hga] at h
        dsimp only at h
        have hga2 : alphabet.getD (v % base) 0 = a := by
          rw [List.getD_eq_getElem?_getD, hga]
          rfl
        cases hwr : wr out i a with
        | none => rw [hwr] at h; exact absurd h (by simp)
        | some o2 =>
          rw [hwr] at h
          dsimp only at h
          obtain ⟨hiw, ho2⟩ := wr_ok out i a o2 hwr
          obtain ⟨hj, hbound, hout⟩ := ih (v / base) (i + 1) o2 j out2 h
          have ho2len : o2.length = out.length := by
            rw [ho2, writeAt_length out i [a]
              (by simp only [List.length_cons, List.length_nil]; omega)]
          refine ⟨by omega, ?_, ?_⟩
          · intro hk
            rcases Nat.eq_zero_or_pos k with hk0 | hk0
            · omega
            · have := hbound hk0
              rw [ho2len] at this
              omega
          · rw [hout, ho2]
            rw [show i + 1 = i + [a].length from by simp]
            rw [writeAt_compose out i [a] _
              (by simp only [List.length_cons, List.length_nil]; omega)]
            rw [lePad_succ]
            simp only [List.map_cons]
            rw [hga2]
            rfl

theorem emitLeaders_ok (leader : Nat) :
    ∀ (lst : List Nat) (i : Nat) (out : List Nat) (j : Nat) (out2 : List Nat),
    emitLeaders leader lst i out = (R.ok j, out2) →
    j = i + (lst.takeWhile (fun b => b == 0)).length ∧
    (0 < (lst.takeWhile (fun b => b == 0)).length →
      i + (lst.takeWhile (fun b => b == 0)).length ≤ out.length) ∧
    out2 = writeAt out i
      (List.replicate (lst.takeWhile (fun b => b == 0)).length leader) := by
  intro lst
  induction lst with
  | nil =>
    intro i out j out2 h
    rw [emitLeaders] at h
    simp only [Prod.mk.injEq, R.ok.injEq] at h
    obtain ⟨hj, hout⟩ := h
    refine ⟨by simp [← hj], by simp, ?_⟩
    rw [← hout]
    show out = writeAt out i (List.replicate (List.takeWhile _ []).length leader)
    rw [show (List.takeWhile (fun b => b == 0) ([] : List Nat)).length = 0 from rfl]
    rw [show List.replicate 0 leader = [] from rfl, writeAt_nil_xs]
  | cons b rest ih =>
    intro i out j out2 h
    rw [emitLeaders] at h
    by_cases hb0 : b = 0
    · rw [if_pos hb0] at h
      have htw : (b :: rest).takeWhile (fun x => x == 0) =
          b :: rest.takeWhile (fun x => x == 0) :=
        List.takeWhile_cons_of_pos (by simp [hb0])
      by_cases hlen : i ≥ out.length
      · rw [if_pos hlen] at h
        exact absurd h (by simp)
      · rw [if_neg hlen] at h
        cases hwr : wr out i leader with
        | none => rw [hwr] at h; exact absurd h (by simp)
        | some o2 =>
          rw [hwr] at h
          dsimp only at h
          obtain ⟨hiw, ho2⟩ := wr_ok out i leader o2 hwr
          obtain ⟨hj, hbound, hout⟩ := ih (i + 1) o2 j out2 h
          have ho2len : o2.length = out.length := by
            rw [ho2, writeAt_length out i [leader]
              (by simp only [List.length_cons, List.length_nil]; omega)]
          rw [htw]
          simp only [List.length_cons]
          refine ⟨by omega, ?_, ?_⟩
          · intro hpos
            rcases Nat.eq_zero_or_pos (rest.takeWhile (fun x => x == 0)).length
              with hk0 | hk0
            · omega
            · have := hbound hk0
              rw [ho2len] at this
              omega
          · rw [hout, ho2]
            rw [show i + 1 = i + [leader].length from by simp]
            rw [writeAt_compose out i [leader] _
              (by simp only [List.length_cons, List.length_nil]; omega)]
            rw [List.replicate_succ]
            rfl
    · rw [if_neg hb0] at h
      simp only [Prod.mk.injEq, R.ok.injEq] at h
      obtain ⟨hj, hout⟩ := h
      have htw : (b :: rest).takeWhile (fun x => x == 0) = [] :=
        List.takeWhile_cons_of_neg (by simp [hb0])
      rw [htw]
      refine ⟨by simp [← hj], by simp, ?_⟩
      rw [← hout]
      rw [show List.replicate (List.length ([] : List Nat)) leader = [] from rfl,
        writeAt_nil_xs]

theorem encodeLoop_ok (alphabet : List Nat) (base bigPow bigBase : Nat)
    (hb : 2 ≤ base) (hp : 1 ≤ bigPow) (hBB : bigBase = base ^ bigPow) :
    ∀ (fuel : Nat) (big : BV) (i : Nat) (out : List Nat) (j : Nat) (out2 : List Nat),
    BVInv big → limbsBounded big →
    encodeLoop alphabet base bigPow bigBase fuel big i out = (R.ok j, out2) →
    j = i + (digitsOf base (limbsVal big.chunks)).length ∧
    i + (digitsOf base (limbsVal big.chunks)).length ≤ out.length ∧
    out2 = writeAt out i ((digitsOf base (limbsVal big.chunks)).map
      fun d => alphabet.getD d 0) := by
  intro fuel
  induction fuel with
  | zero =>
    intro big i out j out2 hInv hB h
    exact absurd h (by simp [encodeLoop])
  | succ f ih =>
    intro big i out j out2 hInv hB h
    rw [encodeLoop] at h
    have hdpos : 0 < bigBase := by
      rw [hBB]
      exact Nat.pos_pow_of_pos _ (by omega)
    cases hdm : big.div_mod bigBase with
    | none => rw [hdm] at h; exact absurd h (by simp)
    | some pr =>
      obtain ⟨big2, rem⟩ := pr
      rw [hdm] at h
      dsimp only at h
      obtain ⟨hInv2, hmono, hlen2⟩ := bvinv_divmod big bigBase big2 rem hInv hdm
      obtain ⟨hv2, hrem, hB2, hzero⟩ := div_mod_full big bigBase big2 rem hInv hB hdpos hdm
      by_cases hz : big2.is_zero
      · rw [if_pos hz] at h
        have hv0 : limbsVal big.chunks / bigBase = 0 := by
          rw [← hv2]
          exact hzero.mp hz
        have hlt : limbsVal big.chunks < bigBase := by
          rcases Nat.lt_or_ge (limbsVal big.chunks) bigBase with h1 | h1
          · exact h1
          · have h2 : 1 ≤ limbsVal big.chunks / bigBase :=
              (Nat.one_le_div_iff hdpos).mpr h1
            omega
        have hremv : rem = limbsVal big.chunks := by
          rw [hrem, Nat.mod_eq_of_lt hlt]
        rw [hremv] at h
        exact emitFinal_ok alphabet base hb 40 _ i out j out2 h
      · rw [if_neg hz] at h
        cases hEN : emitN alphabet base bigPow rem i out with
        | mk r1 o1 =>
          rw [hEN] at h
          cases r1 with
          | err e => dsimp only at h; exact absurd h (by simp)
          | panic => dsimp only at h; exact absurd h (by simp)
          | hang => dsimp only at h; exact absurd h (by simp)
          | ok i2 =>
            dsimp only at h
            obtain ⟨hi2, hbnd, ho1⟩ := emitN_ok alphabet base bigPow rem i out i2 o1 hEN
            obtain ⟨hj, hbnd2, hout2⟩ := ih big2 i2 o1 j out2 hInv2 hB2 h
            have hVq : 0 < limbsVal big.chunks / bigBase := by
              rcases Nat.eq_zero_or_pos (limbsVal big.chunks / bigBase) with h1 | h1
              · exact absurd (hzero.mpr (by rw [hv2, h1])) hz
              · exact h1
            have hVpos : limbsVal big.chunks ≠ 0 := by
              intro h0
              rw [h0, Nat.zero_div] at hVq
              omega
            have hV2pos : limbsVal big2.chunks ≠ 0 := by
              rw [hv2]
              omega
            have hsplit : digitsOf base (limbsVal big.chunks) =
                lePad base bigPow (limbsVal big.chunks % bigBase) ++
                  leDigits base (limbsVal big.chunks / bigBase) := by
              unfold digitsOf
              rw [if_neg hVpos]
              rw [hBB] at hVq ⊢
              exact digit_split base hb bigPow (limbsVal big.chunks) hVq
            have hd2 : digitsOf base (limbsVal big2.chunks) =
                leDigits base (limbsVal big.chunks / bigBase) := by
              unfold digitsOf
              rw [if_neg hV2pos, hv2]
            have hlenPad :
                ((lePad base bigPow rem).map fun d => alphabet.getD d 0).length
                  = bigPow := by
              rw [List.length_map, lePad_length]
            have ho1len : o1.length = out.length := by
              rw [ho1, writeAt_length out i _ (by rw [hlenPad]; exact hbnd (by omega))]
            rw [hd2] at hj hbnd2 hout2
            rw [hsplit]
            have hlsp : (lePad base bigPow (limbsVal big.chunks % bigBase) ++
                leDigits base (limbsVal big.chunks / bigBase)).length =
                bigPow + (leDigits base (limbsVal big.chunks / bigBase)).length := by
              rw [List.length_append, lePad_length]
            refine ⟨?_, ?_, ?_⟩
            · rw [hlsp]
              omega
            · rw [hlsp]
              rw [ho1len] at hbnd2
              omega
            · rw [hout2, ho1]
              rw [← hrem]
              rw [show i2 = i + ((lePad base bigPow rem).map
                  fun d => alphabet.getD d 0).length from by rw [hlenPad]; omega]
              rw [writeAt_compose out i _ _
                (by rw [hlenPad]; exact hbnd (by omega))]
              rw [List.map_append]

theorem lzCount_lt_of_val_ne (input : List Nat) (hV : beVal input ≠ 0) :
    lzCount input < input.length := by
  rcases Nat.lt_or_ge (lzCount input) input.length with h1 | h1
  · exact h1
  · exfalso
    apply hV
    rw [beVal_eq_zero_iff]
    have hle := (List.takeWhile_prefix (fun b : Nat => b == 0) (l := input)).length_le
    have heq : (input.takeWhile (fun b : Nat => b == 0)).length = input.length := by
      unfold lzCount at h1
      omega
    have hpre := List.takeWhile_prefix (fun b : Nat => b == 0) (l := input)
    have := List.IsPrefix.eq_of_length hpre heq
    intro b hb
    have hmem : b ∈ input.takeWhile (fun b : Nat => b == 0) := by rw [this]; exact hb
    have := List.mem_takeWhile_imp hmem
    simpa using this

theorem encode_to_buffer_ok (alphabet input output : List Nat) (w : Nat)
    (out2 : List Nat) (hb : 2 ≤ alphabet.length) (hbytes : ∀ b ∈ input, b < 256)
    (h : encode_to_buffer alphabet input output = (R.ok w, out2)) :
    w = arithLen alphabet input ∧
    out2 = arithSyms alphabet input ++ output.drop w := by
  by_cases hne : input = []
  · subst hne
    unfold encode_to_buffer at h
    rw [if_pos rfl] at h
    simp only [Prod.mk.injEq, R.ok.injEq] at h
    obtain ⟨hw, hout⟩ := h
    subst hw
    constructor
    · rfl
    · rw [← hout]
      rfl
  · unfold encode_to_buffer at h
    rw [if_neg hne] at h
    dsimp only at h
    have hInv0 : BVInv (BV.new (List.replicate MAX_BIGINT_BUFFER 0)) := by
      constructor
      · show (BV.new _).start ≤ _
        exact le_refl _
      · intro i hi
        show (List.replicate (List.replicate MAX_BIGINT_BUFFER 0).length 0).getD i 0 = 0
        rw [List.getD_eq_getElem?_getD, List.getElem?_replicate]
        split
        · rfl
        · rfl
    cases hld : (BV.new (List.replicate MAX_BIGINT_BUFFER 0)).load_be_bytes input with
    | mk ok1 big =>
      rw [hld] at h
      cases ok1 with
      | false => simp at h
      | true =>
        dsimp only at h
        rw [if_neg (by simp)] at h
        obtain ⟨hVv, hBd, hL, hInvB⟩ :=
          load_be_bytes_full (BV.new (List.replicate MAX_BIGINT_BUFFER 0)) input big
            hInv0 hne hbytes hld
        by_cases hclz : 32 - clz32 alphabet.length = 0
        · rw [if_pos hclz] at h
          simp at h
        · rw [if_neg hclz] at h
          have hp : 1 ≤ 32 / (32 - clz32 alphabet.length) := by
            rw [Nat.one_le_div_iff (by omega)]
            omega
          cases hloop : encodeLoop alphabet alphabet.length
              (32 / (32 - clz32 alphabet.length))
              (alphabet.length ^ (32 / (32 - clz32 alphabet.length)))
              (8 * input.length + 2) big 0 output with
          | mk r1 o1 =>
            rw [hloop] at h
            cases r1 with
            | err e => dsimp only at h; exact absurd h (by simp)
            | panic => dsimp only at h; exact absurd h (by simp)
            | hang => dsimp only at h; exact absurd h (by simp)
            | ok outIdx =>
              dsimp only at h
              obtain ⟨hIdx, hDbound, ho1⟩ := encodeLoop_ok alphabet alphabet.length
                (32 / (32 - clz32 alphabet.length))
                (alphabet.length ^ (32 / (32 - clz32 alphabet.length)))
                hb hp rfl (8 * input.length + 2) big 0 output outIdx o1 hInvB hBd hloop
              rw [hVv] at hIdx hDbound ho1
              cases hga0 : alphabet[0]? with
              | none => rw [hga0] at h; exact absurd h (by simp)
              | some leader =>
                rw [hga0] at h
                dsimp only at h
                have hlead0 : alphabet.getD 0 0 = leader := by
                  rw [List.getD_eq_getElem?_getD, hga0]
                  rfl
                cases hlead : emitLeaders leader (input.take (input.length - 1))
                    outIdx o1 with
                | mk r2 o3 =>
                  rw [hlead] at h
                  cases r2 with
                  | err e => dsimp only at h; exact absurd h (by simp)
                  | panic => dsimp only at h; exact absurd h (by simp)
                  | hang => dsimp only at h; exact absurd h (by simp)
                  | ok j2 =>
                    dsimp only at h
                    simp only [Prod.mk.injEq, R.ok.injEq] at h
                    obtain ⟨hw, hout⟩ := h
                    obtain ⟨hj2, htbound, ho3⟩ :=
                      emitLeaders_ok leader (input.take (input.length - 1))
                        outIdx o1 j2 o3 hlead
                    set V := beVal input with hVdef
                    set D := (digitsOf alphabet.length V).length with hDdef
                    set t := ((input.take (input.length - 1)).takeWhile
                      (fun b => b == 0)).length with htdef
                    set mapDigs := (digitsOf alphabet.length V).map
                      (fun d => alphabet.getD d 0) with hmdef
                    have hmlen : mapDigs.length = D := by
                      rw [hmdef, List.length_map]
                    have hDb : D ≤ output.length := by omega
                    have ho3v : o3 = writeAt output 0 (mapDigs ++ List.replicate t leader) := by
                      rw [ho3, ho1]
                      rw [show outIdx = 0 + mapDigs.length from by omega]
                      rw [writeAt_compose output 0 mapDigs (List.replicate t leader)
                        (by omega)]
                    have hPlen : (mapDigs ++ List.replicate t leader).length = D + t := by
                      rw [List.length_append, List.length_replicate, hmlen]
                    have ho3v2 : o3 = (mapDigs ++ List.replicate t leader) ++
                        output.drop (D + t) := by
                      rw [ho3v, writeAt_zero, hPlen]
                    have hwDt : w = D + t := by omega
                    have htake : o3.take j2 = mapDigs ++ List.replicate t leader := by
                      rw [ho3v2, show j2 = D + t from by omega, ← hPlen]
                      exact List.take_left' rfl
                    have hdrop : o3.drop j2 = output.drop (D + t) := by
                      rw [ho3v2, show j2 = D + t from by omega, ← hPlen]
                      exact List.drop_left' rfl
                    have hout2 : out2 = List.replicate t leader ++ mapDigs.reverse ++
                        output.drop (D + t) := by
                      rw [← hout, htake, hdrop, List.reverse_append,
                        List.reverse_replicate]
                      try simp [List.append_assoc]
                    by_cases hV0 : V = 0
                    · have hall : ∀ b ∈ input, b = 0 := (beVal_eq_zero_iff input).mp hV0
                      have hlzfull : lzCount input = input.length := by
                        unfold lzCount
                        rw [List.takeWhile_eq_self_iff.mpr (by
                          intro x hx
                          simp [hall x hx])]
                      have hlen1 : 1 ≤ input.length := by
                        rcases input with _ | ⟨c, r⟩
                        · exact absurd rfl hne
                        · simp
                      have htval : t = input.length - 1 := by
                        rw [htdef, takeWhile_take_length]
                        unfold lzCount at hlzfull
                        omega
                      have hD1 : D = 1 := by
                        rw [hDdef, hV0]
                        rfl
                      have hdig0 : digitsOf alphabet.length V = [0] := by
                        rw [hV0]
                        rfl
                      have harl : arithLen alphabet input = input.length := by
                        unfold arithLen
                        rw [hlzfull, ← hVdef, hV0]
                        rfl
                      constructor
                      · omega
                      · rw [hout2]
                        unfold arithSyms
                        rw [hlzfull, ← hVdef, hV0]
                        rw [show leDigits alphabet.length 0 = [] from rfl]
                        rw [hmdef, hdig0]
                        show List.replicate t leader ++ [alphabet.getD 0 0].reverse ++
                            output.drop (D + t) =
                          (List.replicate input.length (alphabet.getD 0 0) ++ []) ++
                            output.drop w
                        rw [hlead0]
                        rw [show [leader].reverse = [leader] from rfl, List.append_nil]
                        rw [show w = D + t from hwDt]
                        rw [show List.replicate t leader ++ [leader] =
                            List.replicate (t + 1) leader from
                          (List.replicate_succ' t leader).symm]
                        rw [show t + 1 = input.length from by omega]
                        try rw [show D + t = input.length from by omega]
                    · have hlz_lt : lzCount input < input.length :=
                        lzCount_lt_of_val_ne input hV0
                      have htval : t = lzCount input := by
                        rw [htdef, takeWhile_take_length]
                        unfold lzCount
                        unfold lzCount at hlz_lt
                        omega
                      have hdig : digitsOf alphabet.length V =
                          leDigits alphabet.length V := by
                        unfold digitsOf
                        rw [if_neg hV0]
                      have harl : arithLen alphabet input =
                          lzCount input + (leDigits alphabet.length V).length := by
                        unfold arithLen
                        rw [← hVdef]
                      constructor
                      · rw [harl, hwDt, hDdef, hdig, htval]
                        omega
                      · rw [hout2]
                        unfold arithSyms
                        rw [← hVdef]
                        rw [hmdef, hdig, ← hlead0, htval]
                        rw [← List.map_reverse]
                        try rw [show w = D + t from hwDt, hDdef, hdig, htval]
                        try simp [List.append_assoc]

theorem foldl_set_mem (P : Nat → Prop) :
    ∀ (l : List (Nat × Nat)) (t : List Nat),
    (∀ x ∈ t, P x) → (∀ p ∈ l, P p.1) →
    ∀ x ∈ l.foldl (fun t p => t.set p.2 p.1) t, P x := by
  intro l
  induction l with
  | nil => intro t ht hl x hx; exact ht x hx
  | cons p rest ih =>
    intro t ht hl x hx
    refine ih (t.set p.2 p.1) ?_ (fun q hq => hl q (by simp [hq])) x hx
    intro y hy
    rcases List.mem_or_eq_of_mem_set hy with h1 | h1
    · exact ht y h1
    · rw [h1]; exact hl p (by simp)

theorem buildLookup_mem (alphabet : List Nat) :
    ∀ x ∈ buildLookup alphabet, x = 255 ∨ x < alphabet.length := by
  unfold buildLookup
  apply foldl_set_mem
  · intro x hx
    left
    exact List.eq_of_mem_replicate hx
  · intro p hp
    right
    obtain ⟨i, x⟩ := p
    have h1 := List.mk_mem_enum_iff_getElem?.mp hp
    exact (List.getElem?_eq_some.mp h1).1

theorem decodeFold_ok_inv (fullInput lookup : List Nat) (base : Nat)
    (hb1 : 1 ≤ base) (hb32 : base < 2 ^ 32)
    (hlk : ∀ x ∈ lookup, x = 255 ∨ x < base) :
    ∀ (l : List Nat) (big big2 : BV),
    BVInv big → limbsBounded big → topNZ big →
    decodeFold fullInput lookup base l big = R.ok big2 →
    BVInv big2 ∧ limbsBounded big2 ∧ topNZ big2 ∧
      big2.chunks.length = big.chunks.length := by
  intro l
  induction l with
  | nil =>
    intro big big2 hInv hB hT h
    rw [decodeFold] at h
    injection h with h2
    subst h2
    exact ⟨hInv, hB, hT, rfl⟩
  | cons b rest ih =>
    intro big big2 hInv hB hT h
    rw [decodeFold] at h
    cases hlu : lookup[b]? with
    | none => rw [hlu] at h; exact absurd h (by simp)
    | some idx =>
      rw [hlu] at h
      dsimp only at h
      by_cases hinv : idx = INVALID_INDEX
      · rw [if_pos hinv] at h
        exact absurd h (by simp)
      · rw [if_neg hinv] at h
        have hidxb : idx < base := by
          rcases hlk idx (List.getElem?_mem hlu) with h1 | h1
          · exact absurd (by rw [h1]; rfl) hinv
          · exact h1
        cases hma : big.mul_add base idx with
        | error e => rw [hma] at h; exact absurd h (by simp)
        | ok big1 =>
          rw [hma] at h
          obtain ⟨hv1, hB1, hT1⟩ :=
            mul_add_ok_val big base idx big1 hInv hB hb32 (by omega) hma
          obtain ⟨hInv1, hlen1, -⟩ := bvinv_muladd_ok big base idx big1 hInv hma
          obtain ⟨i2, b2, t2, l2⟩ := ih big1 big2 hInv1 hB1 (hT1 hb1 hT) h
          exact ⟨i2, b2, t2, by rw [l2, hlen1]⟩

theorem bitLenGo_zero : ∀ f, bitLenGo f 0 = 0 := by
  intro f
  cases f with
  | zero => rfl
  | succ f => rfl

theorem bitLenGo_le : ∀ f x, bitLenGo f x ≤ f := by
  intro f
  induction f with
  | zero => intro x; exact le_refl 0
  | succ f ih =>
    intro x
    rw [bitLenGo]
    split
    · omega
    · have := ih (x / 2)
      omega

theorem bitLenGo_spec : ∀ f x, x < 2 ^ f →
    x < 2 ^ bitLenGo f x ∧ (0 < x → 2 ^ bitLenGo f x ≤ 2 * x) := by
  intro f
  induction f with
  | zero =>
    intro x hx
    have h0 : x = 0 := by
      have : (2 : Nat) ^ 0 = 1 := by norm_num
      omega
    subst h0
    exact ⟨by norm_num, by omega⟩
  | succ f ih =>
    intro x hx
    by_cases h0 : x = 0
    · subst h0
      rw [bitLenGo_zero]
      exact ⟨by norm_num, by omega⟩
    · rw [bitLenGo, if_neg h0]
      have hx2 : x / 2 < 2 ^ f := by
        have h2 : (2 : Nat) ^ (f + 1) = 2 ^ f * 2 := pow_succ 2 f
        omega
      obtain ⟨hu, hl⟩ := ih (x / 2) hx2
      constructor
      · have h2 : (2 : Nat) ^ (bitLenGo f (x / 2) + 1) = 2 ^ bitLenGo f (x / 2) * 2 :=
          pow_succ 2 _
        omega
      · intro hxpos
        by_cases hq : x / 2 = 0
        · rw [hq, bitLenGo_zero]
          have : (2 : Nat) ^ (0 + 1) = 2 := by norm_num
          omega
        · have hl2 := hl (by omega)
          have h2 : (2 : Nat) ^ (bitLenGo f (x / 2) + 1) = 2 ^ bitLenGo f (x / 2) * 2 :=
            pow_succ 2 _
          omega

theorem chunkBE_first_ne (first : Nat) (h0 : 0 < first) (h32 : first < 2 ^ 32) :
    clz32 first / 8 ≤ 3 ∧
    ((chunkBEBytes first).drop (clz32 first / 8)).getD 0 0 ≠ 0 := by
  obtain ⟨hup, hlow⟩ := bitLenGo_spec 32 first h32
  have hlow2 := hlow h0
  set bl := bitLenGo 32 first with hbl
  have hbl1 : 1 ≤ bl := by
    by_contra hb0
    have hz : bl = 0 := by omega
    rw [hz] at hup
    norm_num at hup
    omega
  have hbl32 : bl ≤ 32 := bitLenGo_le 32 first
  have hpow2 : 2 ^ bl = 2 * 2 ^ (bl - 1) := by
    rw [← pow_succ']
    congr 1
    omega
  have hfirst_lb : 2 ^ (bl - 1) ≤ first := by omega
  have main : ∀ k : Nat, k ≤ bl - 1 → bl ≤ k + 8 →
      1 ≤ first / 2 ^ k ∧ first / 2 ^ k < 256 := by
    intro k hk1 hk2
    constructor
    · rw [Nat.one_le_div_iff (Nat.pos_pow_of_pos _ (by omega))]
      calc 2 ^ k ≤ 2 ^ (bl - 1) := Nat.pow_le_pow_right (by omega) hk1
        _ ≤ first := hfirst_lb
    · rw [Nat.div_lt_iff_lt_mul (Nat.pos_pow_of_pos _ (by omega))]
      calc first < 2 ^ bl := hup
        _ ≤ 2 ^ (k + 8) := Nat.pow_le_pow_right (by omega) hk2
        _ = 256 * 2 ^ k := by
            rw [pow_add, show (2 : Nat) ^ 8 = 256 from by norm_num]
            ring
  have hclz : clz32 first = 32 - bl := by
    unfold clz32
    rw [← hbl]
  rw [hclz]
  have hskip3 : (32 - bl) / 8 ≤ 3 := by omega
  refine ⟨hskip3, ?_⟩
  have hk1 : 8 * (3 - (32 - bl) / 8) ≤ bl - 1 := by omega
  have hk2 : bl ≤ 8 * (3 - (32 - bl) / 8) + 8 := by omega
  set skip := (32 - bl) / 8 with hskipdef
  interval_cases skip
  · obtain ⟨hge, hlt⟩ := main 24 (by omega) (by omega)
    show first >>> 24 % 256 ≠ 0
    rw [Nat.shiftRight_eq_div_pow, Nat.mod_eq_of_lt hlt]
    omega
  · obtain ⟨hge, hlt⟩ := main 16 (by omega) (by omega)
    show first >>> 16 % 256 ≠ 0
    rw [Nat.shiftRight_eq_div_pow, Nat.mod_eq_of_lt hlt]
    omega
  · obtain ⟨hge, hlt⟩ := main 8 (by omega) (by omega)
    show first >>> 8 % 256 ≠ 0
    rw [Nat.shiftRight_eq_div_pow, Nat.mod_eq_of_lt hlt]
    omega
  · obtain ⟨hge, hlt⟩ := main 0 (by omega) (by omega)
    rw [pow_zero, Nat.div_one] at hge hlt
    show first % 256 ≠ 0
    rw [Nat.mod_eq_of_lt hlt]
    omega

theorem copy_into_ok (s : BV) (out : List Nat) (written : Nat) (out1 : List Nat)
    (hInv : BVInv s) (hB : limbsBounded s) (hT : topNZ s)
    (h : s.copy_into_bytes_be out = R.ok (written, out1)) :
    (s.is_zero = true → written = 0 ∧ out1 = out) ∧
    (s.is_zero = false → 0 < written ∧ out1.getD 0 0 ≠ 0) := by
  unfold BV.copy_into_bytes_be at h
  by_cases hz : s.is_zero
  · rw [if_pos hz] at h
    simp only [Prod.mk.injEq, R.ok.injEq] at h
    exact ⟨fun _ => ⟨h.1.symm, h.2.symm⟩, fun hf => by rw [hz] at hf; exact absurd hf (by simp)⟩
  · rw [if_neg hz] at h
    have hzf : s.is_zero = false := by
      cases hzz : s.is_zero
      · rfl
      · exact absurd hzz hz
    have hstart_lt : s.start < s.chunks.length := by
      unfold BV.is_zero at hzf
      rw [decide_eq_false_iff_not] at hzf
      omega
    cases hge : s.chunks[s.start]? with
    | none => rw [hge] at h; exact absurd h (by simp)
    | some first =>
      rw [hge] at h
      dsimp only at h
      have hfirst : first = s.chunks.getD s.start 0 := by
        rw [List.getD_eq_getElem?_getD, hge]
        rfl
      have hf0 : 0 < first := by
        rcases hT with h1 | h1
        · omega
        · rw [hfirst]
          omega
      have hf32 : first < 2 ^ 32 := by
        apply hB
        exact List.getElem?_mem hge
      obtain ⟨hsk3, hsknz⟩ := chunkBE_first_ne first hf0 hf32
      split at h
      · exact absurd h (by simp)
      · split at h
        · exact absurd h (by simp)
        · simp only [Prod.mk.injEq, R.ok.injEq] at h
          obtain ⟨hw, hout⟩ := h
          refine ⟨fun hf => absurd hf (by rw [hzf]; simp), fun _ => ?_⟩
          have hdlen : ((chunkBEBytes first).drop (clz32 first / 8)).length = 4 - clz32 first / 8 := by
            rw [List.length_drop]
            rfl
          have hdne : ((chunkBEBytes first).drop (clz32 first / 8)) ≠ [] := by
            intro he
            rw [he] at hdlen
            simp at hdlen
            omega
          constructor
          · rw [← hw]
            rw [List.length_append, hdlen]
            omega
          · rw [← hout]
            rw [List.getD_eq_getElem?_getD]
            rw [List.getElem?_append_left (by
              rw [List.length_append, hdlen]
              have : 0 < 4 - clz32 first / 8 := by omega
              omega)]
            rw [List.getElem?_append_left (by rw [hdlen]; omega)]
            rw [← List.getD_eq_getElem?_getD]
            exact hsknz

theorem decode_to_buffer_leaders (alphabet input output : List Nat) (w : Nat)
    (out2 : List Nat) (hb1 : 1 ≤ alphabet.length) (hb32 : alphabet.length < 2 ^ 32)
    (h : decode_to_buffer alphabet input output = (R.ok w, out2)) :
    (input.takeWhile (fun b => b == alphabet.getD 0 0)).length ≤ w ∧
    out2.take (input.takeWhile (fun b => b == alphabet.getD 0 0)).length =
      List.replicate (input.takeWhile (fun b => b == alphabet.getD 0 0)).length 0 ∧
    ((input.takeWhile (fun b => b == alphabet.getD 0 0)).length < w →
      out2.getD (input.takeWhile (fun b => b == alphabet.getD 0 0)).length 0 ≠ 0) := by
  by_cases hne : input = []
  · subst hne
    unfold decode_to_buffer at h
    rw [if_pos rfl] at h
    simp only [Prod.mk.injEq, R.ok.injEq] at h
    obtain ⟨hw, hout⟩ := h
    refine ⟨by simp [← hw], by simp [← hout], by omega⟩
  · unfold decode_to_buffer at h
    rw [if_neg hne] at h
    dsimp only at h
    have hInv0 : BVInv (BV.new (List.replicate MAX_BIGINT_BUFFER 0)) := by
      constructor
      · exact le_refl _
      · intro i hi
        show (List.replicate (List.replicate MAX_BIGINT_BUFFER 0).length 0).getD i 0 = 0
        rw [List.getD_eq_getElem?_getD, List.getElem?_replicate]
        split
        · rfl
        · rfl
    have hB0 : limbsBounded (BV.new (List.replicate MAX_BIGINT_BUFFER 0)) := by
      intro c hc
      show c < 2 ^ 32
      have := List.eq_of_mem_replicate hc
      omega
    have hT0 : topNZ (BV.new (List.replicate MAX_BIGINT_BUFFER 0)) :=
      Or.inl (le_refl _)
    cases hdf : decodeFold input (buildLookup alphabet) alphabet.length input
        (BV.new (List.replicate MAX_BIGINT_BUFFER 0)) with
    | err e => rw [hdf] at h; exact absurd h (by simp)
    | panic => rw [hdf] at h; exact absurd h (by simp)
    | hang => rw [hdf] at h; exact absurd h (by simp)
    | ok big =>
      rw [hdf] at h
      dsimp only at h
      obtain ⟨hInvB, hBB, hTB, hLB⟩ := decodeFold_ok_inv input (buildLookup alphabet)
        alphabet.length hb1 hb32 (buildLookup_mem alphabet) input
        (BV.new (List.replicate MAX_BIGINT_BUFFER 0)) big hInv0 hB0 hT0 hdf
      cases hcp : big.copy_into_bytes_be output with
      | err e => rw [hcp] at h; exact absurd h (by simp)
      | panic => rw [hcp] at h; exact absurd h (by simp)
      | hang => rw [hcp] at h; exact absurd h (by simp)
      | ok pr =>
        obtain ⟨written, out1⟩ := pr
        rw [hcp] at h
        dsimp only at h
        obtain ⟨hzero, hnonzero⟩ := copy_into_ok big output written out1 hInvB hBB hTB hcp
        cases hga0 : alphabet[0]? with
        | none => rw [hga0] at h; exact absurd h (by simp)
        | some leader =>
          rw [hga0] at h
          dsimp only at h
          have hlead0 : alphabet.getD 0 0 = leader := by
            rw [List.getD_eq_getElem?_getD, hga0]
            rfl
          rw [hlead0]
          set k := (input.takeWhile (fun b => b == leader)).length with hkdef
          by_cases hkpos : k > 0
          · rw [if_pos hkpos] at h
            by_cases hcap : out1.length < written + k
            · rw [if_pos hcap] at h
              exact absurd h (by simp)
            · rw [if_neg hcap] at h
              simp only [Prod.mk.injEq, R.ok.injEq] at h
              obtain ⟨hw, hout⟩ := h
              have hrep : (List.replicate k (0 : Nat)).length = k :=
                List.length_replicate k 0
              refine ⟨by omega, ?_, ?_⟩
              · rw [← hout]
                rw [show List.replicate k (0 : Nat) ++ out1.take written ++
                    out1.drop (written + k) = List.replicate k (0 : Nat) ++
                    (out1.take written ++ out1.drop (written + k)) from by simp]
                rw [List.take_left' hrep]
              · intro hkw
                have hwr_pos : 0 < written := by omega
                have hzf : big.is_zero = false := by
                  cases hz : big.is_zero
                  · rfl
                  · obtain ⟨hw0, -⟩ := hzero hz
                    omega
                obtain ⟨-, hne0⟩ := hnonzero hzf
                rw [← hout]
                rw [List.getD_eq_getElem?_getD]
                rw [show List.replicate k (0 : Nat) ++ out1.take written ++
                    out1.drop (written + k) = List.replicate k (0 : Nat) ++
                    (out1.take written ++ out1.drop (written + k)) from by simp]
                rw [List.getElem?_append_right (by rw [hrep])]
                rw [hrep, Nat.sub_self]
                rw [List.getElem?_append_left (by
                  rw [List.length_take]
                  omega)]
                rw [List.getElem?_take_of_lt hwr_pos]
                rw [← List.getD_eq_getElem?_getD]
                exact hne0
          · rw [if_neg hkpos] at h
            simp only [Prod.mk.injEq, R.ok.injEq] at h
            obtain ⟨hw, hout⟩ := h
            have hk0 : k = 0 := by omega
            rw [hk0]
            refine ⟨by omega, by simp, ?_⟩
            intro hkw
            have hwr_pos : 0 < w := hkw
            have hzf : big.is_zero = false := by
              cases hz : big.is_zero
              · rfl
              · obtain ⟨hw0, -⟩ := hzero hz
                omega
            obtain ⟨-, hne0⟩ := hnonzero hzf
            rw [← hout]
            exact hne0

theorem takeWhile_append_all (p : Nat → Bool) :
    ∀ (l1 l2 : List Nat), (∀ x ∈ l1, p x = true) →
    (l1 ++ l2).takeWhile p = l1 ++ l2.takeWhile p := by
  intro l1
  induction l1 with
  | nil => intro l2 h; simp
  | cons c r ih =>
    intro l2 h
    rw [List.cons_append, List.takeWhile_cons_of_pos (h c (by simp)), ih l2
      (fun x hx => h x (by simp [hx]))]
    rfl

theorem arithSyms_length (alphabet input : List Nat) :
    (arithSyms alphabet input).length = arithLen alphabet input := by
  unfold arithSyms arithLen
  rw [List.length_append, List.length_replicate, List.length_map,
    List.length_reverse]

theorem leadCount_arithSyms (alphabet input : List Nat)
    (hb : 2 ≤ alphabet.length) (hnd : alphabet.Nodup) :
    leadCount (alphabet.getD 0 0) (arithSyms alphabet input) = lzCount input := by
  unfold leadCount arithSyms
  rw [takeWhile_append_all _ _ _ (by
    intro x hx
    rw [List.eq_of_mem_replicate hx]
    simp)]
  rw [List.length_append, List.length_replicate]
  by_cases hV : beVal input = 0
  · rw [hV]
    rw [show leDigits alphabet.length 0 = [] from rfl]
    rfl
  · obtain ⟨ds, d, hds, hd0, hdb⟩ :=
      leDigits_msd_ne_zero alphabet.length hb (beVal input) (by omega)
    rw [hds, List.reverse_append]
    rw [show ([d] : List Nat).reverse = [d] from rfl]
    rw [show ([d] : List Nat) ++ ds.reverse = d :: ds.reverse from rfl]
    rw [List.map_cons]
    rw [List.takeWhile_cons_of_neg (by
      simp only [beq_eq_false_iff_ne, ne_eq, beq_iff_eq]
      intro heq
      have hd_idx : alphabet.getD d 0 = alphabet[d] :=
        List.getD_eq_getElem alphabet 0 (by omega)
      have h0_idx : alphabet.getD 0 0 = alphabet[0] :=
        List.getD_eq_getElem alphabet 0 (by omega)
      rw [hd_idx, h0_idx] at heq
      have := hnd.getElem_inj_iff.mp heq
      exact hd0 this)]
    rfl

/-- C4: in arithmetic mode, the encoded output of a successful
`encode_to_buffer` carries exactly one leading `alphabet[0]` symbol per
leading zero input byte (`leadCount` of the written prefix equals `lzCount`
of the input); and a successful arithmetic `decode_to_buffer` turns each
leading `alphabet[0]` input symbol into exactly one leading zero output
byte: the written count covers the leader count, the leader-prefix of the
output is zero bytes, and the first byte after it (when any) is nonzero. -/
theorem c4_leading_zero_preservation :
    (∀ (alphabet input output : List Nat) (w : Nat) (out2 : List Nat),
      2 ≤ alphabet.length → alphabet.Nodup → (∀ b ∈ input, b < 256) →
      encode_to_buffer alphabet input output = (R.ok w, out2) →
      leadCount (alphabet.getD 0 0) (out2.take w) = lzCount input) ∧
    (∀ (alphabet input output : List Nat) (w : Nat) (out2 : List Nat),
      1 ≤ alphabet.length → alphabet.length < 2 ^ 32 →
      decode_to_buffer alphabet input output = (R.ok w, out2) →
      leadCount (alphabet.getD 0 0) input ≤ w ∧
      out2.take (leadCount (alphabet.getD 0 0) input) =
        List.replicate (leadCount (alphabet.getD 0 0) input) 0 ∧
      (leadCount (alphabet.getD 0 0) input < w →
        out2.getD (leadCount (alphabet.getD 0 0) input) 0 ≠ 0)) := by
  constructor
  · intro alphabet input output w out2 hb hnd hbytes h
    obtain ⟨hw, hout⟩ := encode_to_buffer_ok alphabet input output w out2 hb hbytes h
    have hlen : (arithSyms alphabet input).length = w := by
      rw [arithSyms_length, hw]
    rw [hout, ← hlen, List.take_left' rfl]
    exact leadCount_arithSyms alphabet input hb hnd
  · intro alphabet input output w out2 hb1 hb32 h
    have := decode_to_buffer_leaders alphabet input output w out2 hb1 hb32 h
    unfold leadCount
    exact this

/-- Witness for C4: Base58 encode of `[0, 0, 7]` yields two leading `1`
symbols then `8`; Base58 decode of `"113"` yields two leading zero bytes
then the nonzero byte 2. -/
theorem c4_leading_zero_preservation_witness :
    leadCount (base58Symbols.getD 0 0) (([49, 49, 56, 0, 0] : List Nat).take 3) =
      lzCount [0, 0, 7] ∧
    (leadCount (base58Symbols.getD 0 0) [49, 49, 51] ≤ 3 ∧
      ([0, 0, 2] : List Nat).take (leadCount (base58Symbols.getD 0 0) [49, 49, 51]) =
        List.replicate (leadCount (base58Symbols.getD 0 0) [49, 49, 51]) 0 ∧
      (leadCount (base58Symbols.getD 0 0) [49, 49, 51] < 3 →
        ([0, 0, 2] : List Nat).getD
          (leadCount (base58Symbols.getD 0 0) [49, 49, 51]) 0 ≠ 0)) :=
  ⟨c4_leading_zero_preservation.1 base58Symbols [0, 0, 7] (List.replicate 5 0) 3
      [49, 49, 56, 0, 0] (by decide) (by decide) (by decide) (by rfl),
    c4_leading_zero_preservation.2 base58Symbols [49, 49, 51] (List.replicate 3 0) 3
      [0, 0, 2] (by decide) (by decide) (by rfl)⟩

theorem encodeBlocksGo_ok (bit : Nat) (msb : Bool) (sym : List Nat)
    (hdec : 0 < DECb bit) :
    ∀ (fuel : Nat) (input output : List Nat) (written w : Nat) (orest : List Nat),
    DECb bit ∣ input.length →
    encodeBlocksGo bit msb sym fuel input output written = some (w, orest) →
    w = written + input.length / DECb bit * ENCb bit := by
  intro fuel
  induction fuel with
  | zero =>
    intro input output written w orest hdvd h
    exact absurd h (by simp [encodeBlocksGo])
  | succ f ih =>
    intro input output written w orest hdvd h
    rw [encodeBlocksGo] at h
    rw [if_neg (by omega)] at h
    by_cases hge : DECb bit ≤ input.length
    · rw [if_pos hge] at h
      cases hsl : sliceL output 0 (ENCb bit) with
      | none => rw [hsl] at h; exact absurd h (by simp)
      | some oslice =>
        rw [hsl] at h
        dsimp only at h
        cases heb : encode_block bit msb sym (input.take (DECb bit)) oslice with
        | none => rw [heb] at h; exact absurd h (by simp)
        | some ob =>
          rw [heb] at h
          dsimp only at h
          cases hrec : encodeBlocksGo bit msb sym f (input.drop (DECb bit))
              (output.drop (ENCb bit)) (written + ENCb bit) with
          | none => rw [hrec] at h; exact absurd h (by simp)
          | some pr =>
            obtain ⟨w2, orest2⟩ := pr
            rw [hrec] at h
            dsimp only at h
            simp only [Option.some.injEq, Prod.mk.injEq] at h
            obtain ⟨hw, -⟩ := h
            obtain ⟨q, hlen⟩ := hdvd
            have hq1 : 1 ≤ q := by
              by_contra hq0
              have : q = 0 := by omega
              rw [this, Nat.mul_zero] at hlen
              omega
            have hdvd2 : DECb bit ∣ (input.drop (DECb bit)).length := by
              rw [List.length_drop, hlen]
              exact ⟨q - 1, by cases q with
                | zero => omega
                | succ q2 =>
                  simp only [Nat.add_sub_cancel, Nat.mul_succ]⟩
            have hrecw := ih (input.drop (DECb bit)) (output.drop (ENCb bit))
              (written + ENCb bit) w2 orest2 hdvd2 hrec
            rw [List.length_drop, hlen] at hrecw
            have hsub : DECb bit * q - DECb bit = DECb bit * (q - 1) := by
              cases q with
              | zero => omega
              | succ q2 =>
                simp only [Nat.add_sub_cancel, Nat.mul_succ]
            rw [hsub, Nat.mul_div_cancel_left _ (by omega)] at hrecw
            rw [hlen, Nat.mul_div_cancel_left _ (by omega)]
            have hqe : (q - 1) * ENCb bit + ENCb bit = q * ENCb bit := by
              cases q with
              | zero => omega
              | succ q2 =>
                simp only [Nat.add_sub_cancel, Nat.succ_mul]
            omega
    · rw [if_neg hge] at h
      have hlen0 : input.length = 0 :=
        Nat.eq_zero_of_dvd_of_lt hdvd (by omega)
      have hinp : input = [] := List.length_eq_zero.mp hlen0
      rw [if_neg (by rw [hinp]; simp)] at h
      simp only [Option.some.injEq, Prod.mk.injEq] at h
      rw [hlen0, Nat.zero_div, Nat.zero_mul]
      omega

theorem encode_mut_free_noskip_eq (bit : Nat) (msb : Bool)
    (sym input output : List Nat)
    (hns1 : bit = 6 ∧ msb = true → input.length < 12)
    (hns2 : bit = 4 ∧ msb = true → input.length < 16) :
    encode_mut_free bit msb sym input output =
      encodeBlocksLoop bit msb sym input output 0 := by
  unfold encode_mut_free
  by_cases h6 : bit = 6 ∧ msb = true
  · rw [if_pos h6]
    have hlt := hns1 h6
    have hfl : floor input.length 12 = 0 := by
      unfold floor
      rw [Nat.mod_eq_of_lt hlt]
      omega
    rw [hfl]
    norm_num
    cases hl : encodeBlocksLoop bit msb sym input output 0 with
    | none => rfl
    | some pr =>
      obtain ⟨w2, o2⟩ := pr
      rfl
  · rw [if_neg h6]
    by_cases h4 : bit = 4 ∧ msb = true
    · rw [if_pos h4]
      have hlt := hns2 h4
      have hfl : floor input.length 16 = 0 := by
        unfold floor
        rw [Nat.mod_eq_of_lt hlt]
        omega
      rw [hfl]
      norm_num
      cases hl : encodeBlocksLoop bit msb sym input output 0 with
      | none => rfl
      | some pr =>
        obtain ⟨w2, o2⟩ := pr
        rfl
    · rw [if_neg h4]

theorem encode_pad_ok_exact (bit : Nat) (msb : Bool) (pm : PaddingMode)
    (sym : List Nat) (pad : Option Nat) (input output : List Nat)
    (w : Nat) (out2 : List Nat)
    (hbi : 1 ≤ bit ∧ bit < 7)
    (hns1 : bit = 6 ∧ msb = true → input.length < 12)
    (hns2 : bit = 4 ∧ msb = true → input.length < 16)
    (h : encode_pad bit msb pm sym pad input output = some (w, out2)) :
    encode_pad_len bit pm input.length = some w := by
  have hdec : 0 < DECb bit := by
    obtain ⟨h1, h2⟩ := hbi
    interval_cases bit <;> decide
  have hbd : ENCb bit * bit = 8 * DECb bit := by
    obtain ⟨h1, h2⟩ := hbi
    interval_cases bit <;> decide
  unfold encode_pad at h
  cases hpl : encode_pad_len bit pm input.length with
  | none => rw [hpl] at h; exact absurd h (by simp)
  | some olen =>
    rw [hpl] at h
    dsimp only at h
    rw [if_neg (by omega)] at h
    cases hsl : sliceL output 0 (input.length / DECb bit * ENCb bit) with
    | none => rw [hsl] at h; exact absurd h (by simp)
    | some oslice =>
      rw [hsl] at h
      dsimp only at h
      cases hfree : encode_mut_free bit msb sym
          (input.take (input.length / DECb bit * DECb bit)) oslice with
      | none => rw [hfree] at h; exact absurd h (by simp)
      | some pr1 =>
        obtain ⟨w1, oslice2⟩ := pr1
        rw [hfree] at h
        dsimp only at h
        by_cases hrem : input.drop (input.length / DECb bit * DECb bit) ≠ []
        · rw [if_pos hrem] at h
          cases hsb : sliceL (List.replicate 32 0) 0 (ENCb bit) with
          | none => rw [hsb] at h; exact absurd h (by simp)
          | some bslice =>
            rw [hsb] at h
            dsimp only at h
            cases heb : encode_block bit msb sym
                (input.drop (input.length / DECb bit * DECb bit)) bslice with
            | none => rw [heb] at h; exact absurd h (by simp)
            | some bfull =>
              rw [heb] at h
              dsimp only at h
              cases hs2 : sliceL (bfull ++ (List.replicate 32 0).drop (ENCb bit)) 0
                  (olen - w1) with
              | none => rw [hs2] at h; exact absurd h (by simp)
              | some src =>
                rw [hs2] at h
                dsimp only at h
                cases hcf : copyFromSlice (oslice2 ++
                    output.drop (input.length / DECb bit * ENCb bit)) w1 olen src with
                | none => rw [hcf] at h; exact absurd h (by simp)
                | some output2 =>
                  rw [hcf] at h
                  dsimp only at h
                  have hw1le : w1 ≤ olen := by
                    unfold copyFromSlice at hcf
                    split at hcf
                    · rename_i hcond
                      exact hcond.1
                    · exact absurd hcf (by simp)
                  have hwv : w = w1 + (olen - w1) := by
                    cases hpd : pad with
                    | none =>
                      rw [hpd] at h
                      simp only [Option.some.injEq, Prod.mk.injEq] at h
                      omega
                    | some p =>
                      rw [hpd] at h
                      cases hdc : div_ceil (input.length * 8) bit with
                      | none => rw [hdc] at h; exact absurd h (by simp)
                      | some dataLen =>
                        rw [hdc] at h
                        dsimp only at h
                        cases hpf : padFill output2 dataLen olen p with
                        | none => rw [hpf] at h; exact absurd h (by simp)
                        | some output3 =>
                          rw [hpf] at h
                          simp only [Option.some.injEq, Prod.mk.injEq] at h
                          omega
                  rw [hwv]
                  congr 1
                  omega
        · rw [if_neg hrem] at h
          push_neg at hrem
          have hmod : input.length % DECb bit = 0 := by
            have hle := List.drop_eq_nil_iff.mp hrem
            have hge := Nat.div_mul_le_self input.length (DECb bit)
            have hdm := Nat.div_add_mod input.length (DECb bit)
            have hcomm : DECb bit * (input.length / DECb bit) =
                input.length / DECb bit * DECb bit := Nat.mul_comm _ _
            omega
          have hwv : w = w1 := by
            cases hpd : pad with
            | none =>
              rw [hpd] at h
              simp only [Option.some.injEq, Prod.mk.injEq] at h
              omega
            | some p =>
              rw [hpd] at h
              cases hdc : div_ceil (input.length * 8) bit with
              | none => rw [hdc] at h; exact absurd h (by simp)
              | some dataLen =>
                rw [hdc] at h
                dsimp only at h
                cases hpf : padFill (oslice2 ++
                    output.drop (input.length / DECb bit * ENCb bit)) dataLen olen p with
                | none => rw [hpf] at h; exact absurd h (by simp)
                | some output3 =>
                  rw [hpf] at h
                  simp only [Option.some.injEq, Prod.mk.injEq] at h
                  omega
          have htklen : (input.take (input.length / DECb bit * DECb bit)).length =
              input.length := by
            rw [List.length_take]
            have hdm := Nat.div_add_mod input.length (DECb bit)
            have hcomm : DECb bit * (input.length / DECb bit) =
                input.length / DECb bit * DECb bit := Nat.mul_comm _ _
            omega
          have hdvd : DECb bit ∣
              (input.take (input.length / DECb bit * DECb bit)).length := by
            rw [htklen]
            exact Nat.dvd_of_mod_eq_zero hmod
          have hw1 := encodeBlocksGo_ok bit msb sym hdec
            ((input.take (input.length / DECb bit * DECb bit)).length + 1)
            (input.take (input.length / DECb bit * DECb bit)) oslice 0 w1 oslice2
            hdvd (by
              show encodeBlocksLoop bit msb sym
                (input.take (input.length / DECb bit * DECb bit)) oslice 0 =
                some (w1, oslice2)
              rw [← encode_mut_free_noskip_eq bit msb sym _ oslice
                (fun hc => by rw [htklen]; exact hns1 hc)
                (fun hc => by rw [htklen]; exact hns2 hc)]
              exact hfree)
          rw [htklen] at hw1
          have hw1v : w1 = input.length / DECb bit * ENCb bit := by omega
          have holen : olen = input.length / DECb bit * ENCb bit := by
            cases pm with
            | None =>
              unfold encode_pad_len at hpl
              by_cases hbig : input.length > usizeMax / 8
              · rw [if_pos hbig] at hpl
                exact absurd hpl (by simp)
              · rw [if_neg hbig] at hpl
                unfold div_ceil at hpl
                rw [if_neg (by omega)] at hpl
                have hfl2 : input.length / DECb bit * DECb bit = input.length := by
                  have hdm := Nat.div_add_mod input.length (DECb bit)
                  have hcomm : DECb bit * (input.length / DECb bit) =
                      input.length / DECb bit * DECb bit := Nat.mul_comm _ _
                  omega
                have hmul : input.length * 8 =
                    input.length / DECb bit * ENCb bit * bit := by
                  calc input.length * 8
                      = input.length / DECb bit * DECb bit * 8 := by rw [hfl2]
                    _ = input.length / DECb bit * (8 * DECb bit) := by ring
                    _ = input.length / DECb bit * (ENCb bit * bit) := by rw [hbd]
                    _ = input.length / DECb bit * ENCb bit * bit := by ring
                rw [hmul] at hpl
                rw [if_pos (Nat.mul_mod_left _ _)] at hpl
                rw [Nat.mul_div_cancel _ (by omega)] at hpl
                injection hpl with hpl
                omega
            | Standard =>
              simp only [encode_pad_len] at hpl
              cases hdc2 : div_ceil input.length (DECb bit) with
              | none => rw [hdc2] at hpl; exact absurd hpl (by simp)
              | some n =>
                rw [hdc2] at hpl
                dsimp only at hpl
                unfold div_ceil at hdc2
                rw [if_neg (by omega), if_pos hmod] at hdc2
                injection hdc2 with hdc2
                unfold checkedMul at hpl
                split at hpl
                · injection hpl with hpl
                  subst hdc2
                  omega
                · exact absurd hpl (by simp)
            | PadConcat =>
              simp only [encode_pad_len] at hpl
              cases hdc2 : div_ceil input.length (DECb bit) with
              | none => rw [hdc2] at hpl; exact absurd hpl (by simp)
              | some n =>
                rw [hdc2] at hpl
                dsimp only at hpl
                unfold div_ceil at hdc2
                rw [if_neg (by omega), if_pos hmod] at hdc2
                injection hdc2 with hdc2
                unfold checkedMul at hpl
                split at hpl
                · injection hpl with hpl
                  subst hdc2
                  omega
                · exact absurd hpl (by simp)
            | PadFinal =>
              simp only [encode_pad_len] at hpl
              cases hdc2 : div_ceil input.length (DECb bit) with
              | none => rw [hdc2] at hpl; exact absurd hpl (by simp)
              | some n =>
                rw [hdc2] at hpl
                dsimp only at hpl
                unfold div_ceil at hdc2
                rw [if_neg (by omega), if_pos hmod] at hdc2
                injection hdc2 with hdc2
                unfold checkedMul at hpl
                split at hpl
                · injection hpl with hpl
                  subst hdc2
                  omega
                · exact absurd hpl (by simp)
          rw [hwv, hw1v, holen]


/-! ## Wrap-path counting lemmas -/

theorem div_shift (a b c : Nat) (hc : 0 < c) :
    a / c + (a % c + b) / c = (a + b) / c := by
  conv_rhs => rw [← Nat.div_add_mod a c]
  rw [Nat.add_assoc, Nat.mul_add_div hc]

theorem blocksOf_zero (b : Nat) : blocksOf 0 b = 0 := by
  unfold blocksOf
  simp

theorem blocksOf_eq (a c : Nat) (hc : 0 < c) : blocksOf a c = (a + c - 1) / c := by
  unfold blocksOf
  by_cases h : a % c = 0
  · rw [if_pos h]
    have hdm := Nat.div_add_mod a c
    have h1 : a + c - 1 = c * (a / c) + (c - 1) := by omega
    rw [h1, Nat.mul_add_div hc, Nat.div_eq_of_lt (show c - 1 < c from by omega)]
  · rw [if_neg h]
    have hdm := Nat.div_add_mod a c
    have hmlt : a % c < c := Nat.mod_lt _ hc
    have h1 : a + c - 1 = c * (a / c + 1) + (a % c - 1) := by
      have h2 : c * (a / c + 1) = c * (a / c) + c := by ring
      omega
    rw [h1, Nat.mul_add_div hc, Nat.div_eq_of_lt (show a % c - 1 < c from by omega)]

theorem blocksOf_mono (a b c : Nat) (hc : 0 < c) (hab : a ≤ b) :
    blocksOf a c ≤ blocksOf b c := by
  rw [blocksOf_eq a c hc, blocksOf_eq b c hc]
  exact Nat.div_le_div_right (by omega)

theorem blocksOf_le (a b m : Nat) (hb : 0 < b) (h : a ≤ m * b) :
    blocksOf a b ≤ m := by
  rw [blocksOf_eq a b hb]
  have h3 : a + b - 1 < (m + 1) * b := by
    have h4 : (m + 1) * b = m * b + b := by ring
    omega
  have h5 : (a + b - 1) / b < m + 1 := (Nat.div_lt_iff_lt_mul hb).mpr h3
  omega

theorem len_le_blocksOf_mul (a b : Nat) (hb : 0 < b) : a ≤ blocksOf a b * b := by
  unfold blocksOf
  by_cases h : a % b = 0
  · rw [if_pos h]
    have hdm := Nat.div_add_mod a b
    have h2 : (a / b + 0) * b = b * (a / b) := by ring
    omega
  · rw [if_neg h]
    have hdm := Nat.div_add_mod a b
    have hmlt : a % b < b := Nat.mod_lt _ hb
    have h2 : (a / b + 1) * b = b * (a / b) + b := by ring
    omega

theorem blocksOf_step (len dec : Nat) (hdec : 0 < dec) (hlen : 0 < len) :
    blocksOf len dec = 1 + blocksOf (len - min dec len) dec := by
  by_cases hge : dec ≤ len
  · rw [Nat.min_eq_left hge]
    obtain ⟨m, rfl⟩ : ∃ m, len = m + dec := ⟨len - dec, by omega⟩
    rw [Nat.add_sub_cancel]
    unfold blocksOf
    rw [Nat.add_div_right _ hdec, Nat.add_mod_right m dec]
    by_cases h : m % dec = 0
    · rw [if_pos h]
      omega
    · rw [if_neg h]
      omega
  · have hmin : min dec len = len := by omega
    rw [hmin, Nat.sub_self, blocksOf_zero]
    unfold blocksOf
    have hlt : len < dec := by omega
    rw [Nat.div_eq_of_lt hlt, Nat.mod_eq_of_lt hlt, if_neg (by omega)]

theorem div_ceil_eq_blocksOf (a b n : Nat) (h : div_ceil a b = some n) :
    0 < b ∧ n = blocksOf a b := by
  unfold div_ceil at h
  split at h
  · exact absurd h (by simp)
  · rename_i hb
    refine ⟨by omega, ?_⟩
    dsimp only at h
    unfold blocksOf
    split at h
    · rename_i hmod
      injection h with h
      rw [if_pos hmod]
      omega
    · rename_i hmod
      split at h
      · injection h with h
        rw [if_neg hmod]
        omega
      · exact absurd h (by simp)

theorem wr_length (l : List Nat) (i v : Nat) (o : List Nat)
    (h : wr l i v = some o) : o.length = l.length := by
  obtain ⟨hi, ho⟩ := wr_ok l i v o h
  rw [ho]
  exact writeAt_length l i [v] (by simp only [List.length_cons, List.length_nil]; omega)

theorem foldlM_length_inv (g : List Nat → Nat → Option (List Nat))
    (hg : ∀ out i o, g out i = some o → o.length = out.length) :
    ∀ (L : List Nat) (out o : List Nat), List.foldlM g out L = some o →
    o.length = out.length := by
  intro L
  induction L with
  | nil =>
    intro out o h
    rw [List.foldlM_nil] at h
    injection h with h
    rw [← h]
  | cons x xs ih =>
    intro out o h
    rw [List.foldlM_cons] at h
    cases hgx : g out x with
    | none => rw [hgx] at h; exact absurd h (by simp)
    | some o1 =>
      rw [hgx] at h
      simp only [Option.bind_eq_bind, Option.some_bind] at h
      rw [ih o1 o h, hg out x o1 hgx]

theorem encode_block_length (bit : Nat) (msb : Bool) (sym inp out ob : List Nat)
    (h : encode_block bit msb sym inp out = some ob) : ob.length = out.length := by
  unfold encode_block at h
  refine foldlM_length_inv _ ?_ _ out ob h
  intro o i o2 hg
  dsimp only at hg
  cases hs : sym[encSymVal bit msb inp i]? with
  | none => rw [hs] at hg; exact absurd hg (by simp)
  | some s =>
    rw [hs] at hg
    exact wr_length o i s o2 hg

theorem copyFromSlice_facts (l : List Nat) (a b : Nat) (src o : List Nat)
    (h : copyFromSlice l a b src = some o) :
    a ≤ b ∧ b ≤ l.length ∧ o.length = l.length := by
  unfold copyFromSlice at h
  split at h
  · rename_i hcond
    injection h with h4
    refine ⟨hcond.1, hcond.2.1, ?_⟩
    rw [← h4]
    simp only [List.length_append, List.length_take, List.length_drop]
    omega
  · exact absurd h (by simp)

theorem sliceL_facts (l : List Nat) (a b : Nat) (o : List Nat)
    (h : sliceL l a b = some o) : a ≤ b ∧ b ≤ l.length ∧ o.length = b - a := by
  unfold sliceL at h
  split at h
  · rename_i hcond
    injection h with h2
    refine ⟨hcond.1, hcond.2, ?_⟩
    rw [← h2]
    simp only [List.length_drop, List.length_take]
    omega
  · exact absurd h (by simp)


theorem wrapEmitSyms_ok (col : Nat) (endSep : List Nat) (hcol : 0 < col) :
    ∀ (temp : List Nat) (written j : Nat) (output : List Nat)
      (w2 j2 : Nat) (o2 : List Nat),
    j < col →
    wrapEmitSyms col endSep temp written j output = some (w2, j2, o2) →
    w2 = written + temp.length + endSep.length * ((j + temp.length) / col) ∧
    j2 = (j + temp.length) % col ∧ j2 < col ∧ o2.length = output.length ∧
    (temp ≠ [] → w2 ≤ output.length) := by
  intro temp
  induction temp with
  | nil =>
    intro written j output w2 j2 o2 hj h
    rw [wrapEmitSyms] at h
    simp only [Option.some.injEq, Prod.mk.injEq] at h
    obtain ⟨hw, hj2, ho⟩ := h
    refine ⟨?_, ?_, ?_, by rw [← ho], by intro hc; exact absurd rfl hc⟩
    · rw [← hw]
      simp only [List.length_nil, Nat.add_zero]
      rw [Nat.div_eq_of_lt hj]
      omega
    · rw [← hj2]
      simp only [List.length_nil, Nat.add_zero]
      rw [Nat.mod_eq_of_lt hj]
    · rw [← hj2]
      exact hj
  | cons t rest ih =>
    intro written j output w2 j2 o2 hj h
    rw [wrapEmitSyms] at h
    cases hw : wr output written t with
    | none => rw [hw] at h; exact absurd h (by simp)
    | some o1 =>
      rw [hw] at h
      dsimp only at h
      have hwlen : o1.length = output.length := wr_length output written t o1 hw
      have hwlt : written < output.length := (wr_ok output written t o1 hw).1
      by_cases hjc : j + 1 = col
      · rw [if_pos hjc] at h
        cases hcf : copyFromSlice o1 (written + 1) (written + 1 + endSep.length)
            endSep with
        | none => rw [hcf] at h; exact absurd h (by simp)
        | some o1b =>
          rw [hcf] at h
          obtain ⟨-, hble, hcl⟩ := copyFromSlice_facts _ _ _ _ _ hcf
          obtain ⟨ihw, ihj, ihjlt, ihlen, ihbound⟩ :=
            ih (written + 1 + endSep.length) 0 o1b w2 j2 o2 (by omega) h
          rw [Nat.zero_add] at ihw ihj
          have hdiv : (j + (t :: rest).length) / col = 1 + rest.length / col := by
            simp only [List.length_cons]
            rw [show j + (rest.length + 1) = rest.length + col from by omega]
            rw [Nat.add_div_right _ hcol]
            omega
          have hmod : (j + (t :: rest).length) % col = rest.length % col := by
            simp only [List.length_cons]
            rw [show j + (rest.length + 1) = col + rest.length from by omega]
            exact Nat.add_mod_left col rest.length
          refine ⟨?_, ?_, ihjlt, by rw [ihlen, hcl, hwlen], ?_⟩
          · rw [ihw, hdiv]
            simp only [List.length_cons]
            have hexp : endSep.length * (1 + rest.length / col) =
                endSep.length + endSep.length * (rest.length / col) := by ring
            omega
          · rw [ihj, hmod]
          · intro _
            by_cases hrest : rest = []
            · subst hrest
              rw [ihw]
              simp only [List.length_nil, Nat.add_zero]
              rw [Nat.div_eq_of_lt hcol, Nat.mul_zero, Nat.add_zero]
              rw [hwlen] at hble
              exact hble
            · have hb := ihbound hrest
              rw [hcl, hwlen] at hb
              exact hb
      · rw [if_neg hjc] at h
        have hjlt : j + 1 < col := by omega
        obtain ⟨ihw, ihj, ihjlt, ihlen, ihbound⟩ :=
          ih (written + 1) (j + 1) o1 w2 j2 o2 hjlt h
        have hidx : j + 1 + rest.length = j + (t :: rest).length := by
          simp only [List.length_cons]
          omega
        refine ⟨?_, ?_, ihjlt, by rw [ihlen, hwlen], ?_⟩
        · rw [ihw, hidx]
          simp only [List.length_cons]
          omega
        · rw [ihj, hidx]
        · intro _
          by_cases hrest : rest = []
          · subst hrest
            rw [ihw]
            simp only [List.length_nil, Nat.add_zero]
            rw [Nat.div_eq_of_lt hjlt, Nat.mul_zero, Nat.add_zero]
            omega
          · have hb := ihbound hrest
            rw [hwlen] at hb
            exact hb


theorem blocksOf_of_mod_eq (a c : Nat) (h : a % c = 0) : blocksOf a c = a / c := by
  unfold blocksOf
  rw [if_pos h]
  omega

theorem blocksOf_of_mod_ne (a c : Nat) (h : a % c ≠ 0) :
    blocksOf a c = a / c + 1 := by
  unfold blocksOf
  rw [if_neg h]

theorem wrapMainGo_ok (bit : Nat) (msb : Bool) (sym : List Nat) (col : Nat)
    (endSep : List Nat) (hcol : 0 < col) (henc : 0 < ENCb bit) :
    ∀ (fuel : Nat) (input : List Nat) (written j : Nat) (output : List Nat)
      (w1 j1 : Nat) (o1 : List Nat),
    j < col →
    wrapMainGo bit msb sym col endSep fuel input written j output =
      some (w1, j1, o1) →
    w1 = written + blocksOf input.length (DECb bit) * ENCb bit +
      endSep.length * ((j + blocksOf input.length (DECb bit) * ENCb bit) / col) ∧
    j1 = (j + blocksOf input.length (DECb bit) * ENCb bit) % col ∧
    j1 < col ∧ o1.length = output.length ∧
    (input ≠ [] → w1 ≤ output.length) := by
  intro fuel
  induction fuel with
  | zero =>
    intro input written j output w1 j1 o1 hj h
    rw [wrapMainGo] at h
    exact absurd h (by simp)
  | succ fuel ih =>
    intro input written j output w1 j1 o1 hj h
    rw [wrapMainGo] at h
    by_cases hinp : input = []
    · rw [if_pos hinp] at h
      simp only [Option.some.injEq, Prod.mk.injEq] at h
      obtain ⟨hw, hj2, ho⟩ := h
      subst hinp
      simp only [List.length_nil]
      rw [blocksOf_zero]
      simp only [Nat.zero_mul, Nat.add_zero]
      refine ⟨?_, ?_, ?_, by rw [← ho], by intro hc; exact absurd rfl hc⟩
      · rw [← hw, Nat.div_eq_of_lt hj]
        omega
      · rw [← hj2, Nat.mod_eq_of_lt hj]
      · rw [← hj2]
        exact hj
    · rw [if_neg hinp] at h
      dsimp only at h
      by_cases hn : min (DECb bit) input.length = 0
      · rw [if_pos hn] at h
        exact absurd h (by simp)
      · rw [if_neg hn] at h
        have hlen0 : 0 < input.length := List.length_pos.mpr hinp
        have hdec : 0 < DECb bit := by omega
        cases hsl : sliceL (List.replicate 8 0) 0 (ENCb bit) with
        | none => rw [hsl] at h; exact absurd h (by simp)
        | some tslice =>
          rw [hsl] at h
          dsimp only at h
          cases heb : encode_block bit msb sym
              (input.take (min (DECb bit) input.length)) tslice with
          | none => rw [heb] at h; exact absurd h (by simp)
          | some tb =>
            rw [heb] at h
            dsimp only at h
            cases hes : wrapEmitSyms col endSep tb written j output with
            | none => rw [hes] at h; exact absurd h (by simp)
            | some trip =>
              obtain ⟨w2, j2, o2⟩ := trip
              rw [hes] at h
              dsimp only at h
              have htb : tb.length = ENCb bit := by
                rw [encode_block_length bit msb sym _ tslice tb heb]
                have hsf := sliceL_facts _ 0 (ENCb bit) tslice hsl
                omega
              obtain ⟨hew, hej, hejlt, helen, hebound⟩ :=
                wrapEmitSyms_ok col endSep hcol tb written j output w2 j2 o2 hj hes
              obtain ⟨ihw, ihj, ihjlt, ihlen, ihbound⟩ :=
                ih (input.drop (min (DECb bit) input.length)) w2 j2 o2 w1 j1 o1
                  hejlt h
              have hstep : blocksOf input.length (DECb bit) =
                  1 + blocksOf (input.drop (min (DECb bit) input.length)).length
                    (DECb bit) := by
                rw [List.length_drop]
                exact blocksOf_step input.length (DECb bit) hdec hlen0
              have htbne : tb ≠ [] := by
                intro hc
                rw [hc] at htb
                simp only [List.length_nil] at htb
                omega
              have hb2 : w2 ≤ output.length := hebound htbne
              rw [htb] at hew hej
              rw [hej] at ihw ihj
              refine ⟨?_, ?_, ihjlt, by rw [ihlen, helen], ?_⟩
              · rw [hstep]
                have hBe : (1 + blocksOf
                      (input.drop (min (DECb bit) input.length)).length (DECb bit)) *
                      ENCb bit =
                    ENCb bit + blocksOf
                      (input.drop (min (DECb bit) input.length)).length (DECb bit) *
                      ENCb bit := by ring
                rw [hBe]
                rw [show j + (ENCb bit + blocksOf
                      (input.drop (min (DECb bit) input.length)).length (DECb bit) *
                      ENCb bit) =
                    j + ENCb bit + blocksOf
                      (input.drop (min (DECb bit) input.length)).length (DECb bit) *
                      ENCb bit from by omega]
                have hds := div_shift (j + ENCb bit)
                  (blocksOf (input.drop (min (DECb bit) input.length)).length
                    (DECb bit) * ENCb bit) col hcol
                have hmm : endSep.length * ((j + ENCb bit) / col) +
                    endSep.length * (((j + ENCb bit) % col + blocksOf
                      (input.drop (min (DECb bit) input.length)).length (DECb bit) *
                      ENCb bit) / col) =
                    endSep.length * ((j + ENCb bit + blocksOf
                      (input.drop (min (DECb bit) input.length)).length (DECb bit) *
                      ENCb bit) / col) := by
                  rw [← hds]
                  ring
                omega
              · rw [ihj, Nat.mod_add_mod, hstep]
                rw [show (1 + blocksOf
                      (input.drop (min (DECb bit) input.length)).length (DECb bit)) *
                      ENCb bit =
                    ENCb bit + blocksOf
                      (input.drop (min (DECb bit) input.length)).length (DECb bit) *
                      ENCb bit from by ring]
                rw [show j + (ENCb bit + blocksOf
                      (input.drop (min (DECb bit) input.length)).length (DECb bit) *
                      ENCb bit) =
                    j + ENCb bit + blocksOf
                      (input.drop (min (DECb bit) input.length)).length (DECb bit) *
                      ENCb bit from by omega]
              · intro _
                by_cases hdrop : input.drop (min (DECb bit) input.length) = []
                · have hS0 : blocksOf
                      (input.drop (min (DECb bit) input.length)).length (DECb bit) =
                      0 := by
                    rw [hdrop]
                    simp only [List.length_nil]
                    exact blocksOf_zero _
                  have hw12 : w1 = w2 := by
                    rw [ihw, hS0]
                    simp only [Nat.zero_mul, Nat.add_zero]
                    rw [Nat.div_eq_of_lt (Nat.mod_lt _ hcol)]
                    simp
                  omega
                · have hb := ihbound hdrop
                  rw [helen] at hb
                  exact hb

theorem wrapPadGo_noop (col : Nat) (endSep : List Nat) (p olen fuel written j : Nat)
    (output : List Nat) (h : ¬ written < olen) :
    wrapPadGo col endSep p olen (fuel + 1) written j output =
      some (written, j, output) := by
  rw [wrapPadGo, if_neg h]

theorem encode_pad_len_le (bit : Nat) (pm : PaddingMode) (len olen : Nat)
    (hbi : 1 ≤ bit) (hbi2 : bit < 7) (h : encode_pad_len bit pm len = some olen) :
    olen ≤ blocksOf len (DECb bit) * ENCb bit := by
  have hbd : ENCb bit * bit = 8 * DECb bit := by interval_cases bit <;> rfl
  have hdec : 0 < DECb bit := by interval_cases bit <;> decide
  cases pm with
  | None =>
    simp only [encode_pad_len] at h
    by_cases hbig : len > usizeMax / 8
    · rw [if_pos hbig] at h
      exact absurd h (by simp)
    · rw [if_neg hbig] at h
      obtain ⟨hbitpos, holen⟩ := div_ceil_eq_blocksOf _ _ _ h
      rw [holen]
      refine blocksOf_le _ _ _ hbitpos ?_
      have h1 : len ≤ blocksOf len (DECb bit) * DECb bit :=
        len_le_blocksOf_mul len (DECb bit) hdec
      calc len * 8 ≤ blocksOf len (DECb bit) * DECb bit * 8 :=
            Nat.mul_le_mul_right 8 h1
        _ = blocksOf len (DECb bit) * (8 * DECb bit) := by ring
        _ = blocksOf len (DECb bit) * (ENCb bit * bit) := by rw [hbd]
        _ = blocksOf len (DECb bit) * ENCb bit * bit := by ring
  | Standard =>
    simp only [encode_pad_len] at h
    cases hdc : div_ceil len (DECb bit) with
    | none => rw [hdc] at h; exact absurd h (by simp)
    | some n =>
      rw [hdc] at h
      dsimp only at h
      obtain ⟨-, hn⟩ := div_ceil_eq_blocksOf _ _ _ hdc
      unfold checkedMul at h
      split at h
      · injection h with h
        rw [← h, hn]
      · exact absurd h (by simp)
  | PadConcat =>
    simp only [encode_pad_len] at h
    cases hdc : div_ceil len (DECb bit) with
    | none => rw [hdc] at h; exact absurd h (by simp)
    | some n =>
      rw [hdc] at h
      dsimp only at h
      obtain ⟨-, hn⟩ := div_ceil_eq_blocksOf _ _ _ hdc
      unfold checkedMul at h
      split at h
      · injection h with h
        rw [← h, hn]
      · exact absurd h (by simp)
  | PadFinal =>
    simp only [encode_pad_len] at h
    cases hdc : div_ceil len (DECb bit) with
    | none => rw [hdc] at h; exact absurd h (by simp)
    | some n =>
      rw [hdc] at h
      dsimp only at h
      obtain ⟨-, hn⟩ := div_ceil_eq_blocksOf _ _ _ hdc
      unfold checkedMul at h
      split at h
      · injection h with h
        rw [← h, hn]
      · exact absurd h (by simp)

theorem encode_wrap_mut_wrap_ok (bit : Nat) (msb : Bool) (pm : PaddingMode)
    (sym : List Nat) (pad : Option Nat) (col : Nat) (endSep : List Nat)
    (input output : List Nat) (w : Nat) (out2 : List Nat)
    (hbi : 1 ≤ bit) (hbi2 : bit < 7) (hcol : 0 < col)
    (h : encode_wrap_mut bit msb pm sym pad (some (col, endSep)) input output =
      some (w, out2)) :
    w = blocksOf input.length (DECb bit) * ENCb bit +
      endSep.length * blocksOf (blocksOf input.length (DECb bit) * ENCb bit) col ∧
    w ≤ output.length := by
  have henc : 0 < ENCb bit := by interval_cases bit <;> decide
  unfold encode_wrap_mut at h
  cases hpl : encode_pad_len bit pm input.length with
  | none => rw [hpl] at h; exact absurd h (by simp)
  | some olen =>
    rw [hpl] at h
    dsimp only at h
    cases hml : wrapMainLoop bit msb sym col endSep input 0 0 output with
    | none => rw [hml] at h; exact absurd h (by simp)
    | some trip =>
      obtain ⟨w1, j1, o1⟩ := trip
      rw [hml] at h
      unfold wrapMainLoop at hml
      obtain ⟨hw1, hj1, hj1lt, ho1len, hbound⟩ :=
        wrapMainGo_ok bit msb sym col endSep hcol henc (input.length + 1) input
          0 0 output w1 j1 o1 hcol hml
      simp only [Nat.zero_add] at hw1 hj1
      have holen : olen ≤ blocksOf input.length (DECb bit) * ENCb bit :=
        encode_pad_len_le bit pm input.length olen hbi hbi2 hpl
      have h2 : (if j1 ≠ 0 then
          match copyFromSlice o1 w1 (w1 + endSep.length) endSep with
          | none => none
          | some o3 => some (w1 + endSep.length, o3)
        else some (w1, o1)) = some (w, out2) := by
        cases pad with
        | none =>
          dsimp only at h
          exact h
        | some p =>
          dsimp only at h
          unfold wrapPadLoop at h
          rw [wrapPadGo_noop col endSep p olen olen w1 j1 o1 (by omega)] at h
          dsimp only at h
          exact h
      clear h
      by_cases hj0 : j1 ≠ 0
      · rw [if_pos hj0] at h2
        cases hcf : copyFromSlice o1 w1 (w1 + endSep.length) endSep with
        | none => rw [hcf] at h2; exact absurd h2 (by simp)
        | some o3 =>
          rw [hcf] at h2
          simp only [Option.some.injEq, Prod.mk.injEq] at h2
          obtain ⟨hw, hout⟩ := h2
          obtain ⟨-, hble, -⟩ := copyFromSlice_facts _ _ _ _ _ hcf
          have hmodne : blocksOf input.length (DECb bit) * ENCb bit % col ≠ 0 := by
            rw [← hj1]
            exact hj0
          constructor
          · rw [← hw, hw1, blocksOf_of_mod_ne _ _ hmodne]
            have hexp : endSep.length *
                (blocksOf input.length (DECb bit) * ENCb bit / col + 1) =
                endSep.length *
                  (blocksOf input.length (DECb bit) * ENCb bit / col) +
                  endSep.length := by ring
            omega
          · rw [← hw]
            omega
      · rw [if_neg hj0] at h2
        simp only [Option.some.injEq, Prod.mk.injEq] at h2
        obtain ⟨hw, hout⟩ := h2
        have hj10 : j1 = 0 := not_not.mp hj0
        have hmodeq : blocksOf input.length (DECb bit) * ENCb bit % col = 0 := by
          rw [← hj1]
          exact hj10
        constructor
        · rw [← hw, blocksOf_of_mod_eq _ _ hmodeq]
          exact hw1
        · rw [← hw]
          by_cases hinp : input = []
          · subst hinp
            simp only [List.length_nil] at hw1
            rw [blocksOf_zero] at hw1
            simp only [Nat.zero_mul, Nat.zero_div, Nat.mul_zero, Nat.add_zero]
              at hw1
            omega
          · exact hbound hinp


/-- C3 amended: in block mode `encode_mut` rejects any output buffer whose
length differs from `encode_len` with a `BufferTooSmall` error, and — when the
portable-build SIMD prefix-skip is not engaged (non-MSB, bit width not 6 or 4,
or input below 12 or 16 bytes) — a successful call returns exactly
`encode_len`, with or without wrapping; in arithmetic mode `encode_mut` is
`encode_to_buffer` with no exact-length check at all, and a successful call
returns the actual symbol count `arithLen` (one leader per leading zero byte
plus the digit count). -/
theorem c3_encode_len_exactness_amended :
    (∀ (e : Encoding) (input output : List Nat) (olen : Nat),
      e.is_arithmetic = false → e.encode_len input.length = R.ok olen →
      output.length ≠ olen →
      e.encode_mut input output = (R.err ⟨EncodeKind.BufferTooSmall⟩, output)) ∧
    (∀ (e : Encoding) (input output : List Nat) (w : Nat) (out2 : List Nat),
      e.is_arithmetic = false →
      (e.bit = 6 ∧ e.msb = true → input.length < 12) →
      (e.bit = 4 ∧ e.msb = true → input.length < 16) →
      e.encode_mut input output = (R.ok w, out2) →
      e.encode_len input.length = R.ok w) ∧
    (∀ (e : Encoding) (input output : List Nat),
      e.is_arithmetic = true →
      e.encode_mut input output = encode_to_buffer e.get_symbols input output) ∧
    (∀ (e : Encoding) (input output : List Nat) (w : Nat) (out2 : List Nat),
      e.is_arithmetic = true → 2 ≤ e.get_symbols.length → (∀ b ∈ input, b < 256) →
      e.encode_mut input output = (R.ok w, out2) →
      w = arithLen e.get_symbols input) := by
  refine ⟨?_, ?_, ?_, ?_⟩
  · intro e input output olen ha hlen hne
    unfold Encoding.encode_mut
    rw [ha]
    rw [if_neg (by simp)]
    rw [hlen]
    dsimp only
    rw [if_pos hne]
  · intro e input output w out2 ha hns1 hns2 h
    unfold Encoding.encode_mut at h
    rw [ha, if_neg (by simp)] at h
    cases hel : e.encode_len input.length with
    | err er => rw [hel] at h; exact absurd h (by simp)
    | panic => rw [hel] at h; exact absurd h (by simp)
    | hang => rw [hel] at h; exact absurd h (by simp)
    | ok len =>
      rw [hel] at h
      dsimp only at h
      by_cases hmm : output.length ≠ len
      · rw [if_pos hmm] at h
        exact absurd h (by simp)
      · rw [if_neg hmm] at h
        by_cases hbit : e.bit = 0 ∨ 7 ≤ e.bit
        · rw [if_pos hbit] at h
          exact absurd h (by simp)
        · rw [if_neg hbit] at h
          cases hewm : encode_wrap_mut e.bit e.msb e.pad_mode e.sym e.pad e.wrap
              input output with
          | none => rw [hewm] at h; exact absurd h (by simp)
          | some pr =>
            obtain ⟨w2, o2⟩ := pr
            rw [hewm] at h
            dsimp only at h
            simp only [Prod.mk.injEq, R.ok.injEq] at h
            obtain ⟨hw2, -⟩ := h
            cases hwr : e.wrap with
            | none =>
              unfold encode_wrap_mut at hewm
              cases hpl : encode_pad_len e.bit e.pad_mode input.length with
              | none => rw [hpl] at hewm; exact absurd hewm (by simp)
              | some olen2 =>
                rw [hpl, hwr] at hewm
                dsimp only at hewm
                have hex := encode_pad_ok_exact e.bit e.msb e.pad_mode e.sym e.pad
                  input output w2 o2 (by omega) hns1 hns2 hewm
                have hlen2 : e.encode_len input.length = R.ok w2 := by
                  unfold Encoding.encode_len
                  rw [ha, if_neg (by simp), if_neg hbit, hwr]
                  unfold encode_wrap_len
                  rw [hex]
                  rfl
                rw [hel] at hlen2
                injection hlen2 with hlw
                rw [hlw, hw2]
            | some pr2 =>
              obtain ⟨col, endSep⟩ := pr2
              rw [hwr] at hewm
              have hewl : encode_wrap_len e.bit e.pad_mode
                  (some (col, endSep.length)) input.length = some len := by
                have hel2 := hel
                unfold Encoding.encode_len at hel2
                rw [ha, if_neg (by simp), if_neg hbit, hwr] at hel2
                dsimp only [Option.map] at hel2
                cases hw3 : encode_wrap_len e.bit e.pad_mode
                    (some (col, endSep.length)) input.length with
                | none => rw [hw3] at hel2; exact absurd hel2 (by simp)
                | some l2 =>
                  rw [hw3] at hel2
                  dsimp only at hel2
                  injection hel2 with hl2
                  rw [hl2]
              unfold encode_wrap_len at hewl
              cases hpl2 : encode_pad_len e.bit e.pad_mode input.length with
              | none => rw [hpl2] at hewl; exact absurd hewl (by simp)
              | some olen2 =>
                rw [hpl2] at hewl
                dsimp only at hewl
                cases hdc : div_ceil olen2 col with
                | none => rw [hdc] at hewl; exact absurd hewl (by simp)
                | some n =>
                  rw [hdc] at hewl
                  dsimp only at hewl
                  obtain ⟨hcolpos, hnb⟩ := div_ceil_eq_blocksOf _ _ _ hdc
                  subst hnb
                  cases hcm : checkedMul endSep.length (blocksOf olen2 col) with
                  | none => rw [hcm] at hewl; exact absurd hewl (by simp)
                  | some extra =>
                    rw [hcm] at hewl
                    dsimp only at hewl
                    unfold checkedMul at hcm
                    split at hcm
                    · injection hcm with hcm
                      unfold checkedAdd at hewl
                      split at hewl
                      · injection hewl with hlen3
                        obtain ⟨hwcount, hwle⟩ := encode_wrap_mut_wrap_ok e.bit
                          e.msb e.pad_mode e.sym e.pad col endSep input output
                          w2 o2 (by omega) (by omega) hcolpos hewm
                        have holen_le := encode_pad_len_le e.bit e.pad_mode
                          input.length olen2 (by omega) (by omega) hpl2
                        have hmul : endSep.length * blocksOf olen2 col ≤
                            endSep.length * blocksOf
                              (blocksOf input.length (DECb e.bit) * ENCb e.bit)
                              col :=
                          Nat.mul_le_mul_left _
                            (blocksOf_mono _ _ _ hcolpos holen_le)
                        have hol : output.length = len := not_not.mp hmm
                        have hw2len : w2 = len := by omega
                        rw [← hw2, hw2len]
                      · exact absurd hewl (by simp)
                    · exact absurd hcm (by simp)
  · intro e input output ha
    unfold Encoding.encode_mut
    rw [ha, if_pos rfl]
  · intro e input output w out2 ha hb hbytes h
    unfold Encoding.encode_mut at h
    rw [ha, if_pos rfl] at h
    exact (encode_to_buffer_ok e.get_symbols input output w out2 hb hbytes h).1

/-- Witness for the amended C3: base64 rejects an empty buffer for a 1-byte
input (`encode_len` is 4); padded base64 of one byte returns exactly 4;
Base58's `encode_mut` is `encode_to_buffer`; Base58 encode of `[0, 1]`
returns the actual count 2 (one leader plus one digit). -/
theorem c3_encode_len_exactness_amended_witness :
    BASE64E.encode_mut [1] [] = (R.err ⟨EncodeKind.BufferTooSmall⟩, []) ∧
    BASE64E.encode_len 1 = R.ok 4 ∧
    BASE58E.encode_mut [0, 1] (List.replicate 4 0) =
      encode_to_buffer BASE58E.get_symbols [0, 1] (List.replicate 4 0) ∧
    2 = arithLen BASE58E.get_symbols [0, 1] :=
  ⟨c3_encode_len_exactness_amended.1 BASE64E [1] [] 4 (by rfl) (by rfl) (by decide),
   c3_encode_len_exactness_amended.2.1 BASE64E [1] (List.replicate 4 0) 4
     [65, 81, 61, 61] (by rfl) (fun hx => by decide) (fun hx => by decide)
     (by rfl),
   c3_encode_len_exactness_amended.2.2.1 BASE58E [0, 1] (List.replicate 4 0) (by rfl),
   c3_encode_len_exactness_amended.2.2.2 BASE58E [0, 1] (List.replicate 4 0) 2
     [49, 50, 0, 0] (by rfl) (by decide) (by decide) (by rfl)⟩

end DE
